import Mathlib

/-!
A shallow embedding of the `osmem` allocator.

The allocator of `src/osmem.c` and `src/block_functions.c` keeps its block
headers in band and threads one doubly linked list through them.  The
embedding keeps that shape: memory is a map from (address, header field) to
a machine word, every `block->field` of the source is a `load` or a `store`
in source order, and the three system calls act on an explicit model of the
program break and of the mapping area.

* `size_t` values are naturals reduced modulo `2 ^ 64` at every arithmetic
  step of the source; the `int diff` of `find_available_block` is an `Int`
  obtained by truncation to 32 bits.
* A function returns `none` when the source has no defined result: a load
  through `NULL`, a load of a header word nobody stored (or that was
  unmapped), or a list walk that does not end within the fuel.
* A run records the system calls and the bulk memory operations it issues in
  `State.trace`.
-/

namespace OsMem

/-! ## Machine words -/

/-- The modulus of `size_t` arithmetic. -/
def SIZE_MOD : Nat := 18446744073709551616

/-- Unsigned subtraction of two `size_t` values. -/
def usub (a b : Nat) : Nat := (a + SIZE_MOD - b % SIZE_MOD) % SIZE_MOD

/-- Conversion of a `size_t` value to `int`: the low 32 bits, read as two's
complement. -/
def to_int (x : Nat) : Int :=
  if x % 4294967296 < 2147483648 then ((x % 4294967296 : Nat) : Int)
  else ((x % 4294967296 : Nat) : Int) - 4294967296

/-- Conversion `(size_t)diff` of an `int` to `size_t` (sign extension). -/
def to_size_t (d : Int) : Nat := (d % (SIZE_MOD : Int)).toNat

/-- The function `min` of `osmem.c`. -/
protected def min (a b : Nat) : Nat := if a < b then a else b

/-! ## Constants -/

/-- Build parameters the sources leave to the platform: `META_SIZE` is
`sizeof(struct block_meta)` (the header `block_meta.h` is not among the
sources) and `PAGE_SIZE` is what `getpagesize()` returns. -/
structure Config where
  META_SIZE : Nat
  PAGE_SIZE : Nat

/-- The LP64 instance: a header of one `size_t`, one `int` and two pointers
occupies 32 bytes, pages are 4096 bytes. -/
def cfg64 : Config := ⟨32, 4096⟩

/-- `#define MMAP_THRESHOLD (128 * 1024)`. -/
def MMAP_THRESHOLD : Nat := 131072

/-- `#define META_PADDING ((8 - (META_SIZE % 8)) % 8)`. -/
def META_PADDING (cfg : Config) : Nat := (8 - cfg.META_SIZE % 8) % 8

/-- The header offset `META_SIZE + META_PADDING` every total size starts
with. -/
def header_offset (cfg : Config) : Nat := cfg.META_SIZE + META_PADDING cfg

/-- Modelled from the spec: `block_meta.h` is missing; the status of a
reusable heap region. -/
def STATUS_FREE : Nat := 0

/-- Modelled from the spec: `block_meta.h` is missing; the status of a heap
region handed out to the caller. -/
def STATUS_ALLOC : Nat := 1

/-- Modelled from the spec: `block_meta.h` is missing; the status of a region
backed by its own anonymous mapping. -/
def STATUS_MAPPED : Nat := 2

/-- The value `(void *)-1`, which is also `MAP_FAILED`. -/
def PTR_FAIL : Nat := 18446744073709551615

/-- The padding of a payload of `size` bytes up to a multiple of 8. -/
def pad8 (size : Nat) : Nat := if size % 8 = 0 then 0 else 8 - size % 8

/-- The `total_size` of the source:
`META_SIZE + META_PADDING + size + padding` in `size_t` arithmetic. -/
def total_size (cfg : Config) (size : Nat) : Nat :=
  (cfg.META_SIZE + META_PADDING cfg + size + pad8 size) % SIZE_MOD

/-! ## Memory -/

/-- The four members of `struct block_meta`. -/
inductive Field
  | size
  | status
  | prev
  | next
  deriving DecidableEq, Repr

/-- Header words, by address of the header and member. -/
abbrev Mem := Nat → Field → Option Nat

/-- The expression `a->f` read: undefined through `NULL` and on a word that
holds no stored header member. -/
def load (m : Mem) (a : Nat) (f : Field) : Option Nat :=
  if a = 0 then none else m a f

/-- The header words after the word `f` of the header at `a` is set to
`v`. -/
def poke (m : Mem) (a : Nat) (f : Field) (v : Nat) : Mem :=
  fun a2 f2 => if a2 = a ∧ f2 = f then some v else m a2 f2

/-- The assignment `a->f = v`: undefined through `NULL`. -/
def store (m : Mem) (a : Nat) (f : Field) (v : Nat) : Option Mem :=
  if a = 0 then none else some (poke m a f v)

/-- The effect of `munmap(addr, len)` on the header words. -/
def unmap (m : Mem) (addr len : Nat) : Mem :=
  fun a f => if addr ≤ a ∧ a < addr + len then none else m a f

/-! ## Block registry (`block_functions.c`) -/

/-- The function `find_last_block`:
`while (block && block->next) block = block->next; return block;`. -/
def find_last_block : Nat → Mem → Nat → Option Nat
  | 0, _, _ => none
  | k + 1, m, block =>
    if block = 0 then some block
    else
      match load m block Field.next with
      | none => none
      | some nx => if nx = 0 then some block else find_last_block k m nx

/-- The loop of `find_available_block`, with its locals `block`,
`best_block` and `diff`. -/
def find_available_loop (size : Nat) : Nat → Mem → Nat → Nat → Int → Option Nat
  | 0, _, _, _, _ => none
  | k + 1, m, block, best_block, diff =>
    if block = 0 then some best_block
    else
      match load m block Field.status with
      | none => none
      | some st =>
        if st = STATUS_FREE then
          match load m block Field.size, load m block Field.next with
          | some sz, some nx =>
            if size ≤ sz then
              if diff = -1 then
                find_available_loop size k m nx block (to_int (usub sz size))
              else if usub sz size < to_size_t diff then
                find_available_loop size k m nx block (to_int (usub sz size))
              else find_available_loop size k m nx best_block diff
            else find_available_loop size k m nx best_block diff
          | _, _ => none
        else
          match load m block Field.next with
          | none => none
          | some nx => find_available_loop size k m nx best_block diff

/-- The function `find_available_block(start, size)`. -/
def find_available_block (fuel : Nat) (m : Mem) (start size : Nat) : Option Nat :=
  find_available_loop size fuel m start 0 (-1)

/-- The loop of `find_block`. -/
def find_block_loop (cfg : Config) (ptr : Nat) : Nat → Mem → Nat → Option Nat
  | 0, _, _ => none
  | k + 1, m, block =>
    if block = 0 then some 0
    else if block + cfg.META_SIZE = ptr then some block
    else
      match load m block Field.next with
      | none => none
      | some nx => find_block_loop cfg ptr k m nx

/-- The function `find_block(start_block, ptr)`. -/
def find_block (cfg : Config) (fuel : Nat) (m : Mem) (start_block ptr : Nat) :
    Option Nat :=
  if ptr = 0 then some 0 else find_block_loop cfg ptr fuel m start_block

/-- The loop of `find_last_heap_block`, with its locals `block` and
`found`. -/
def find_last_heap_loop : Nat → Mem → Nat → Nat → Option Nat
  | 0, _, _, _ => none
  | k + 1, m, block, found =>
    if block = 0 then some found
    else
      match load m block Field.status with
      | none => none
      | some st =>
        if st = STATUS_MAPPED then some found
        else
          match load m block Field.next with
          | none => none
          | some nx => find_last_heap_loop k m nx block

/-- The function `find_last_heap_block(start_block)`. -/
def find_last_heap_block (fuel : Nat) (m : Mem) (start_block : Nat) : Option Nat :=
  find_last_heap_loop fuel m start_block 0

/-- The loop of `sort_blocks`.  The parameter `start_block` of the source is
a local copy of the head: the assignment `start_block = next_block` changes
`start` here and nothing the caller sees. -/
def sort_blocks_loop (fuel : Nat) : Nat → Mem → Nat → Nat → Option Mem
  | 0, _, _, _ => none
  | k + 1, m, start, block =>
    if block = 0 then some m
    else do
      let st ← load m block Field.status
      let next_block ← load m block Field.next
      if st = STATUS_MAPPED ∧ next_block ≠ 0 then
        let prev_block ← load m block Field.prev
        let m1 ← if prev_block ≠ 0 then store m prev_block Field.next next_block
                 else some m
        let start1 := if prev_block ≠ 0 then start else next_block
        let m2 ← store m1 next_block Field.prev prev_block
        let last_block ← find_last_block fuel m2 start1
        let m3 ← if last_block ≠ 0 ∧ last_block ≠ block then do
                   let ma ← store m2 last_block Field.next block
                   let mb ← store ma block Field.prev last_block
                   store mb block Field.next 0
                 else some m2
        let nx ← load m3 block Field.next
        sort_blocks_loop fuel k m3 start1 nx
      else
        sort_blocks_loop fuel k m start next_block

/-- The function `sort_blocks(start_block)`. -/
def sort_blocks (fuel : Nat) (m : Mem) (start_block : Nat) : Option Mem :=
  sort_blocks_loop fuel fuel m start_block start_block

/-- The loop of `coalesce_blocks`. -/
def coalesce_loop : Nat → Mem → Nat → Option Mem
  | 0, _, _ => none
  | k + 1, m, block =>
    if block = 0 then some m
    else do
      let st ← load m block Field.status
      let nx ← load m block Field.next
      if st = STATUS_FREE then
        if nx ≠ 0 then do
          let nst ← load m nx Field.status
          if nst = STATUS_FREE then
            let nsz ← load m nx Field.size
            let sz ← load m block Field.size
            let m1 ← store m block Field.size ((sz + nsz) % SIZE_MOD)
            let nn ← load m1 nx Field.next
            let m2 ← store m1 block Field.next nn
            let m3 ← if nn ≠ 0 then store m2 nn Field.prev block else some m2
            coalesce_loop k m3 block
          else coalesce_loop k m nx
        else coalesce_loop k m nx
      else coalesce_loop k m nx

/-- The function `coalesce_blocks(start_block)`: the loop runs from the head
the caller passed, whatever `sort_blocks` did to its own copy. -/
def coalesce_blocks (fuel : Nat) (m : Mem) (start_block : Nat) : Option Mem := do
  let m1 ← sort_blocks fuel m start_block
  coalesce_loop (2 * fuel) m1 start_block

/-! ## Operating system and allocator state -/

/-- What a run leaves behind for an observer: the three system calls and the
bulk memory operations of `string.h`, each with its arguments. -/
inductive Event
  | sbrk (increment : Nat)
  | mmap (length : Nat)
  | munmap (addr length : Nat)
  | memset (dst length : Nat)
  | memcpy (dst src length : Nat)
  | memmove (dst src length : Nat)
  deriving DecidableEq, Repr

/-- Whether an event is one of the system calls `sbrk`, `mmap`, `munmap`. -/
def Event.is_syscall : Event → Bool
  | Event.sbrk _ => true
  | Event.mmap _ => true
  | Event.munmap _ _ => true
  | _ => false

/-- The globals of `osmem.c` (`start_block`, `heap_preallocated`, `errno`),
the header words, and the part of the process the system calls act on: the
program break with the bound it may grow to, and the next address and bound
of the mapping area. -/
structure State where
  mem : Mem
  start_block : Nat
  heap_preallocated : Bool
  errno : Int
  brk : Nat
  brk_limit : Nat
  mmap_next : Nat
  mmap_limit : Nat
  trace : List Event

/-- The call `sbrk(increment)`: the increment is an `intptr_t`, so values from
`2 ^ 63` on lower the break.  Returns the previous break, or `(void *)-1`
with `errno = ENOMEM` when the break cannot move there. -/
def sbrk (s : State) (increment : Nat) : State × Nat :=
  let s1 := { s with trace := s.trace ++ [Event.sbrk increment] }
  if increment % SIZE_MOD < 9223372036854775808 then
    if s.brk + increment % SIZE_MOD ≤ s.brk_limit then
      ({ s1 with brk := s.brk + increment % SIZE_MOD }, s.brk)
    else ({ s1 with errno := 12 }, PTR_FAIL)
  else if SIZE_MOD - increment % SIZE_MOD ≤ s.brk then
    ({ s1 with brk := s.brk - (SIZE_MOD - increment % SIZE_MOD) }, s.brk)
  else ({ s1 with errno := 12 }, PTR_FAIL)

/-- The call `mmap(NULL, length, PROTS, MAPS, -1, 0)`: a fresh region at
`mmap_next`, whole pages long, or `MAP_FAILED` with `errno = ENOMEM` when the
mapping area is exhausted (`EINVAL` for a length of 0). -/
def mmap (cfg : Config) (s : State) (length : Nat) : State × Nat :=
  let s1 := { s with trace := s.trace ++ [Event.mmap length] }
  if length = 0 then ({ s1 with errno := 22 }, PTR_FAIL)
  else if s.mmap_next + length ≤ s.mmap_limit then
    ({ s1 with mmap_next :=
        s.mmap_next + (length + cfg.PAGE_SIZE - 1) / cfg.PAGE_SIZE * cfg.PAGE_SIZE },
      s.mmap_next)
  else ({ s1 with errno := 12 }, PTR_FAIL)

/-- The call `munmap(addr, length)`. -/
def munmap (s : State) (addr length : Nat) : State :=
  { s with mem := unmap s.mem addr length,
           trace := s.trace ++ [Event.munmap addr length] }

/-- The statement `errno = -((long long)res)` for `res = (void *)-1`. -/
def set_errno_fail (s : State) : State := { s with errno := 1 }

/-- The allocator before its first call, in a process whose break is at
`brk` and whose mapping area starts at `mmap_base`. -/
def empty_state (brk brk_limit mmap_base mmap_limit : Nat) : State :=
  { mem := fun _ _ => none, start_block := 0, heap_preallocated := false,
    errno := 0, brk := brk, brk_limit := brk_limit, mmap_next := mmap_base,
    mmap_limit := mmap_limit, trace := [] }

/-! ## Allocation engine (`osmem.c`) -/

/-- The statement `if (!start_block) start_block = block;`. -/
def set_start_if_null (s : State) (block : Nat) : State :=
  if s.start_block = 0 then { s with start_block := block } else s

/-- The test `a->status == v`. -/
def status_is (m : Mem) (a v : Nat) : Option Bool :=
  match load m a Field.status with
  | none => none
  | some st => some (decide (st = v))

/-- The split of a reused block at `total` bytes, as `os_malloc` (lines
129-146) and `os_calloc` (lines 335-353) write it: `status`, `size`, `prev`
and `next` of the remainder, the back link of the old successor, then `next`
and `size` of the block. -/
def split_block (m : Mem) (block total : Nat) : Option Mem := do
  let rem_block := block + total
  let m1 ← store m rem_block Field.status STATUS_FREE
  let sz ← load m1 block Field.size
  let m2 ← store m1 rem_block Field.size (usub sz total)
  let m3 ← store m2 rem_block Field.prev block
  let nx ← load m3 block Field.next
  let m4 ← store m3 rem_block Field.next nx
  let nx2 ← load m4 block Field.next
  let m5 ← if nx2 ≠ 0 then store m4 nx2 Field.prev rem_block else some m4
  let m6 ← store m5 block Field.next rem_block
  store m6 block Field.size total

/-- The branch of `os_malloc` and `os_calloc` taken when the heap is in use
and the request is below the threshold (lines 116-197 and 323-407): reuse of
the best fit, growth of a FREE last heap block, or a fresh block after the
last heap block.  With `guard_null`, the test on the last heap block is
`prev_block && prev_block->status == STATUS_FREE` (`os_malloc`); without, it
is `prev_block->status == STATUS_FREE` (`os_calloc`). -/
def reuse_path (cfg : Config) (fuel : Nat) (guard_null : Bool) (s : State)
    (total : Nat) : Option (State × Nat) := do
  let block ← find_available_block fuel s.mem s.start_block total
  if block ≠ 0 then
    let sz ← load s.mem block Field.size
    let m1 ← if (header_offset cfg + 8) % SIZE_MOD ≤ usub sz total
             then split_block s.mem block total else some s.mem
    let m2 ← store m1 block Field.status STATUS_ALLOC
    some (set_start_if_null { s with mem := m2 } block, block + cfg.META_SIZE)
  else
    let prev_block ← find_last_heap_block fuel s.mem s.start_block
    let prev_free ←
      if guard_null ∧ prev_block = 0 then some false
      else status_is s.mem prev_block STATUS_FREE
    if prev_free then
      let psz ← load s.mem prev_block Field.size
      let r := sbrk s (usub total psz)
      if r.2 = PTR_FAIL then some (set_errno_fail r.1, 0)
      else
        let m1 ← store r.1.mem prev_block Field.size total
        let m2 ← store m1 prev_block Field.status STATUS_ALLOC
        some (set_start_if_null { r.1 with mem := m2 } prev_block,
          prev_block + cfg.META_SIZE)
    else
      let r := sbrk s total
      if r.2 = PTR_FAIL then some (set_errno_fail r.1, 0)
      else
        let block := r.2
        let m1 ← store r.1.mem block Field.status STATUS_ALLOC
        let m2 ← store m1 block Field.size total
        let m3 ← store m2 block Field.prev prev_block
        let pn ← load m3 prev_block Field.next
        let m4 ← store m3 block Field.next pn
        let m5 ← store m4 prev_block Field.next block
        some (set_start_if_null { r.1 with mem := m5 } block, block + cfg.META_SIZE)

/-- The first branch of `os_malloc` and `os_calloc` (lines 43-87 and
251-295): the one extension of the break by `MMAP_THRESHOLD` that starts the
heap.  `unsplit_size` is the size the block keeps when no remainder is split
off: `MMAP_THRESHOLD` in `os_malloc`, `PAGE_SIZE` in `os_calloc`. -/
def bootstrap_path (cfg : Config) (fuel : Nat) (unsplit_size : Nat) (s : State)
    (total : Nat) : Option (State × Nat) := do
  let r := sbrk s MMAP_THRESHOLD
  let prev_block ← find_last_block fuel r.1.mem r.1.start_block
  if r.2 = PTR_FAIL then some (set_errno_fail r.1, 0)
  else
    let block := r.2
    let s2 := set_start_if_null { r.1 with heap_preallocated := true } block
    let m1 ← store s2.mem block Field.status STATUS_ALLOC
    let m2 ← store m1 block Field.size total
    let m3 ← store m2 block Field.prev prev_block
    let m4 ← if prev_block ≠ 0 then store m3 prev_block Field.next block else some m3
    if (header_offset cfg + 8) % SIZE_MOD ≤ usub MMAP_THRESHOLD total then
      let rem_block := block + total
      let m5 ← store m4 block Field.next rem_block
      let m6 ← store m5 rem_block Field.status STATUS_FREE
      let m7 ← store m6 rem_block Field.size (usub MMAP_THRESHOLD total)
      let m8 ← store m7 rem_block Field.prev block
      let m9 ← store m8 rem_block Field.next 0
      some ({ s2 with mem := m9 }, block + cfg.META_SIZE)
    else
      let m5 ← store m4 block Field.next 0
      let m6 ← store m5 block Field.size unsplit_size
      some ({ s2 with mem := m6 }, block + cfg.META_SIZE)

/-- The second branch of `os_malloc` and `os_calloc` (lines 88-115 and
296-322): a block of its own mapping, appended after the last block. -/
def mapping_path (cfg : Config) (fuel : Nat) (s : State) (total : Nat) :
    Option (State × Nat) := do
  let prev_block ← find_last_block fuel s.mem s.start_block
  let r := mmap cfg s total
  if r.2 = PTR_FAIL then some (set_errno_fail r.1, 0)
  else
    let block := r.2
    let m1 ← store r.1.mem block Field.status STATUS_MAPPED
    let m2 ← store m1 block Field.size total
    let m3 ← store m2 block Field.prev prev_block
    let m4 ← store m3 block Field.next 0
    let s2 := set_start_if_null { r.1 with mem := m4 } block
    let m5 ← if prev_block ≠ 0 then store s2.mem prev_block Field.next block
             else some s2.mem
    some ({ s2 with mem := m5 }, block + cfg.META_SIZE)

/-- The function `os_malloc(size)`; the result is the state it leaves and the
pointer it returns (`0` for `NULL`). -/
def os_malloc (cfg : Config) (fuel : Nat) (s : State) (size : Nat) :
    Option (State × Nat) := do
  let m0 ← coalesce_blocks fuel s.mem s.start_block
  let s0 := { s with mem := m0 }
  let total := total_size cfg size
  if size = 0 then some (s0, 0)
  else if s0.heap_preallocated = false ∧ total < MMAP_THRESHOLD then
    bootstrap_path cfg fuel MMAP_THRESHOLD s0 total
  else if MMAP_THRESHOLD ≤ total then
    mapping_path cfg fuel s0 total
  else if s0.heap_preallocated = true ∧ total < MMAP_THRESHOLD then
    reuse_path cfg fuel true s0 total
  else none

/-- The function `os_free(ptr)`. -/
def os_free (cfg : Config) (fuel : Nat) (s : State) (ptr : Nat) : Option State := do
  let block ← find_block cfg fuel s.mem s.start_block ptr
  if block = 0 then some s
  else
    let st ← load s.mem block Field.status
    if st = STATUS_ALLOC then
      let m1 ← store s.mem block Field.status STATUS_FREE
      some { s with mem := m1 }
    else if st = STATUS_MAPPED then
      let prev ← load s.mem block Field.prev
      let nx ← load s.mem block Field.next
      let s1 ← if prev ≠ 0 then
                 (store s.mem prev Field.next nx).map (fun m => { s with mem := m })
               else some { s with start_block := nx }
      let nx2 ← load s1.mem block Field.next
      let s2 ← if nx2 ≠ 0 then do
                 let pv2 ← load s1.mem block Field.prev
                 let m ← store s1.mem nx2 Field.prev pv2
                 some { s1 with mem := m }
               else do
                 let pv2 ← load s1.mem block Field.prev
                 if pv2 ≠ 0 then
                   (store s1.mem pv2 Field.next 0).map (fun m => { s1 with mem := m })
                 else some s1
      let sz ← load s2.mem block Field.size
      some (munmap s2 block sz)
    else some s

/-- The function `os_calloc(nmemb, size)`. -/
def os_calloc (cfg : Config) (fuel : Nat) (s : State) (nmemb size : Nat) :
    Option (State × Nat) := do
  let m0 ← coalesce_blocks fuel s.mem s.start_block
  let s0 := { s with mem := m0 }
  let n := (size * nmemb) % SIZE_MOD
  let total := total_size cfg n
  let zeroed := fun (r : State × Nat) =>
    if r.2 = 0 then r
    else ({ r.1 with trace := r.1.trace ++ [Event.memset r.2 n] }, r.2)
  if n = 0 then some (s0, 0)
  else if s0.heap_preallocated = false ∧ total < cfg.PAGE_SIZE % SIZE_MOD then
    (bootstrap_path cfg fuel (cfg.PAGE_SIZE % SIZE_MOD) s0 total).map zeroed
  else if cfg.PAGE_SIZE % SIZE_MOD ≤ total then
    (mapping_path cfg fuel s0 total).map zeroed
  else if s0.heap_preallocated = true ∧ total < cfg.PAGE_SIZE % SIZE_MOD then
    (reuse_path cfg fuel false s0 total).map zeroed
  else none

/-- The relocation of `os_realloc` (lines 447-456 and 535-543): a fresh
region from `os_malloc(size)`, a copy of `min(size, block->size)` bytes by
`memcpy` (mapped block) or `memmove` (heap block), and `os_free(ptr)`. -/
def realloc_relocate (cfg : Config) (fuel : Nat) (use_memmove : Bool) (s0 : State)
    (block ptr size : Nat) : Option (State × Nat) :=
  match os_malloc cfg fuel s0 size with
  | none => none
  | some r =>
    if r.2 = 0 then some (r.1, 0)
    else
      match load r.1.mem block Field.size with
      | none => none
      | some bsz =>
        let ev := if use_memmove then Event.memmove r.2 ptr (OsMem.min size bsz)
                  else Event.memcpy r.2 ptr (OsMem.min size bsz)
        match os_free cfg fuel { r.1 with trace := r.1.trace ++ [ev] } ptr with
        | none => none
        | some s2 => some (s2, r.2)

/-- The branch `total_size <= block->size` of `os_realloc` (lines 460-480):
the block keeps its address and a FREE remainder is split off when it holds
a header and 8 bytes. -/
def realloc_shrink (cfg : Config) (s0 : State) (block ptr sz total : Nat) :
    Option (State × Nat) :=
  if (header_offset cfg + 8) % SIZE_MOD ≤ usub sz total then do
    let rem_block := block + total
    let m1 ← store s0.mem rem_block Field.size (usub sz total)
    let m2 ← store m1 rem_block Field.prev block
    let nx ← load m2 block Field.next
    let m3 ← store m2 rem_block Field.next nx
    let m4 ← store m3 rem_block Field.status STATUS_FREE
    let nx2 ← load m4 block Field.next
    let m5 ← if nx2 ≠ 0 then store m4 nx2 Field.prev rem_block else some m4
    let m6 ← store m5 block Field.size total
    let m7 ← store m6 block Field.next rem_block
    some ({ s0 with mem := m7 }, ptr)
  else some (s0, ptr)

/-- The test of line 504:
`block->next && block->next->status == STATUS_FREE
 && block->size + block->next->size >= total_size`. -/
def realloc_can_absorb (m : Mem) (nx sz total : Nat) : Option Bool :=
  if nx = 0 then some false
  else
    match load m nx Field.status with
    | none => none
    | some nst =>
      if nst = STATUS_FREE then
        match load m nx Field.size with
        | none => none
        | some nsz => some (decide (total ≤ (sz + nsz) % SIZE_MOD))
      else some false

/-- The absorption of the FREE successor `nx` by `os_realloc` (lines
506-532). -/
def realloc_absorb (cfg : Config) (s0 : State) (block ptr nx sz total : Nat) :
    Option (State × Nat) := do
  let nsz ← load s0.mem nx Field.size
  if (cfg.META_SIZE + 8) % SIZE_MOD ≤ usub ((sz + nsz) % SIZE_MOD) total then
    let rem_block := block + total
    let next_block ← load s0.mem nx Field.next
    let m1 ← store s0.mem rem_block Field.size (usub ((sz + nsz) % SIZE_MOD) total)
    let m2 ← store m1 rem_block Field.prev block
    let m3 ← store m2 rem_block Field.next next_block
    let m4 ← store m3 rem_block Field.status STATUS_FREE
    let m5 ← store m4 block Field.size total
    let m6 ← if next_block ≠ 0 then store m5 next_block Field.prev rem_block
             else some m5
    let m7 ← store m6 block Field.next rem_block
    some ({ s0 with mem := m7 }, ptr)
  else
    let m1 ← store s0.mem block Field.size ((sz + nsz) % SIZE_MOD)
    let nn ← load m1 nx Field.next
    let m2 ← store m1 block Field.next nn
    let m3 ← if nn ≠ 0 then store m2 nn Field.prev block else some m2
    some ({ s0 with mem := m3 }, ptr)

/-- The branch `block->status == STATUS_ALLOC` of `os_realloc` for a request
larger than the block (lines 483-544): growth at the end of the list by
`sbrk`, absorption of a FREE successor, or relocation. -/
def realloc_grow (cfg : Config) (fuel : Nat) (s0 : State)
    (block ptr size sz total : Nat) : Option (State × Nat) :=
  match load s0.mem block Field.next with
  | none => none
  | some nx =>
    if nx = 0 ∧ total < MMAP_THRESHOLD then
      let r := sbrk s0 (usub total sz)
      if r.2 = PTR_FAIL then some (set_errno_fail r.1, 0)
      else
        match store r.1.mem block Field.size total with
        | none => none
        | some m1 => some ({ r.1 with mem := m1 }, ptr)
    else
      match realloc_can_absorb s0.mem nx sz total with
      | none => none
      | some true => realloc_absorb cfg s0 block ptr nx sz total
      | some false => realloc_relocate cfg fuel true s0 block ptr size

/-- The part of `os_realloc` after the degenerate cases (lines 433-546). -/
def realloc_resize (cfg : Config) (fuel : Nat) (s0 : State) (block ptr size : Nat) :
    Option (State × Nat) :=
  match load s0.mem block Field.status with
  | none => none
  | some st =>
    if st = STATUS_MAPPED then realloc_relocate cfg fuel false s0 block ptr size
    else
      match load s0.mem block Field.size with
      | none => none
      | some sz =>
        if total_size cfg size ≤ sz then
          realloc_shrink cfg s0 block ptr sz (total_size cfg size)
        else if st = STATUS_ALLOC then
          realloc_grow cfg fuel s0 block ptr size sz (total_size cfg size)
        else some (s0, 0)

/-- The function `os_realloc(ptr, size)`. -/
def os_realloc (cfg : Config) (fuel : Nat) (s : State) (ptr size : Nat) :
    Option (State × Nat) := do
  let m0 ← coalesce_blocks fuel s.mem s.start_block
  let s0 := { s with mem := m0 }
  let block ← find_block cfg fuel s0.mem s0.start_block ptr
  let is_free ← if block = 0 then some false
                else status_is s0.mem block STATUS_FREE
  if is_free then some (s0, 0)
  else if ptr = 0 then os_malloc cfg fuel s0 size
  else if size = 0 then (os_free cfg fuel s0 ptr).map (fun s1 => (s1, 0))
  else realloc_resize cfg fuel s0 block ptr size

/-! ## Observations -/

/-- A block header as an observer of the list reads it. -/
structure Blk where
  addr : Nat
  size : Nat
  status : Nat
  prev : Nat
  next : Nat
  deriving DecidableEq, Repr

/-- The blocks reachable from `block` through `next`, in list order, each
with its four header members; `none` when a member cannot be read or the walk
does not end within the fuel. -/
def block_list : Nat → Mem → Nat → Option (List Blk)
  | 0, _, _ => none
  | k + 1, m, block =>
    if block = 0 then some []
    else
      match load m block Field.size, load m block Field.status,
        load m block Field.prev, load m block Field.next with
      | some sz, some st, some pv, some nx =>
        match block_list k m nx with
        | none => none
        | some l => some (⟨block, sz, st, pv, nx⟩ :: l)
      | _, _, _, _ => none

/-- Whether the address `p` lies in the region `[b, b + b.size)` of `b`. -/
def Blk.contains (b : Blk) (p : Nat) : Bool :=
  decide (b.addr ≤ p ∧ p < b.addr + b.size)

/-- Whether `b` is live: handed out from the heap or mapped. -/
def Blk.live (b : Blk) : Bool :=
  decide (b.status = STATUS_ALLOC ∨ b.status = STATUS_MAPPED)

/-- The forward half of the list invariant at `b`: a successor points back
at `b`. -/
def next_link_ok (m : Mem) (b : Blk) : Bool :=
  decide (b.next = 0 ∨ load m b.next Field.prev = some b.addr)

/-- The backward half of the list invariant at `b`: a predecessor points
forward at `b`. -/
def prev_link_ok (m : Mem) (b : Blk) : Bool :=
  decide (b.prev = 0 ∨ load m b.prev Field.next = some b.addr)

/-- Whether `ev` occurs among the events `s` recorded after those of `s0`. -/
def State.issued_since (s s0 : State) (ev : Event) : Bool :=
  decide (ev ∈ s.trace.drop s0.trace.length)

/-- The address of the last block of a list, `NULL` for the empty list. -/
def last_addr : List Blk → Nat
  | [] => 0
  | [b] => b.addr
  | _ :: b :: tl => last_addr (b :: tl)

/-- The list with the `next` of its last block set to `n`. -/
def relink_last : List Blk → Nat → List Blk
  | [], _ => []
  | [b], n => [{ b with next := n }]
  | a :: b :: tl, n => a :: relink_last (b :: tl) n

/-- The header words after a block of `total` bytes mapped at `M` is
written and linked behind the block at `last` (`NULL` for an empty list), as
the mapping path of `os_malloc` does. -/
def append_mapped (m : Mem) (M total last : Nat) : Mem :=
  if last = 0 then
    poke (poke (poke (poke m M Field.status STATUS_MAPPED) M Field.size total)
      M Field.prev last) M Field.next 0
  else
    poke (poke (poke (poke (poke m M Field.status STATUS_MAPPED) M Field.size total)
      M Field.prev last) M Field.next 0) last Field.next M

/-! ## Lists as segments of the memory -/

/-- The header at `b.addr` holds the four members of `b`. -/
def Blk.stored (m : Mem) (b : Blk) : Prop :=
  b.addr ≠ 0 ∧ m b.addr Field.size = some b.size
    ∧ m b.addr Field.status = some b.status
    ∧ m b.addr Field.prev = some b.prev ∧ m b.addr Field.next = some b.next

/-- The blocks `l` are the stretch of the list that starts at the address `s`
and whose last `next` is `t`. -/
def Seg (m : Mem) : Nat → List Blk → Nat → Prop
  | s, [], t => s = t
  | s, b :: tl, t => b.addr = s ∧ b.stored m ∧ Seg m b.next tl t

/-- The backward links of a list whose first block has `p` before it: every
`prev` names the block before. -/
def well_linked : Nat → List Blk → Bool
  | _, [] => true
  | p, b :: tl => decide (b.prev = p) && well_linked b.addr tl

/-- The list with the `prev` of its first block set to `p`. -/
def set_prev (p : Nat) : List Blk → List Blk
  | [] => []
  | b :: tl => { b with prev := p } :: tl

/-- Whether no FREE block of the list is directly followed by a FREE block. -/
def no_adjacent_free : List Blk → Bool
  | a :: b :: tl =>
    !(decide (a.status = STATUS_FREE) && decide (b.status = STATUS_FREE))
      && no_adjacent_free (b :: tl)
  | _ => true

/-- The loop of `coalesce_blocks` on the list it walks, step for step: a FREE
block followed by a FREE block takes the size and the successor of that
block, whose own successor is linked back; otherwise the walk moves on. -/
def coalesce_list : Nat → List Blk → List Blk
  | 0, l => l
  | _ + 1, [] => []
  | _ + 1, [a] => [a]
  | k + 1, a :: b :: tl =>
    if a.status = STATUS_FREE ∧ b.status = STATUS_FREE then
      coalesce_list k
        ({ a with size := (a.size + b.size) % SIZE_MOD, next := b.next }
          :: set_prev a.addr tl)
    else a :: coalesce_list k (b :: tl)

/-- The address of the first block of a list, `NULL` for the empty list. -/
def head_addr : List Blk → Nat
  | [] => 0
  | b :: _ => b.addr

/-- The list `pre ++ M :: post` after `sort_blocks` has moved the MAPPED block
`M` behind the last block: the blocks before and after `M` are linked to
each other and `M` is linked behind the last of them. -/
def move_to_tail (pre : List Blk) (M : Blk) (post : List Blk) : List Blk :=
  relink_last pre (head_addr post)
    ++ relink_last (set_prev M.prev post) M.addr
    ++ [{ M with prev := last_addr post, next := 0 }]

/-- The memory after the loop of `coalesce_blocks` has merged `b` into its
predecessor `a`: the size and `next` of `a`, and the `prev` of the block
after `b` when there is one. -/
def merged_mem (m : Mem) (a b : Blk) : Mem :=
  if b.next = 0 then
    poke (poke m a.addr Field.size ((a.size + b.size) % SIZE_MOD)) a.addr Field.next b.next
  else
    poke (poke (poke m a.addr Field.size ((a.size + b.size) % SIZE_MOD))
      a.addr Field.next b.next) b.next Field.prev a.addr

/-- The memory after `sort_blocks` has unlinked the block `M` and linked it
behind the block at `last`: the stores of lines 77-91 in their order. -/
def moved_mem (m : Mem) (M : Blk) (last : Nat) : Mem :=
  poke (poke (poke (poke
    (if M.prev = 0 then m else poke m M.prev Field.next M.next)
    M.next Field.prev M.prev) last Field.next M.addr) M.addr Field.prev last)
    M.addr Field.next 0

/-- The test `block->status != STATUS_MAPPED`. -/
def not_mapped (b : Blk) : Bool := decide (b.status ≠ STATUS_MAPPED)

/-- The list that the head the caller holds leads to after `sort_blocks`: the
first MAPPED block, when it has a successor, is moved behind the last block;
when that block is the head, the caller is left with it alone. -/
def sort_list (l : List Blk) : List Blk :=
  match l.dropWhile not_mapped with
  | M :: n :: post =>
    match l.takeWhile not_mapped with
    | [] => [{ M with prev := last_addr (n :: post), next := 0 }]
    | p :: pre => move_to_tail (p :: pre) M (n :: post)
  | _ => l

/-! ## Scenarios -/

/-- The allocator before its first call in a process with the break at
`0x1000000`, room for the heap up to `0x40000000`, and a mapping area from
`0x800000000000`. -/
def virgin : State :=
  empty_state 16777216 1073741824 140737488355328 281474976710656

/-- The calls `a = os_malloc(64)`, `b = os_malloc(130944)`,
`os_malloc(200000)`, `os_malloc(200000)`, `c = os_malloc(64)`, `os_free(b)`,
`d = os_malloc(131032)` from the virgin allocator: the final state with the
pointers `c` and `d`. -/
def overlap_run : Option (State × Nat × Nat) :=
  match os_malloc cfg64 16 virgin 64 with
  | none => none
  | some r1 =>
  match os_malloc cfg64 16 r1.1 130944 with
  | none => none
  | some r2 =>
  match os_malloc cfg64 16 r2.1 200000 with
  | none => none
  | some r3 =>
  match os_malloc cfg64 16 r3.1 200000 with
  | none => none
  | some r4 =>
  match os_malloc cfg64 16 r4.1 64 with
  | none => none
  | some r5 =>
  match os_free cfg64 16 r5.1 r2.2 with
  | none => none
  | some s6 =>
  match os_malloc cfg64 16 s6 131032 with
  | none => none
  | some r7 => some (r7.1, r5.2, r7.2)

/-- The calls `os_malloc(131032)`, `os_malloc(200000)`, `os_malloc(64)` from
the virgin allocator: the final state. -/
def back_link_run : Option State :=
  match os_malloc cfg64 16 virgin 131032 with
  | none => none
  | some r1 =>
  match os_malloc cfg64 16 r1.1 200000 with
  | none => none
  | some r2 =>
  match os_malloc cfg64 16 r2.1 64 with
  | none => none
  | some r3 => some r3.1

/-- The pointers of the best-fit scenario. -/
structure BestFit where
  a : Nat
  b : Nat
  c : Nat
  x : Nat
  deriving DecidableEq, Repr

/-- The calls `a = os_malloc(100)`, `b = os_malloc(200)`, `c = os_malloc(50)`,
`os_free(a)`, `os_free(c)`, `x = os_malloc(40)` from the virgin allocator. -/
def best_fit_run : Option BestFit :=
  match os_malloc cfg64 16 virgin 100 with
  | none => none
  | some r1 =>
  match os_malloc cfg64 16 r1.1 200 with
  | none => none
  | some r2 =>
  match os_malloc cfg64 16 r2.1 50 with
  | none => none
  | some r3 =>
  match os_free cfg64 16 r3.1 r1.2 with
  | none => none
  | some s4 =>
  match os_free cfg64 16 s4 r3.2 with
  | none => none
  | some s5 =>
  match os_malloc cfg64 16 s5 40 with
  | none => none
  | some r6 => some ⟨r1.2, r2.2, r3.2, r6.2⟩

/-- The state after `os_malloc(200000)` from the virgin allocator: one
MAPPED block of 200032 bytes at `0x800000000000`. -/
def mapped_state : State :=
  match os_malloc cfg64 16 virgin 200000 with
  | none => virgin
  | some r => r.1

/-- The payload address of the block of `mapped_state`. -/
def mapped_ptr : Nat := 140737488355360

/-- The state after `os_malloc(64)` from the virgin allocator: an ALLOC block
of 96 bytes at `0x1000000` and the FREE remainder of the heap behind it. -/
def heap_state : State :=
  match os_malloc cfg64 16 virgin 64 with
  | none => virgin
  | some r => r.1

/-- The state after `os_malloc(64)`, `os_malloc(64)` from the virgin
allocator: two ALLOC blocks of 96 bytes and the FREE remainder. -/
def two_block_state : State :=
  match os_malloc cfg64 16 heap_state 64 with
  | none => virgin
  | some r => r.1

/-- The state after `os_malloc(64)`, `b = os_malloc(64)`, `os_free(b)` from
the virgin allocator. -/
def absorb_state : State :=
  match os_free cfg64 16 two_block_state 16777344 with
  | none => virgin
  | some s => s

/-- The header words after the entry coalesce of a call on `s`. -/
def coalesced (s : State) : Mem :=
  match coalesce_blocks 16 s.mem s.start_block with
  | none => s.mem
  | some m => m

/-- The blocks of `absorb_state`. -/
def absorb_list : List Blk :=
  [⟨16777216, 96, 1, 0, 16777312⟩, ⟨16777312, 96, 0, 16777216, 16777408⟩,
    ⟨16777408, 130880, 0, 16777312, 0⟩]

/-- The state after `os_malloc(64)`, `os_malloc(200000)`, `os_malloc(200000)`
from the virgin allocator: the ALLOC block, the FREE remainder of the heap
and two MAPPED blocks. -/
def two_mapped_state : State :=
  match os_malloc cfg64 16 heap_state 200000 with
  | none => virgin
  | some r1 =>
  match os_malloc cfg64 16 r1.1 200000 with
  | none => virgin
  | some r2 => r2.1

/-- The blocks of `two_mapped_state`. -/
def two_mapped_list : List Blk :=
  [⟨16777216, 96, 1, 0, 16777312⟩, ⟨16777312, 130976, 0, 16777216, 140737488355328⟩,
    ⟨140737488355328, 200032, 2, 16777312, 140737488556032⟩,
    ⟨140737488556032, 200032, 2, 140737488355328, 0⟩]

/-- The state after `os_malloc(200000)`, `os_malloc(64)` from the virgin
allocator: the MAPPED block first, then the ALLOC block and the FREE
remainder of the heap. -/
def mapped_first_state : State :=
  match os_malloc cfg64 16 mapped_state 64 with
  | none => virgin
  | some r => r.1

/-- The blocks of `mapped_first_state`. -/
def mapped_first_list : List Blk :=
  [⟨140737488355328, 200032, 2, 0, 16777216⟩,
    ⟨16777216, 96, 1, 140737488355328, 16777312⟩,
    ⟨16777312, 130976, 0, 16777216, 0⟩]

/-- Address, size and status of a block: what a reordering of the list keeps
of it. -/
def Blk.key (b : Blk) : Nat × Nat × Nat := (b.addr, b.size, b.status)

/-- The heap blocks (FREE or ALLOC) of a list, in list order. -/
def heap_blocks (l : List Blk) : List Blk := l.filter not_mapped

/-- The MAPPED blocks of a list, in list order. -/
def mapped_blocks (l : List Blk) : List Blk := l.filter (fun b => !not_mapped b)

/-- Whether no block of the list but the last is MAPPED. -/
def mapped_last : List Blk → Bool
  | a :: b :: tl => not_mapped a && mapped_last (b :: tl)
  | _ => true

/-- The header words of a memory that holds the blocks of `l` and nothing
else. -/
def mem_of (l : List Blk) : Mem :=
  fun a f =>
    match l.find? (fun b => decide (b.addr = a)) with
    | none => none
    | some b =>
      match f with
      | Field.size => some b.size
      | Field.status => some b.status
      | Field.prev => some b.prev
      | Field.next => some b.next

/-- A well-formed list of three blocks with the MAPPED block in the middle:
an ALLOC block of 96 bytes at `0x1000000`, a MAPPED block of 200032 bytes at
`0x800000000000` and a FREE block of 130976 bytes at `0x1000060`. -/
def mapped_middle_list : List Blk :=
  [⟨16777216, 96, 1, 0, 140737488355328⟩,
    ⟨140737488355328, 200032, 2, 16777216, 16777312⟩,
    ⟨16777312, 130976, 0, 140737488355328, 0⟩]

/-- A well-formed list with two FREE blocks of more than 2 GiB each, an ALLOC
block of 96 bytes between them: FREE of `2 ^ 31 + 64` bytes at `0x1000000`,
ALLOC at `0x81000040`, FREE of `2 ^ 31 + 72` bytes at `0x810000a0`. -/
def wide_free_list : List Blk :=
  [⟨16777216, 2147483712, 0, 0, 2164260928⟩,
    ⟨2164260928, 96, 1, 16777216, 2164261024⟩,
    ⟨2164261024, 2147483720, 0, 2164260928, 0⟩]

/-- The allocator before its first call in a process whose break, at
`0x1000000`, may grow by `MMAP_THRESHOLD` bytes and no further. -/
def tight : State :=
  empty_state 16777216 16908288 140737488355328 281474976710656

/-- The state after `os_malloc(200000)`, `os_malloc(64)` from the allocator
`tight`: the MAPPED block first, then the ALLOC block and the FREE remainder
of the heap, and the break at its bound. -/
def tight_state : State :=
  match os_malloc cfg64 16 tight 200000 with
  | none => tight
  | some r1 =>
  match os_malloc cfg64 16 r1.1 64 with
  | none => tight
  | some r2 => r2.1

/-- A well-formed list of five blocks with heap blocks behind MAPPED blocks:
ALLOC at `0x1000000`, MAPPED at `0x800000000000`, FREE at `0x1000060`, MAPPED
at `0x800000031000`, ALLOC at `0x10000c0`. -/
def mixed_list : List Blk :=
  [⟨16777216, 96, 1, 0, 140737488355328⟩,
    ⟨140737488355328, 200032, 2, 16777216, 16777312⟩,
    ⟨16777312, 96, 0, 140737488355328, 140737488556032⟩,
    ⟨140737488556032, 200032, 2, 16777312, 16777408⟩,
    ⟨16777408, 130880, 1, 140737488556032, 0⟩]

/-! ## Memory and list walks -/

theorem load_ne_zero {m : Mem} {a : Nat} {f : Field} (h : a ≠ 0) :
    load m a f = m a f := by
  simp [load, h]

theorem load_isSome_ne_zero {m : Mem} {a : Nat} {f : Field} {v : Nat}
    (h : load m a f = some v) : a ≠ 0 := by
  intro h0
  simp [load, h0] at h

theorem store_ne_zero {a : Nat} (m : Mem) (f : Field) (v : Nat) (h : a ≠ 0) :
    store m a f v = some (poke m a f v) := by
  simp [store, h]

theorem poke_apply (m : Mem) (a : Nat) (f : Field) (v a2 : Nat) (f2 : Field) :
    poke m a f v a2 f2 = if a2 = a ∧ f2 = f then some v else m a2 f2 := rfl

theorem load_poke (m : Mem) (a : Nat) (f : Field) (v a2 : Nat) (f2 : Field) :
    load (poke m a f v) a2 f2
      = if a2 = 0 then none else if a2 = a ∧ f2 = f then some v else m a2 f2 := by
  simp [load, poke]

/-- Unfolding of `block_list` at a non-null block. -/
theorem block_list_cons {k : Nat} {m : Mem} {block : Nat} {l : List Blk}
    (h : block_list (k + 1) m block = some l) (hb : block ≠ 0) :
    ∃ sz st pv nx tl, load m block Field.size = some sz
      ∧ load m block Field.status = some st
      ∧ load m block Field.prev = some pv
      ∧ load m block Field.next = some nx
      ∧ block_list k m nx = some tl
      ∧ l = ⟨block, sz, st, pv, nx⟩ :: tl := by
  simp only [block_list, hb, if_false] at h
  split at h
  · rename_i sz st pv nx h1 h2 h3 h4
    split at h
    · exact absurd h (by simp)
    · rename_i tl htl
      refine ⟨sz, st, pv, nx, tl, h1, h2, h3, h4, htl, ?_⟩
      simpa using h.symm
  · exact absurd h (by simp)

theorem block_list_null {k : Nat} {m : Mem} {l : List Blk}
    (h : block_list (k + 1) m 0 = some l) : l = [] := by
  simpa [block_list] using h.symm

/-- Every listed block is a readable header at a non-null address. -/
theorem block_list_mem {k : Nat} {m : Mem} {start : Nat} {l : List Blk}
    (h : block_list k m start = some l) {b : Blk} (hb : b ∈ l) :
    b.addr ≠ 0 ∧ load m b.addr Field.size = some b.size
      ∧ load m b.addr Field.status = some b.status
      ∧ load m b.addr Field.prev = some b.prev
      ∧ load m b.addr Field.next = some b.next := by
  induction k generalizing start l with
  | zero => simp [block_list] at h
  | succ k ih =>
    by_cases hs : start = 0
    · subst hs
      rw [block_list_null h] at hb
      simp at hb
    · obtain ⟨sz, st, pv, nx, tl, h1, h2, h3, h4, htl, rfl⟩ := block_list_cons h hs
      rcases List.mem_cons.mp hb with rfl | hb
      · exact ⟨hs, h1, h2, h3, h4⟩
      · exact ih htl hb

/-- More fuel reads the same list. -/
theorem block_list_mono {k : Nat} {m : Mem} {start : Nat} {l : List Blk}
    (h : block_list k m start = some l) {k2 : Nat} (hk : k ≤ k2) :
    block_list k2 m start = some l := by
  induction k generalizing start l k2 with
  | zero => simp [block_list] at h
  | succ k ih =>
    obtain ⟨j, rfl⟩ : ∃ j, k2 = j + 1 := ⟨k2 - 1, by omega⟩
    by_cases hs : start = 0
    · subst hs
      rw [block_list_null h]
      simp [block_list]
    · obtain ⟨sz, st, pv, nx, tl, h1, h2, h3, h4, htl, rfl⟩ := block_list_cons h hs
      have := ih htl (show k ≤ j by omega)
      simp [block_list, hs, h1, h2, h3, h4, this]

/-- The walk of `find_block` ends at the listed block whose payload address
is `ptr`. -/
theorem find_block_loop_mem (cfg : Config) {ptr k : Nat} {m : Mem} {start : Nat}
    {l : List Blk} (h : block_list k m start = some l) {b : Blk} (hb : b ∈ l)
    (hp : b.addr + cfg.META_SIZE = ptr) :
    find_block_loop cfg ptr k m start = some b.addr := by
  induction k generalizing start l with
  | zero => simp [block_list] at h
  | succ k ih =>
    by_cases hs : start = 0
    · subst hs
      rw [block_list_null h] at hb
      simp at hb
    · obtain ⟨sz, st, pv, nx, tl, h1, h2, h3, h4, htl, rfl⟩ := block_list_cons h hs
      by_cases hq : start + cfg.META_SIZE = ptr
      · have : b.addr = start := by omega
        simp [find_block_loop, hs, hq, this]
      · rcases List.mem_cons.mp hb with rfl | hb
        · exact absurd hp hq
        · simp [find_block_loop, hs, hq, h4, ih htl hb]

/-- The walk of `find_block` returns `NULL` when no listed block has the
payload address `ptr`. -/
theorem find_block_loop_none (cfg : Config) {ptr k : Nat} {m : Mem} {start : Nat}
    {l : List Blk} (h : block_list k m start = some l)
    (hp : ∀ b ∈ l, b.addr + cfg.META_SIZE ≠ ptr) :
    find_block_loop cfg ptr k m start = some 0 := by
  induction k generalizing start l with
  | zero => simp [block_list] at h
  | succ k ih =>
    by_cases hs : start = 0
    · simp [find_block_loop, hs]
    · obtain ⟨sz, st, pv, nx, tl, h1, h2, h3, h4, htl, rfl⟩ := block_list_cons h hs
      have hq : start + cfg.META_SIZE ≠ ptr := hp _ (List.mem_cons_self _ _)
      have := ih htl (fun b hb => hp b (List.mem_cons_of_mem _ hb))
      simp [find_block_loop, hs, hq, h4, this]

theorem header_offset_mod8 (cfg : Config) : header_offset cfg % 8 = 0 := by
  unfold header_offset META_PADDING
  omega

theorem usub_self (a : Nat) : usub a a = 0 := by
  unfold usub
  unfold SIZE_MOD at *
  omega

theorem total_size_capacity (cfg : Config) {sz : Nat} (h8 : sz % 8 = 0)
    (hlt : header_offset cfg < sz) (h64 : sz < SIZE_MOD) :
    total_size cfg (sz - header_offset cfg) = sz := by
  have h := header_offset_mod8 cfg
  unfold total_size pad8
  unfold header_offset at *
  unfold SIZE_MOD at *
  have : (sz - (cfg.META_SIZE + META_PADDING cfg)) % 8 = 0 := by omega
  rw [if_pos this]
  omega

theorem find_block_mem (cfg : Config) {ptr k : Nat} {m : Mem} {start : Nat}
    {l : List Blk} (h : block_list k m start = some l) {b : Blk} (hb : b ∈ l)
    (hp : b.addr + cfg.META_SIZE = ptr) :
    find_block cfg k m start ptr = some b.addr := by
  have h0 : ptr ≠ 0 := by
    have := (block_list_mem h hb).1
    omega
  simp [find_block, h0, find_block_loop_mem cfg h hb hp]

theorem coalesce_blocks_null (m : Mem) {fuel : Nat} (h : 0 < fuel) :
    coalesce_blocks fuel m 0 = some m := by
  obtain ⟨k, rfl⟩ : ∃ k, fuel = k + 1 := ⟨fuel - 1, by omega⟩
  simp [coalesce_blocks, sort_blocks, sort_blocks_loop, Nat.mul_add, coalesce_loop]

theorem find_last_block_null (m : Mem) {fuel : Nat} (h : 0 < fuel) :
    find_last_block fuel m 0 = some 0 := by
  obtain ⟨k, rfl⟩ : ∃ k, fuel = k + 1 := ⟨fuel - 1, by omega⟩
  simp [find_last_block]

theorem total_size_small (cfg : Config) {size : Nat}
    (h : header_offset cfg + size + pad8 size < MMAP_THRESHOLD) :
    total_size cfg size = header_offset cfg + size + pad8 size := by
  unfold total_size
  unfold header_offset MMAP_THRESHOLD at h
  unfold header_offset SIZE_MOD
  omega

theorem block_list_zero_fuel {m : Mem} {start : Nat} {l : List Blk}
    (h : block_list 0 m start = some l) : False := by
  simp [block_list] at h

/-- The head of a listed chain is the address the walk starts from. -/
theorem block_list_next_null {k : Nat} {m : Mem} {l : List Blk}
    (h : block_list k m 0 = some l) : l = [] ∧ 0 < k := by
  cases k with
  | zero => exact absurd h (by simp [block_list])
  | succ k => exact ⟨block_list_null h, Nat.succ_pos k⟩

/-- One step of `block_list` at a readable header. -/
theorem block_list_step {k : Nat} {m : Mem} {block sz st pv nx : Nat} {tl : List Blk}
    (hb : block ≠ 0) (h1 : load m block Field.size = some sz)
    (h2 : load m block Field.status = some st) (h3 : load m block Field.prev = some pv)
    (h4 : load m block Field.next = some nx) (htl : block_list k m nx = some tl) :
    block_list (k + 1) m block = some (⟨block, sz, st, pv, nx⟩ :: tl) := by
  simp [block_list, hb, h1, h2, h3, h4, htl]

/-- The function `find_last_block` returns the last listed block. -/
theorem find_last_block_list {k : Nat} {m : Mem} {start : Nat} {l : List Blk}
    (h : block_list k m start = some l) :
    find_last_block k m start = some (last_addr l) := by
  induction k generalizing start l with
  | zero => simp [block_list] at h
  | succ k ih =>
    by_cases hs : start = 0
    · subst hs
      rw [block_list_null h]
      simp [find_last_block, last_addr]
    · obtain ⟨sz, st, pv, nx, tl, h1, h2, h3, h4, htl, rfl⟩ := block_list_cons h hs
      by_cases hn : nx = 0
      · subst hn
        rw [(block_list_next_null htl).1]
        simp [find_last_block, hs, h4, last_addr]
      · cases k with
        | zero => exact absurd htl (by simp [block_list])
        | succ k =>
          obtain ⟨sz2, st2, pv2, nx2, tl2, -, -, -, -, -, rfl⟩ := block_list_cons htl hn
          simp [find_last_block, hs, h4, hn, last_addr]
          have := ih htl
          simpa [find_last_block, hn] using this

/-- The last listed block, when there is one, has no successor. -/
theorem last_addr_next {k : Nat} {m : Mem} {start : Nat} {l : List Blk}
    (h : block_list k m start = some l) (hs : start ≠ 0) :
    last_addr l ≠ 0 ∧ load m (last_addr l) Field.next = some 0 := by
  induction k generalizing start l with
  | zero => simp [block_list] at h
  | succ k ih =>
    obtain ⟨sz, st, pv, nx, tl, h1, h2, h3, h4, htl, rfl⟩ := block_list_cons h hs
    by_cases hn : nx = 0
    · subst hn
      rw [(block_list_next_null htl).1]
      exact ⟨hs, h4⟩
    · cases k with
      | zero => exact absurd htl (by simp [block_list])
      | succ k =>
        obtain ⟨sz2, st2, pv2, nx2, tl2, -, -, -, -, -, rfl⟩ := block_list_cons htl hn
        simpa [last_addr] using ih htl hn

/-- A block written at a fresh address `M` and linked behind the last block
extends the list by that block. -/
theorem block_list_append {m0 m1 : Mem} {M last : Nat} (nb : Blk)
    (hM : nb.addr = M) (hM0 : M ≠ 0)
    (hframe : ∀ a f, a ≠ M → (a ≠ last ∨ f ≠ Field.next) → m1 a f = m0 a f)
    (hsz : m1 M Field.size = some nb.size) (hst : m1 M Field.status = some nb.status)
    (hpv : m1 M Field.prev = some nb.prev) (hnx : m1 M Field.next = some 0)
    (hnb : nb.next = 0)
    (hlink : m1 last Field.next = some M) :
    ∀ (k start : Nat) (l : List Blk), block_list k m0 start = some l → start ≠ 0 →
      (∀ b ∈ l, b.addr ≠ M) → last_addr l = last →
      block_list (k + 1) m1 start = some (relink_last l M ++ [nb]) := by
  intro k
  induction k with
  | zero => intro start l h; simp [block_list] at h
  | succ k ih =>
    intro start l h hs hfresh hlast
    obtain ⟨sz, st, pv, nx, tl, h1, h2, h3, h4, htl, rfl⟩ := block_list_cons h hs
    have hsM : start ≠ M := hfresh _ (List.mem_cons_self _ _)
    have e1 : load m1 start Field.size = some sz := by
      rw [load_ne_zero hs, hframe _ _ hsM (Or.inr (by decide))]
      rw [load_ne_zero hs] at h1
      exact h1
    have e2 : load m1 start Field.status = some st := by
      rw [load_ne_zero hs, hframe _ _ hsM (Or.inr (by decide))]
      rw [load_ne_zero hs] at h2
      exact h2
    have e3 : load m1 start Field.prev = some pv := by
      rw [load_ne_zero hs, hframe _ _ hsM (Or.inr (by decide))]
      rw [load_ne_zero hs] at h3
      exact h3
    by_cases hn : nx = 0
    · subst hn
      obtain ⟨rfl, hk⟩ := block_list_next_null htl
      obtain ⟨j, rfl⟩ : ∃ j, k = j + 1 := ⟨k - 1, by omega⟩
      have hl : start = last := by simpa [last_addr] using hlast
      have e4 : load m1 start Field.next = some M := by
        rw [load_ne_zero hs, hl, hlink]
      have e5 : block_list (j + 1 + 1) m1 M = some [nb] := by
        obtain ⟨a, s2, t2, p2, n2⟩ := nb
        simp only at hM hnb hsz hst hpv
        subst hM hnb
        exact block_list_step hM0 (by rw [load_ne_zero hM0, hsz])
          (by rw [load_ne_zero hM0, hst]) (by rw [load_ne_zero hM0, hpv])
          (by rw [load_ne_zero hM0, hnx]) (by simp [block_list])
      simpa [relink_last] using block_list_step hs e1 e2 e3 e4 e5
    · cases k with
      | zero => exact absurd htl (by simp [block_list])
      | succ k =>
        obtain ⟨sz2, st2, pv2, nx2, tl2, g1, g2, g3, g4, gtl, rfl⟩ := block_list_cons htl hn
        have hlast2 : last_addr (⟨nx, sz2, st2, pv2, nx2⟩ :: tl2) = last := by
          simpa [last_addr] using hlast
        have hrec := ih nx _ htl hn (fun b hb => hfresh b (List.mem_cons_of_mem _ hb)) hlast2
        have hl0 := (last_addr_next htl hn).2
        rw [hlast2] at hl0
        have hsl : start ≠ last := by
          intro hsl
          rw [hsl] at h4
          rw [h4] at hl0
          exact hn (by simpa using hl0)
        have e4 : load m1 start Field.next = some nx := by
          rw [load_ne_zero hs, hframe _ _ hsM (Or.inl hsl)]
          rw [load_ne_zero hs] at h4
          exact h4
        simpa [relink_last] using block_list_step hs e1 e2 e3 e4 hrec

theorem mmap_ok (cfg : Config) (s : State) {T : Nat} (hT : T ≠ 0)
    (hroom : s.mmap_next + T ≤ s.mmap_limit) :
    mmap cfg s T = ({ s with trace := s.trace ++ [Event.mmap T], mmap_next :=
        s.mmap_next + (T + cfg.PAGE_SIZE - 1) / cfg.PAGE_SIZE * cfg.PAGE_SIZE },
      s.mmap_next) := by
  simp [mmap, hT, hroom]

theorem mapping_path_ok (cfg : Config) (fuel : Nat) (s : State) {T last : Nat}
    (hT : T ≠ 0) (hroom : s.mmap_next + T ≤ s.mmap_limit)
    (hM0 : s.mmap_next ≠ 0) (hMF : s.mmap_next ≠ PTR_FAIL)
    (hlast : find_last_block fuel s.mem s.start_block = some last) :
    mapping_path cfg fuel s T
      = some ({ s with
          mem := append_mapped s.mem s.mmap_next T last,
          start_block := if s.start_block = 0 then s.mmap_next else s.start_block,
          trace := s.trace ++ [Event.mmap T],
          mmap_next :=
            s.mmap_next + (T + cfg.PAGE_SIZE - 1) / cfg.PAGE_SIZE * cfg.PAGE_SIZE },
        s.mmap_next + cfg.META_SIZE) := by
  obtain ⟨mem, start, pre, errno, brk, lim, mnext, mlim, tr⟩ := s
  simp only at hroom hM0 hMF hlast
  by_cases hl0 : last = 0
  · subst hl0
    by_cases hs : start = 0
    · subst hs
      simp [mapping_path, hlast, mmap, hT, hroom, hMF, store_ne_zero, hM0,
        set_start_if_null, append_mapped]
    · simp [mapping_path, hlast, mmap, hT, hroom, hMF, store_ne_zero, hM0,
        set_start_if_null, hs, append_mapped]
  · by_cases hs : start = 0
    · subst hs
      simp [mapping_path, hlast, mmap, hT, hroom, hMF, store_ne_zero, hM0,
        set_start_if_null, hl0, append_mapped]
    · simp [mapping_path, hlast, mmap, hT, hroom, hMF, store_ne_zero, hM0,
        set_start_if_null, hl0, hs, append_mapped]


theorem os_malloc_mapping (cfg : Config) (fuel : Nat) (s : State) {size : Nat}
    {m0 : Mem} (hc : coalesce_blocks fuel s.mem s.start_block = some m0)
    (hsize : size ≠ 0) (htot : MMAP_THRESHOLD ≤ total_size cfg size) :
    os_malloc cfg fuel s size
      = mapping_path cfg fuel { s with mem := m0 } (total_size cfg size) := by
  have h2 : ¬ total_size cfg size < MMAP_THRESHOLD := by omega
  simp [os_malloc, hc, hsize, h2, htot]

theorem os_free_mapped_last (cfg : Config) (fuel : Nat) (s : State) (M T last : Nat)
    (hfind : find_block cfg fuel s.mem s.start_block (M + cfg.META_SIZE) = some M)
    (hM : M ≠ 0) (hMl : M ≠ last)
    (hst : load s.mem M Field.status = some STATUS_MAPPED)
    (hpv : load s.mem M Field.prev = some last)
    (hnx : load s.mem M Field.next = some 0)
    (hsz : load s.mem M Field.size = some T) :
    os_free cfg fuel s (M + cfg.META_SIZE)
      = some (munmap (if last = 0 then { s with start_block := 0 }
          else { s with mem := poke (poke s.mem last Field.next 0) last Field.next 0 })
          M T) := by
  obtain ⟨mem, start, pre, errno, brk, lim, mnext, mlim, tr⟩ := s
  simp only at hfind hst hpv hnx hsz
  rw [load_ne_zero hM] at hst hpv hnx hsz
  by_cases hl : last = 0
  · subst hl
    simp [os_free, hfind, hM, load, hst, hpv, hnx, hsz, STATUS_MAPPED, STATUS_ALLOC]
  · simp [os_free, hfind, hM, load, hst, hpv, hnx, hsz, STATUS_MAPPED, STATUS_ALLOC, hl,
      store_ne_zero, poke_apply, hMl]

theorem coalesced_heap_state_eq :
    coalesced heap_state
      = poke (poke (poke (poke (poke (poke (poke (poke (fun _ _ => none)
          16777216 Field.status 1) 16777216 Field.size 96) 16777216 Field.prev 0)
          16777216 Field.next 16777312) 16777312 Field.status 0)
          16777312 Field.size 130976) 16777312 Field.prev 16777216)
          16777312 Field.next 0 := by
  rfl

theorem coalesced_heap_state_fresh (a : Nat) (f : Field) (h : 140737488355328 ≤ a) :
    coalesced heap_state a f = none := by
  have h1 : a ≠ 16777216 := by omega
  have h2 : a ≠ 16777312 := by omega
  rw [coalesced_heap_state_eq]
  simp [poke_apply, h1, h2]

/-- The best-fit walk keeps its candidate when no listed FREE block is large
enough. -/
theorem find_available_loop_no_fit {req k : Nat} {m : Mem} {start : Nat}
    {l : List Blk} (h : block_list k m start = some l)
    (hno : ∀ b ∈ l, b.status = STATUS_FREE → b.size < req) (best : Nat) (diff : Int) :
    find_available_loop req k m start best diff = some best := by
  induction k generalizing start l with
  | zero => simp [block_list] at h
  | succ k ih =>
    by_cases hs : start = 0
    · simp [find_available_loop, hs]
    · obtain ⟨sz, st, pv, nx, tl, h1, h2, h3, h4, htl, rfl⟩ := block_list_cons h hs
      have hrec := ih htl (fun b hb => hno b (List.mem_cons_of_mem _ hb))
      by_cases hst : st = STATUS_FREE
      · have hlt : ¬ req ≤ sz := by
          have := hno _ (List.mem_cons_self _ _) hst
          simp only at this
          omega
        simp [find_available_loop, hs, h1, h2, h4, hst, hlt, hrec]
      · simp [find_available_loop, hs, h2, h4, hst, hrec]

/-- The walk of `find_last_heap_block` over non-MAPPED blocks followed by
MAPPED blocks ends at the last non-MAPPED block. -/
theorem find_last_heap_loop_segregated {k : Nat} {m : Mem} {start : Nat}
    {pre post : List Blk} {t : Blk}
    (h : block_list k m start = some (pre ++ t :: post))
    (hpre : ∀ b ∈ pre, b.status ≠ STATUS_MAPPED) (ht : t.status ≠ STATUS_MAPPED)
    (hpost : ∀ b ∈ post, b.status = STATUS_MAPPED) (found : Nat) :
    find_last_heap_loop k m start found = some t.addr := by
  induction pre generalizing k start found with
  | nil =>
    cases k with
    | zero => simp [block_list] at h
    | succ k =>
      have hs : start ≠ 0 := by
        intro hs; subst hs
        have := block_list_null h
        simp at this
      obtain ⟨sz, st, pv, nx, tl, h1, h2, h3, h4, htl, he⟩ := block_list_cons h hs
      simp only [List.nil_append, List.cons.injEq] at he
      obtain ⟨rfl, rfl⟩ := he
      simp only at ht
      cases k with
      | zero => simp [block_list] at htl
      | succ k =>
        by_cases hn : nx = 0
        · simp [find_last_heap_loop, hs, h2, ht, h4, hn]
        · obtain ⟨sz2, st2, pv2, nx2, tl2, g1, g2, g3, g4, gtl, rfl⟩ :=
            block_list_cons htl hn
          have := hpost _ (List.mem_cons_self _ _)
          simp only at this
          simp [find_last_heap_loop, hs, h2, ht, h4, hn, g2, this]
  | cons p pre ih =>
    cases k with
    | zero => simp [block_list] at h
    | succ k =>
      have hs : start ≠ 0 := by
        intro hs; subst hs
        have := block_list_null h
        simp at this
      obtain ⟨sz, st, pv, nx, tl, h1, h2, h3, h4, htl, he⟩ := block_list_cons h hs
      simp only [List.cons_append, List.cons.injEq] at he
      obtain ⟨rfl, rfl⟩ := he
      have hp := hpre _ (List.mem_cons_self _ _)
      simp only at hp
      have := ih htl (fun b hb => hpre b (List.mem_cons_of_mem _ hb)) start
      simp [find_last_heap_loop, hs, h2, hp, h4, this]

/-- Writing the size word of the header at `a` changes the size of the
listed blocks at `a` and nothing else in the list. -/
theorem block_list_poke_size {k : Nat} {m : Mem} {start : Nat} {l : List Blk}
    (h : block_list k m start = some l) (a v : Nat) :
    block_list k (poke m a Field.size v) start
      = some (l.map (fun b => if b.addr = a then { b with size := v } else b)) := by
  induction k generalizing start l with
  | zero => simp [block_list] at h
  | succ k ih =>
    by_cases hs : start = 0
    · subst hs
      rw [block_list_null h]
      simp [block_list]
    · obtain ⟨sz, st, pv, nx, tl, h1, h2, h3, h4, htl, rfl⟩ := block_list_cons h hs
      rw [load_ne_zero hs] at h1 h2 h3 h4
      by_cases ha : start = a
      · subst ha
        simpa using @block_list_step _ _ _ v _ _ _ _ hs (by simp [load, hs, poke_apply])
          (by simp [load, hs, poke_apply, h2]) (by simp [load, hs, poke_apply, h3])
          (by simp [load, hs, poke_apply, h4]) (ih htl)
      · simpa [ha] using block_list_step hs (by simp [load, hs, poke_apply, ha, h1])
          (by simp [load, hs, poke_apply, h2]) (by simp [load, hs, poke_apply, h3])
          (by simp [load, hs, poke_apply, h4]) (ih htl)

/-- Writing the status word of the header at `a` changes the status of the
listed blocks at `a` and nothing else in the list. -/
theorem block_list_poke_status {k : Nat} {m : Mem} {start : Nat} {l : List Blk}
    (h : block_list k m start = some l) (a v : Nat) :
    block_list k (poke m a Field.status v) start
      = some (l.map (fun b => if b.addr = a then { b with status := v } else b)) := by
  induction k generalizing start l with
  | zero => simp [block_list] at h
  | succ k ih =>
    by_cases hs : start = 0
    · subst hs
      rw [block_list_null h]
      simp [block_list]
    · obtain ⟨sz, st, pv, nx, tl, h1, h2, h3, h4, htl, rfl⟩ := block_list_cons h hs
      rw [load_ne_zero hs] at h1 h2 h3 h4
      by_cases ha : start = a
      · subst ha
        simpa using @block_list_step _ _ _ _ v _ _ _ hs (by simp [load, hs, poke_apply, h1])
          (by simp [load, hs, poke_apply]) (by simp [load, hs, poke_apply, h3])
          (by simp [load, hs, poke_apply, h4]) (ih htl)
      · simpa [ha] using block_list_step hs (by simp [load, hs, poke_apply, h1])
          (by simp [load, hs, poke_apply, ha, h2]) (by simp [load, hs, poke_apply, h3])
          (by simp [load, hs, poke_apply, h4]) (ih htl)


theorem sbrk_grow_ok (s : State) {d : Nat} (hd : d < 9223372036854775808)
    (hroom : s.brk + d ≤ s.brk_limit) :
    sbrk s d = ({ s with trace := s.trace ++ [Event.sbrk d], brk := s.brk + d },
      s.brk) := by
  have h1 : d % SIZE_MOD = d := by unfold SIZE_MOD; omega
  simp [sbrk, h1, hd, hroom]

/-! ## Scenario evaluations -/

/-- C1: after `a = os_malloc(64)`, `b = os_malloc(130944)`, two
`os_malloc(200000)`, `c = os_malloc(64)`, `os_free(b)` and
`d = os_malloc(131032)` the pointer `c`, returned and never freed, lies
inside the region of the live ALLOC block at `0x1000060` that `d` designates:
the non-overlap invariant is broken. -/
theorem overlap_run_breaks_non_overlap :
    overlap_run.map (fun r => (r.2.1, r.2.2)) = some (16908320, 16777344)
    ∧ overlap_run.bind (fun r =>
        (block_list 8 r.1.mem r.1.start_block).map (fun l =>
          l.map (fun b => (b.addr, b.size, b.live, b.contains r.2.1))))
      = some
        [(16777216, 96, true, false), (16777312, 131064, true, true),
         (140737488355328, 200032, true, false),
         (140737488556032, 200032, true, false)] := by
  decide

/-- C2: after `os_malloc(131032)`, `os_malloc(200000)`, `os_malloc(64)` the
block at `0x1020000` is reachable from `start_block`, its successor is the
mapped block, and the `prev` of that successor is still the first block: the
forward half of the list invariant fails at the second block. -/
theorem back_link_run_breaks_list_invariant :
    back_link_run.bind (fun s =>
      (block_list 8 s.mem s.start_block).map (fun l =>
        l.map (fun b => (b.addr, b.prev, b.next, next_link_ok s.mem b))))
    = some
        [(16777216, 0, 16908288, true),
         (16908288, 16777216, 140737488355328, false),
         (140737488355328, 16777216, 0, true)] := by
  decide

/-- C3, as stated, fails: in the best-fit scenario `os_malloc(40)` does not
return the pointer `c`. -/
theorem best_fit_run_not_c :
    best_fit_run.map (fun r => decide (r.x = r.c)) = some false := by
  decide

/-- C3, amended: in the best-fit scenario `os_malloc(40)` returns the
pointer `a`; the four pointers are `a = 0x1000020`, `b = 0x10000a8`,
`c = 0x1000190` and `x = a`. -/
theorem best_fit_run_reuses_a :
    best_fit_run = some ⟨16777248, 16777384, 16777616, 16777248⟩ := by
  decide

/-- C4, as stated, fails on a MAPPED block: `os_realloc(p, 200000)` on the
mapped block of payload capacity 200000 returns another pointer and issues
an `mmap` and a `munmap`. -/
theorem realloc_same_capacity_mapped_moves :
    (os_realloc cfg64 16 mapped_state mapped_ptr 200000).map (fun r =>
      (decide (r.2 = mapped_ptr), r.1.trace.drop mapped_state.trace.length))
    = some (false,
        [Event.mmap 200032, Event.memcpy 140737488556064 140737488355360 200000,
         Event.munmap 140737488355328 200032])
    ∧ block_list 8 mapped_state.mem mapped_state.start_block
      = some [⟨140737488355328, 200032, STATUS_MAPPED, 0, 0⟩]
    ∧ mapped_ptr = 140737488355328 + cfg64.META_SIZE
    ∧ 200000 = 200032 - header_offset cfg64 := by
  decide

/-- C5: `os_realloc(p, 300000)` on the mapped block of payload capacity
200000 copies 200032 bytes, the whole size of the old block, and from the
heap block of payload capacity 64 `os_realloc(a, 200)` moves 96 bytes. -/
theorem realloc_copies_block_size :
    (os_realloc cfg64 16 mapped_state mapped_ptr 300000).map (fun r =>
      r.1.trace.drop mapped_state.trace.length)
    = some [Event.mmap 300032,
        Event.memcpy 140737488556064 140737488355360 200032,
        Event.munmap 140737488355328 200032]
    ∧ (os_realloc cfg64 16 two_block_state 16777248 200).map (fun r =>
      r.1.trace.drop two_block_state.trace.length)
    = some [Event.memmove 16777440 16777248 96]
    ∧ OsMem.min 300000 (200032 - header_offset cfg64) = 200000
    ∧ OsMem.min 200 (96 - header_offset cfg64) = 64 := by
  decide

/-! ## Resizing to the current capacity -/

/-- C4, amended: when `p` is the payload address of an ALLOC block `b` that
is still listed after the entry coalesce, with `b.size` a multiple of 8 above
the header offset, `os_realloc(p, b.size - header_offset)` returns `p`, and
the state it leaves is the coalesced state: no event is recorded, so no
`sbrk`, `mmap` or `munmap` call is made. -/
theorem realloc_same_capacity_alloc (cfg : Config) (fuel : Nat) (s : State)
    (m0 : Mem) (l : List Blk) (b : Blk)
    (hc : coalesce_blocks fuel s.mem s.start_block = some m0)
    (hl : block_list fuel m0 s.start_block = some l)
    (hb : b ∈ l) (hst : b.status = STATUS_ALLOC)
    (h8 : b.size % 8 = 0) (hlt : header_offset cfg < b.size)
    (h64 : b.size < SIZE_MOD) :
    os_realloc cfg fuel s (b.addr + cfg.META_SIZE) (b.size - header_offset cfg)
      = some ({ s with mem := m0 }, b.addr + cfg.META_SIZE)
    ∧ ({ s with mem := m0 } : State).trace = s.trace := by
  refine ⟨?_, rfl⟩
  obtain ⟨hb0, hsz, hstat, -, -⟩ := block_list_mem hl hb
  have hfind := find_block_mem cfg hl hb rfl
  have htot := total_size_capacity cfg h8 hlt h64
  have hh := header_offset_mod8 cfg
  have hp0 : b.addr + cfg.META_SIZE ≠ 0 := by omega
  have hn0 : b.size - header_offset cfg ≠ 0 := by omega
  have hsplit : ¬ (header_offset cfg + 8) % SIZE_MOD ≤ usub b.size b.size := by
    rw [usub_self]
    unfold SIZE_MOD at *
    omega
  simp [os_realloc, hc, hfind, hb0, status_is, hstat, hst, STATUS_ALLOC, STATUS_FREE,
    STATUS_MAPPED, hp0, hn0, realloc_resize, hsz, htot, realloc_shrink, hsplit]


/-- C4, amended, at the ALLOC block of `heap_state`. -/
theorem realloc_same_capacity_alloc_witness :
    os_realloc cfg64 16 heap_state 16777248 64
      = some ({ heap_state with mem := coalesced heap_state }, 16777248)
    ∧ ({ heap_state with mem := coalesced heap_state } : State).trace
      = heap_state.trace :=
  realloc_same_capacity_alloc cfg64 16 heap_state (coalesced heap_state)
    [⟨16777216, 96, 1, 0, 16777312⟩, ⟨16777312, 130976, 0, 16777216, 0⟩]
    ⟨16777216, 96, 1, 0, 16777312⟩ (by rfl) (by decide) (by decide) (by decide)
    (by decide) (by decide) (by decide)
/-! ## Frame of `os_free` -/

/-- C10: when `ptr` is the payload address of a listed ALLOC block,
`os_free(ptr)` returns the state in which the status word of that block is
`STATUS_FREE` and every other header word, the head, the flag, `errno`, the
break and the trace are the same; when `ptr` is `NULL`, is the payload
address of no listed block, or is the payload address of a FREE block,
`os_free(ptr)` returns the state unchanged. -/
theorem os_free_frame (cfg : Config) (fuel : Nat) (s : State) (ptr : Nat)
    (l : List Blk) (hl : block_list fuel s.mem s.start_block = some l) :
    (∀ b ∈ l, b.addr + cfg.META_SIZE = ptr → b.status = STATUS_ALLOC →
      os_free cfg fuel s ptr = some { s with mem := poke s.mem b.addr Field.status STATUS_FREE })
    ∧ (ptr = 0 ∨ (∀ b ∈ l, b.addr + cfg.META_SIZE ≠ ptr)
        ∨ (∃ b ∈ l, b.addr + cfg.META_SIZE = ptr ∧ b.status = STATUS_FREE) →
      os_free cfg fuel s ptr = some s) := by
  constructor
  · intro b hb hp hst
    obtain ⟨hb0, -, hstat, -, -⟩ := block_list_mem hl hb
    simp [os_free, find_block_mem cfg hl hb hp, hb0, hstat, hst, store_ne_zero]
  · rintro (h0 | hnone | ⟨b, hb, hp, hst⟩)
    · simp [os_free, find_block, h0]
    · by_cases h0 : ptr = 0
      · simp [os_free, find_block, h0]
      · simp [os_free, find_block, h0, find_block_loop_none cfg hl hnone]
    · obtain ⟨hb0, -, hstat, -, -⟩ := block_list_mem hl hb
      simp [os_free, find_block_mem cfg hl hb hp, hb0, hstat, hst, STATUS_FREE,
        STATUS_ALLOC, STATUS_MAPPED]

/-- C10 at `heap_state`: the ALLOC block at `0x1000000`, and `NULL`. -/
theorem os_free_frame_witness :
    os_free cfg64 16 heap_state 16777248 = some { heap_state with mem := poke heap_state.mem 16777216 Field.status STATUS_FREE }
    ∧ os_free cfg64 16 heap_state 0 = some heap_state :=
  ⟨(os_free_frame cfg64 16 heap_state 16777248
      [⟨16777216, 96, 1, 0, 16777312⟩, ⟨16777312, 130976, 0, 16777216, 0⟩]
      (by decide)).1 ⟨16777216, 96, 1, 0, 16777312⟩ (by decide) (by decide) (by decide),
   (os_free_frame cfg64 16 heap_state 0
      [⟨16777216, 96, 1, 0, 16777312⟩, ⟨16777312, 130976, 0, 16777216, 0⟩]
      (by decide)).2 (Or.inl rfl)⟩


/-! ## Bootstrap of the heap -/

/-- C8: on an allocator with no block and the heap never used, for every
`size > 0` whose total is below `MMAP_THRESHOLD` and with `sbrk` succeeding,
`os_malloc(size)` records exactly one event, `sbrk(131072)`, returns the
payload address of the block at the old break, which becomes the head, and
leaves the list `[ALLOC total, FREE 131072 - total]` when
`131072 - total >= header_offset + 8` and `[ALLOC 131072]` otherwise; the
sizes sum to 131072. -/
theorem bootstrap_malloc (cfg : Config) (fuel : Nat) (s : State) (size : Nat)
    (hfuel : 0 < fuel) (hs : s.start_block = 0) (hp : s.heap_preallocated = false)
    (hsize : 0 < size)
    (htot : header_offset cfg + size + pad8 size < MMAP_THRESHOLD)
    (hbrk : 0 < s.brk) (hroom : s.brk + MMAP_THRESHOLD ≤ s.brk_limit)
    (hlim : s.brk_limit ≤ SIZE_MOD) :
    ∃ s1 l, os_malloc cfg fuel s size = some (s1, s.brk + cfg.META_SIZE)
      ∧ s1.trace = s.trace ++ [Event.sbrk 131072]
      ∧ s1.start_block = s.brk
      ∧ s1.heap_preallocated = true
      ∧ (∀ k, 3 ≤ k → block_list k s1.mem s1.start_block = some l)
      ∧ l = (if header_offset cfg + 8 ≤ 131072 - total_size cfg size then
          [⟨s.brk, total_size cfg size, STATUS_ALLOC, 0, s.brk + total_size cfg size⟩,
           ⟨s.brk + total_size cfg size, 131072 - total_size cfg size, STATUS_FREE,
            s.brk, 0⟩]
        else [⟨s.brk, 131072, STATUS_ALLOC, 0, 0⟩])
      ∧ (l.map Blk.size).sum = 131072 := by
  obtain ⟨mem, start, pre, errno, brk, lim, mnext, mlim, tr⟩ := s
  simp only at hs hp hbrk hroom hlim
  subst hs hp
  have ht := total_size_small cfg htot
  have hh := header_offset_mod8 cfg
  have htl : total_size cfg size < MMAP_THRESHOLD := by rw [ht]; exact htot
  have htpos : 0 < total_size cfg size := by rw [ht]; omega
  have hb0 : brk ≠ 0 := by omega
  have hsz0 : size ≠ 0 := by omega
  have hfail : brk ≠ PTR_FAIL := by
    unfold PTR_FAIL; unfold MMAP_THRESHOLD SIZE_MOD at *; omega
  have h1 : MMAP_THRESHOLD % SIZE_MOD = MMAP_THRESHOLD := by
    unfold MMAP_THRESHOLD SIZE_MOD; rfl
  have h2 : MMAP_THRESHOLD < 9223372036854775808 := by unfold MMAP_THRESHOLD; omega
  have husub : usub MMAP_THRESHOLD (total_size cfg size)
      = 131072 - total_size cfg size := by
    unfold usub; unfold MMAP_THRESHOLD SIZE_MOD at *; omega
  have hmod : (header_offset cfg + 8) % SIZE_MOD = header_offset cfg + 8 := by
    unfold MMAP_THRESHOLD SIZE_MOD at *; omega
  have hr0 : brk + total_size cfg size ≠ 0 := by omega
  have hne : brk + total_size cfg size ≠ brk := by omega
  have hne2 : brk ≠ brk + total_size cfg size := by omega
  by_cases hsplit : header_offset cfg + 8 ≤ 131072 - total_size cfg size
  · simp [os_malloc, coalesce_blocks_null _ hfuel, hsz0, htl, bootstrap_path, sbrk,
      h1, h2, hroom, find_last_block_null _ hfuel, hfail,
      set_start_if_null, store_ne_zero, hb0, husub, hmod, hsplit, hr0]
    refine ⟨rfl, _, ?_, rfl, ?_⟩
    · intro k hk
      obtain ⟨j, rfl⟩ : ∃ j, k = j + 3 := ⟨k - 3, by omega⟩
      simp [block_list, load, poke_apply, hb0, hr0, hne, hne2]
    · simp; unfold MMAP_THRESHOLD at htl; omega
  · simp [os_malloc, coalesce_blocks_null _ hfuel, hsz0, htl, bootstrap_path, sbrk,
      h1, h2, hroom, find_last_block_null _ hfuel, hfail,
      set_start_if_null, store_ne_zero, hb0, husub, hmod, hsplit]
    refine ⟨rfl, _, ?_, rfl, ?_⟩
    · intro k hk
      obtain ⟨j, rfl⟩ : ∃ j, k = j + 2 := ⟨k - 2, by omega⟩
      simp [block_list, load, poke_apply, hb0, MMAP_THRESHOLD]
    · simp

/-- C8 at `os_malloc(64)` on the virgin allocator. -/
theorem bootstrap_malloc_witness :
    ∃ s1 l, os_malloc cfg64 16 virgin 64 = some (s1, 16777216 + 32)
      ∧ s1.trace = [] ++ [Event.sbrk 131072]
      ∧ s1.start_block = 16777216
      ∧ s1.heap_preallocated = true
      ∧ (∀ k, 3 ≤ k → block_list k s1.mem s1.start_block = some l)
      ∧ l = (if header_offset cfg64 + 8 ≤ 131072 - total_size cfg64 64 then
          [⟨16777216, total_size cfg64 64, STATUS_ALLOC, 0,
            16777216 + total_size cfg64 64⟩,
           ⟨16777216 + total_size cfg64 64, 131072 - total_size cfg64 64, STATUS_FREE,
            16777216, 0⟩]
        else [⟨16777216, 131072, STATUS_ALLOC, 0, 0⟩])
      ∧ (l.map Blk.size).sum = 131072 :=
  bootstrap_malloc cfg64 16 virgin 64 (by decide) (by decide) (by decide) (by decide)
    (by decide) (by decide) (by decide) (by decide)


/-! ## Mapping path and its release -/

/-- C7: for every state whose entry coalesce returns and leaves a finite
list `l`, and every `size` whose total is at least `MMAP_THRESHOLD`, with
`mmap` succeeding on a fresh region at `M`: `os_malloc(size)` records one
event, `mmap(total)`, and leaves the list `l` followed by a MAPPED block of
size `total` at `M`; the following `os_free` of the returned pointer records
`munmap(M, total)` and leaves every header word, the head and the flag as
they were after the entry coalesce. -/
theorem mapping_round_trip (cfg : Config) (fuel : Nat) (s : State) (size : Nat)
    (m0 : Mem) (l : List Blk) (k : Nat)
    (hsize : 0 < size) (htot : MMAP_THRESHOLD ≤ total_size cfg size)
    (hc : coalesce_blocks fuel s.mem s.start_block = some m0)
    (hl : block_list k m0 s.start_block = some l) (hk : k < fuel)
    (hM0 : 0 < s.mmap_next)
    (hroom : s.mmap_next + total_size cfg size ≤ s.mmap_limit)
    (hlim : s.mmap_limit ≤ PTR_FAIL)
    (hfresh : ∀ a f, s.mmap_next ≤ a → a < s.mmap_next + total_size cfg size →
      m0 a f = none) :
    ∃ s1 s2, os_malloc cfg fuel s size = some (s1, s.mmap_next + cfg.META_SIZE)
      ∧ s1.trace = s.trace ++ [Event.mmap (total_size cfg size)]
      ∧ block_list fuel s1.mem s1.start_block
          = some (relink_last l s.mmap_next
              ++ [⟨s.mmap_next, total_size cfg size, STATUS_MAPPED, last_addr l, 0⟩])
      ∧ os_free cfg fuel s1 (s.mmap_next + cfg.META_SIZE) = some s2
      ∧ s2.trace = s1.trace ++ [Event.munmap s.mmap_next (total_size cfg size)]
      ∧ s2.mem = m0
      ∧ s2.start_block = s.start_block
      ∧ s2.heap_preallocated = s.heap_preallocated := by
  obtain ⟨mem, start, pre, errno, brk, lim, mnext, mlim, tr⟩ := s
  simp only at hc hl hM0 hroom hlim hfresh ⊢
  generalize hT : total_size cfg size = T at *
  have hT0 : T ≠ 0 := by unfold MMAP_THRESHOLD at htot; omega
  have hMne : mnext ≠ 0 := by omega
  have hMF : mnext ≠ PTR_FAIL := by omega
  have hsz : size ≠ 0 := by omega
  have hlf := block_list_mono hl (Nat.le_of_lt hk)
  have hlast := find_last_block_list hlf
  have hMnone : ∀ f, m0 mnext f = none := fun f => hfresh _ f (Nat.le_refl _) (by omega)
  have hp0 : mnext + cfg.META_SIZE ≠ 0 := by omega
  rw [os_malloc_mapping cfg fuel _ hc hsz (by rw [hT]; exact htot), hT,
    mapping_path_ok cfg fuel _ hT0 hroom hMne hMF hlast]
  dsimp only
  by_cases hs : start = 0
  · subst hs
    obtain ⟨rfl, hk0⟩ := block_list_next_null hl
    obtain ⟨j, rfl⟩ : ∃ j, fuel = j + 2 := ⟨fuel - 2, by omega⟩
    have hunmap : unmap (append_mapped m0 mnext T 0) mnext T = m0 := by
      funext a f
      by_cases hr : mnext ≤ a ∧ a < mnext + T
      · simp [unmap, hr, hfresh a f hr.1 hr.2]
      · have ha : a ≠ mnext := by
          intro ha; subst ha; exact hr ⟨Nat.le_refl _, by omega⟩
        simp [unmap, hr, append_mapped, poke_apply, ha]
    refine ⟨_, _, rfl, rfl, ?_,
      os_free_mapped_last cfg _ _ mnext T 0 ?_ hMne hMne ?_ ?_ ?_ ?_, ?_, ?_, ?_, ?_⟩
    · simp [block_list, load, poke_apply, append_mapped, hMne, last_addr, relink_last]
    · simp [find_block, find_block_loop, hp0, hMne]
    · simp [load, poke_apply, append_mapped, hMne, last_addr]
    · simp [load, poke_apply, append_mapped, hMne, last_addr]
    · simp [load, poke_apply, append_mapped, hMne, last_addr]
    · simp [load, poke_apply, append_mapped, hMne, last_addr]
    · simp [munmap]
    · simpa [munmap, last_addr] using hunmap
    · simp [munmap]
    · simp [munmap]
  · obtain ⟨hl0, hlnext⟩ := last_addr_next hl hs
    have hlM : last_addr l ≠ mnext := by
      intro h
      rw [h, load_ne_zero hMne, hMnone] at hlnext
      exact absurd hlnext (by simp)
    have hMl : mnext ≠ last_addr l := fun h => hlM h.symm
    have hm0l : m0 (last_addr l) Field.next = some 0 := by
      rw [load_ne_zero hl0] at hlnext; exact hlnext
    have hlist : block_list fuel (append_mapped m0 mnext T (last_addr l)) start
        = some (relink_last l mnext
            ++ [⟨mnext, T, STATUS_MAPPED, last_addr l, 0⟩]) := by
      refine block_list_mono (@block_list_append m0 _ mnext (last_addr l)
        ⟨mnext, T, STATUS_MAPPED, last_addr l, 0⟩ rfl hMne
        ?_ ?_ ?_ ?_ ?_ rfl ?_ k start l hl hs ?_ rfl) (by omega)
      · intro a f ha hf
        have : ¬ (a = last_addr l ∧ f = Field.next) := by
          rintro ⟨h1, h2⟩
          rcases hf with hf | hf
          · exact hf h1
          · exact hf h2
        simp [append_mapped, hl0, poke_apply, ha, this]
      · simp [append_mapped, hl0, poke_apply, hMl]
      · simp [append_mapped, hl0, poke_apply, hMl]
      · simp [append_mapped, hl0, poke_apply, hMl]
      · simp [append_mapped, hl0, poke_apply, hMl]
      · simp [append_mapped, hl0, poke_apply]
      · intro b hb hbM
        have := (block_list_mem hl hb).2.1
        rw [hbM, load_ne_zero hMne, hMnone] at this
        exact absurd this (by simp)
    have hfind := @find_block_mem cfg _ _ _ _ _ hlist
      ⟨mnext, T, STATUS_MAPPED, last_addr l, 0⟩ (by simp) rfl
    have hunmap : unmap (poke (poke (append_mapped m0 mnext T (last_addr l))
        (last_addr l) Field.next 0) (last_addr l) Field.next 0) mnext T = m0 := by
      funext a f
      by_cases hr : mnext ≤ a ∧ a < mnext + T
      · simp [unmap, hr, hfresh a f hr.1 hr.2]
      · have ha : a ≠ mnext := by
          intro ha; subst ha; exact hr ⟨Nat.le_refl _, by omega⟩
        by_cases hq : a = last_addr l ∧ f = Field.next
        · obtain ⟨rfl, rfl⟩ := hq
          simp [unmap, hr, poke_apply, hm0l]
        · simp [unmap, hr, append_mapped, poke_apply, ha, hq, hl0]
    simp only [hs, if_false]
    refine ⟨_, _, rfl, rfl, hlist,
      os_free_mapped_last cfg _ _ mnext T (last_addr l) hfind hMne hMl ?_ ?_ ?_ ?_,
      ?_, ?_, ?_, ?_⟩
    · simp [load, poke_apply, append_mapped, hMne, hl0, hMl]
    · simp [load, poke_apply, append_mapped, hMne, hl0, hMl]
    · simp [load, poke_apply, append_mapped, hMne, hl0, hMl]
    · simp [load, poke_apply, append_mapped, hMne, hl0, hMl]
    · simp [munmap, hl0]
    · simpa [munmap, hl0] using hunmap
    · simp [munmap, hl0]
    · simp [munmap, hl0]


/-- C7 at `os_malloc(200000)` on `heap_state`. -/
theorem mapping_round_trip_witness :
    ∃ s1 s2, os_malloc cfg64 16 heap_state 200000 = some (s1, 140737488355328 + 32)
      ∧ s1.trace = heap_state.trace ++ [Event.mmap 200032]
      ∧ block_list 16 s1.mem s1.start_block
          = some ([⟨16777216, 96, 1, 0, 16777312⟩,
                   ⟨16777312, 130976, 0, 16777216, 140737488355328⟩]
              ++ [⟨140737488355328, 200032, STATUS_MAPPED, 16777312, 0⟩])
      ∧ os_free cfg64 16 s1 (140737488355328 + 32) = some s2
      ∧ s2.trace = s1.trace ++ [Event.munmap 140737488355328 200032]
      ∧ s2.mem = coalesced heap_state
      ∧ s2.start_block = 16777216
      ∧ s2.heap_preallocated = true :=
  mapping_round_trip cfg64 16 heap_state 200000 (coalesced heap_state)
    [⟨16777216, 96, 1, 0, 16777312⟩, ⟨16777312, 130976, 0, 16777216, 0⟩] 3
    (by decide) (by decide) (by rfl) (by decide) (by decide) (by decide) (by decide)
    (by decide) (fun a f h _ => coalesced_heap_state_fresh a f h)


/-! ## Growth of the last heap block -/

/-- C9, as stated, fails on a state that is not coalesced: after
`os_malloc(64)`, `b = os_malloc(64)`, `os_free(b)` the list is
`[ALLOC 96, FREE 96, FREE 130880]`, no FREE block holds the total 130936 of a
request of 130900 bytes and the last heap block is FREE, yet
`os_malloc(130900)` records no `sbrk` and returns `b`, the payload of the
FREE block that the entry coalesce merged with the last one. -/
theorem malloc_reuses_merged_tail :
    block_list 8 absorb_state.mem absorb_state.start_block
      = some [⟨16777216, 96, STATUS_ALLOC, 0, 16777312⟩,
              ⟨16777312, 96, STATUS_FREE, 16777216, 16777408⟩,
              ⟨16777408, 130880, STATUS_FREE, 16777312, 0⟩]
    ∧ absorb_state.heap_preallocated = true
    ∧ total_size cfg64 130900 = 130936
    ∧ (os_malloc cfg64 16 absorb_state 130900).map (fun r =>
        (r.2, r.1.trace.drop absorb_state.trace.length))
      = some (16777312 + cfg64.META_SIZE, []) := by
  decide

/-- C9, amended: for every state with the heap in use whose list after the
entry coalesce is heap blocks, then the FREE block `t`, then MAPPED blocks only,
and every `size > 0` with `total < MMAP_THRESHOLD` that no FREE block can
hold, with `sbrk` succeeding: `os_malloc(size)` records exactly one event,
`sbrk(total - t.size)`, whose argument is positive and is what the unsigned
subtraction of the source yields, writes `total` and `STATUS_ALLOC` into the
size and status words of `t` and no other header word, keeps the head, so the
list is the old list with `t` resized and ALLOC, and returns the payload
address of `t`. -/
theorem top_of_heap_expansion (cfg : Config) (fuel : Nat) (s : State) (size : Nat)
    (m0 : Mem) (pre post : List Blk) (t : Blk)
    (hheap : s.heap_preallocated = true)
    (hsize : 0 < size) (htot : total_size cfg size < MMAP_THRESHOLD)
    (hc : coalesce_blocks fuel s.mem s.start_block = some m0)
    (hl : block_list fuel m0 s.start_block = some (pre ++ t :: post))
    (hno : ∀ b ∈ pre ++ t :: post, b.status = STATUS_FREE →
      b.size < total_size cfg size)
    (hpre : ∀ b ∈ pre, b.status ≠ STATUS_MAPPED) (ht : t.status = STATUS_FREE)
    (hpost : ∀ b ∈ post, b.status = STATUS_MAPPED)
    (hroom : s.brk + (total_size cfg size - t.size) ≤ s.brk_limit)
    (hlim : s.brk_limit ≤ PTR_FAIL) :
    ∃ s1, os_malloc cfg fuel s size = some (s1, t.addr + cfg.META_SIZE)
      ∧ s1.trace = s.trace ++ [Event.sbrk (total_size cfg size - t.size)]
      ∧ 0 < total_size cfg size - t.size
      ∧ usub (total_size cfg size) t.size = total_size cfg size - t.size
      ∧ s1.mem = poke (poke m0 t.addr Field.size (total_size cfg size))
          t.addr Field.status STATUS_ALLOC
      ∧ s1.start_block = s.start_block
      ∧ block_list fuel s1.mem s1.start_block
          = some ((pre ++ t :: post).map (fun b =>
              if b.addr = t.addr then
                { b with size := total_size cfg size, status := STATUS_ALLOC }
              else b)) := by
  obtain ⟨mem, start, hp, errno, brk, lim, mnext, mlim, tr⟩ := s
  simp only at hheap hc hl hroom hlim ⊢
  subst hheap
  generalize hT : total_size cfg size = T at *
  have htmem : t ∈ pre ++ t :: post := by simp
  obtain ⟨ht0, htsz, htst, -, -⟩ := block_list_mem hl htmem
  have hlt : t.size < T := hno t htmem ht
  have hsz0 : size ≠ 0 := by omega
  have hT2 : ¬ MMAP_THRESHOLD ≤ T := by omega
  have hstart : start ≠ 0 := by
    intro hs; subst hs
    cases fuel with
    | zero => simp [block_list] at hl
    | succ k =>
      have := block_list_null hl
      simp at this
  have hfa : find_available_block fuel m0 start T = some 0 :=
    find_available_loop_no_fit hl hno 0 (-1)
  have hfl : find_last_heap_block fuel m0 start = some t.addr :=
    find_last_heap_loop_segregated hl hpre
      (by rw [ht]; decide) hpost 0
  have hus : usub T t.size = T - t.size := by
    unfold usub; unfold MMAP_THRESHOLD SIZE_MOD at *; omega
  have hd : T - t.size < 9223372036854775808 := by
    unfold MMAP_THRESHOLD at htot; omega
  have hbrk : brk ≠ PTR_FAIL := by omega
  have hlist := block_list_poke_status
    (block_list_poke_size hl t.addr T) t.addr STATUS_ALLOC
  have hm : os_malloc cfg fuel
      { mem := mem, start_block := start, heap_preallocated := true, errno := errno,
        brk := brk, brk_limit := lim, mmap_next := mnext, mmap_limit := mlim,
        trace := tr } size
      = some ({ mem := poke (poke m0 t.addr Field.size T) t.addr Field.status
                  STATUS_ALLOC,
                start_block := start, heap_preallocated := true, errno := errno,
                brk := brk + (T - t.size), brk_limit := lim, mmap_next := mnext,
                mmap_limit := mlim, trace := tr ++ [Event.sbrk (T - t.size)] },
              t.addr + cfg.META_SIZE) := by
    have hsb := sbrk_grow_ok (State.mk m0 start true errno brk lim mnext mlim tr) hd hroom
    simp [os_malloc, hc, hsz0, hT, htot, hT2, reuse_path, hfa, hfl, ht0, status_is, htst,
      ht, htsz, hus, hsb, hbrk, store_ne_zero, set_start_if_null, hstart]
  refine ⟨_, hm, rfl, by omega, hus, rfl, rfl, ?_⟩
  simp only [List.map_map] at hlist
  rw [hlist]
  congr 1
  apply List.map_congr_left
  intro b _
  by_cases hb : b.addr = t.addr <;> simp [hb]


/-- C9, amended, at `os_malloc(131032)` on `heap_state`, whose FREE tail
holds 130976 bytes. -/
theorem top_of_heap_expansion_witness :
    ∃ s1, os_malloc cfg64 16 heap_state 131032 = some (s1, 16777312 + 32)
      ∧ s1.trace = heap_state.trace ++ [Event.sbrk 88]
      ∧ 0 < 131064 - 130976
      ∧ usub 131064 130976 = 88
      ∧ s1.mem = poke (poke (coalesced heap_state) 16777312 Field.size 131064)
          16777312 Field.status STATUS_ALLOC
      ∧ s1.start_block = 16777216
      ∧ block_list 16 s1.mem s1.start_block
          = some [⟨16777216, 96, 1, 0, 16777312⟩,
                  ⟨16777312, 131064, 1, 16777216, 0⟩] :=
  top_of_heap_expansion cfg64 16 heap_state 131032 (coalesced heap_state)
    [⟨16777216, 96, 1, 0, 16777312⟩] [] ⟨16777312, 130976, 0, 16777216, 0⟩
    (by decide) (by decide) (by decide) (by rfl) (by decide) (by decide) (by decide)
    (by decide) (by decide) (by decide) (by decide)


/-! ## Resize by absorbing the FREE successor -/

/-- C6: for every state whose entry coalesce returns with a finite list in
which `b` is ALLOC and its list successor `n` is FREE, and every `size > 0`
with `b.size < total <= b.size + n.size`: `os_realloc(ptr, size)` on the
payload address of `b` returns `ptr` and records no event, `b` stays ALLOC
with a size `bsz >= total`, and `bsz` plus the size `rsz` of the residual is
the old `b.size + n.size`.  When `b.size + n.size - total` holds a header
(`META_SIZE`) and 8 bytes, `b` has size `total` and is followed by a FREE
residual of the remaining bytes at `b + total`, whose successor is the old
successor of `n`; otherwise there is no residual and `b` takes all of `n`. -/
theorem realloc_absorbs_successor (cfg : Config) (fuel : Nat) (s : State) (size : Nat)
    (m0 : Mem) (l : List Blk) (b n : Blk)
    (hsize : 0 < size) (hmeta : cfg.META_SIZE + 8 < SIZE_MOD)
    (hc : coalesce_blocks fuel s.mem s.start_block = some m0)
    (hl : block_list fuel m0 s.start_block = some l)
    (hb : b ∈ l) (hn : n ∈ l) (hbn : b.next = n.addr)
    (hbst : b.status = STATUS_ALLOC) (hnst : n.status = STATUS_FREE)
    (hgrow : b.size < total_size cfg size)
    (hfit : total_size cfg size ≤ b.size + n.size)
    (h64 : b.size + n.size < SIZE_MOD) :
    ∃ s1 bsz rsz,
      os_realloc cfg fuel s (b.addr + cfg.META_SIZE) size
        = some (s1, b.addr + cfg.META_SIZE)
      ∧ s1.trace = s.trace
      ∧ load s1.mem b.addr Field.status = some STATUS_ALLOC
      ∧ load s1.mem b.addr Field.size = some bsz
      ∧ total_size cfg size ≤ bsz
      ∧ bsz + rsz = b.size + n.size
      ∧ (if cfg.META_SIZE + 8 ≤ b.size + n.size - total_size cfg size then
          bsz = total_size cfg size
          ∧ load s1.mem b.addr Field.next = some (b.addr + total_size cfg size)
          ∧ load s1.mem (b.addr + total_size cfg size) Field.status = some STATUS_FREE
          ∧ load s1.mem (b.addr + total_size cfg size) Field.size = some rsz
          ∧ load s1.mem (b.addr + total_size cfg size) Field.next = some n.next
        else rsz = 0 ∧ load s1.mem b.addr Field.next = some n.next) := by
  obtain ⟨mem, start, hp, errno, brk, lim, mnext, mlim, tr⟩ := s
  simp only at hc hl ⊢
  generalize hT : total_size cfg size = T at *
  obtain ⟨hb0, hbsz, hbstat, -, hbnx⟩ := block_list_mem hl hb
  obtain ⟨hn0, hnsz, hnstat, -, hnnx⟩ := block_list_mem hl hn
  have hfind := find_block_mem cfg hl hb rfl
  have hp0 : b.addr + cfg.META_SIZE ≠ 0 := by omega
  have hsz0 : size ≠ 0 := by omega
  have hnle : ¬ T ≤ b.size := by omega
  have hsum : (b.size + n.size) % SIZE_MOD = b.size + n.size := Nat.mod_eq_of_lt h64
  have hus : usub (b.size + n.size) T = b.size + n.size - T := by
    unfold usub; unfold SIZE_MOD at *; omega
  have hm8 : (cfg.META_SIZE + 8) % SIZE_MOD = cfg.META_SIZE + 8 := Nat.mod_eq_of_lt hmeta
  have hr0 : b.addr + T ≠ 0 := by omega
  have hrb : b.addr + T ≠ b.addr := by omega
  have hbr : b.addr ≠ b.addr + T := by omega
  rw [hbn] at hbnx
  rw [hbst] at hbstat
  rw [hnst] at hnstat
  have hpre : os_realloc cfg fuel (State.mk mem start hp errno brk lim mnext mlim tr)
      (b.addr + cfg.META_SIZE) size
      = realloc_absorb cfg (State.mk m0 start hp errno brk lim mnext mlim tr) b.addr
          (b.addr + cfg.META_SIZE) n.addr b.size T := by
    simp [os_realloc, hc, hfind, hb0, status_is, hbstat, STATUS_ALLOC, STATUS_FREE,
      STATUS_MAPPED, hp0, hsz0, realloc_resize, hbsz, hT, hnle, realloc_grow, hbnx, hn0,
      realloc_can_absorb, hnstat, hnsz, hsum, hfit]
  rw [hpre]
  by_cases hsplit : cfg.META_SIZE + 8 ≤ b.size + n.size - T
  · have hres : ∃ m7, realloc_absorb cfg (State.mk m0 start hp errno brk lim mnext mlim tr)
          b.addr (b.addr + cfg.META_SIZE) n.addr b.size T
          = some (State.mk m7 start hp errno brk lim mnext mlim tr, b.addr + cfg.META_SIZE)
        ∧ load m7 b.addr Field.status = some STATUS_ALLOC
        ∧ load m7 b.addr Field.size = some T
        ∧ load m7 b.addr Field.next = some (b.addr + T)
        ∧ load m7 (b.addr + T) Field.status = some STATUS_FREE
        ∧ load m7 (b.addr + T) Field.size = some (b.size + n.size - T)
        ∧ load m7 (b.addr + T) Field.next = some n.next := by
      rw [load_ne_zero hb0] at hbstat
      rw [load_ne_zero hn0] at hnnx hnsz
      by_cases hnn : n.next = 0
      · simp [realloc_absorb, hnsz, hsum, hus, hm8, hsplit, hnnx, store_ne_zero, hr0, hb0,
          hnn, load, poke_apply, hrb, hbr, hbstat, hn0]
      · simp [realloc_absorb, hnsz, hsum, hus, hm8, hsplit, hnnx, store_ne_zero, hr0, hb0,
          hnn, load, poke_apply, hrb, hbr, hbstat, hn0]
    obtain ⟨m7, h1, h2, h3, h4, h5, h6, h7⟩ := hres
    refine ⟨_, T, b.size + n.size - T, h1, rfl, h2, h3, Nat.le_refl _, by omega, ?_⟩
    rw [if_pos hsplit]
    exact ⟨rfl, h4, h5, h6, h7⟩
  · have hres : ∃ m3, realloc_absorb cfg (State.mk m0 start hp errno brk lim mnext mlim tr)
          b.addr (b.addr + cfg.META_SIZE) n.addr b.size T
          = some (State.mk m3 start hp errno brk lim mnext mlim tr, b.addr + cfg.META_SIZE)
        ∧ load m3 b.addr Field.status = some STATUS_ALLOC
        ∧ load m3 b.addr Field.size = some (b.size + n.size)
        ∧ load m3 b.addr Field.next = some n.next := by
      rw [load_ne_zero hb0] at hbstat
      rw [load_ne_zero hn0] at hnnx hnsz
      by_cases hnn : n.next = 0
      · simp [realloc_absorb, hnsz, hsum, hus, hm8, hsplit, store_ne_zero, hb0,
          hnn, load, poke_apply, hbstat, hn0, hnnx]
      · simp [realloc_absorb, hnsz, hsum, hus, hm8, hsplit, store_ne_zero, hb0,
          hnn, load, poke_apply, hbstat, hn0, hnnx]
    obtain ⟨m3, h1, h2, h3, h4⟩ := hres
    refine ⟨_, b.size + n.size, 0, h1, rfl, h2, h3, hfit, by omega, ?_⟩
    rw [if_neg hsplit]
    exact ⟨rfl, h4⟩

/-- C6 at `A = os_malloc(64)`, `B = os_malloc(64)`, `os_free(B)`,
`os_realloc(A, 120)`. -/
theorem realloc_absorbs_successor_witness :
    ∃ s1 bsz rsz,
      os_realloc cfg64 16 absorb_state (16777216 + 32) 120
        = some (s1, 16777216 + 32)
      ∧ s1.trace = absorb_state.trace
      ∧ load s1.mem 16777216 Field.status = some STATUS_ALLOC
      ∧ load s1.mem 16777216 Field.size = some bsz
      ∧ 152 ≤ bsz
      ∧ bsz + rsz = 96 + 130976
      ∧ (if cfg64.META_SIZE + 8 ≤ 96 + 130976 - 152 then
          bsz = 152
          ∧ load s1.mem 16777216 Field.next = some (16777216 + 152)
          ∧ load s1.mem (16777216 + 152) Field.status = some STATUS_FREE
          ∧ load s1.mem (16777216 + 152) Field.size = some rsz
          ∧ load s1.mem (16777216 + 152) Field.next = some 0
        else rsz = 0 ∧ load s1.mem 16777216 Field.next = some 0) :=
  realloc_absorbs_successor cfg64 16 absorb_state 120 (coalesced absorb_state)
    [⟨16777216, 96, 1, 0, 16777312⟩, ⟨16777312, 130976, 0, 16777216, 0⟩]
    ⟨16777216, 96, 1, 0, 16777312⟩ ⟨16777312, 130976, 0, 16777216, 0⟩
    (by decide) (by decide) (by rfl) (by decide) (by decide) (by decide) (by decide)
    (by decide) (by decide) (by decide) (by decide) (by decide)


/-! ## Segments, merging and sorting -/

theorem seg_nil {m : Mem} {s t : Nat} : Seg m s [] t ↔ s = t := Iff.rfl

theorem seg_cons {m : Mem} {s t : Nat} {b : Blk} {tl : List Blk} :
    Seg m s (b :: tl) t ↔ b.addr = s ∧ b.stored m ∧ Seg m b.next tl t := Iff.rfl

theorem stored_load {m : Mem} {b : Blk} (h : b.stored m) :
    load m b.addr Field.size = some b.size
      ∧ load m b.addr Field.status = some b.status
      ∧ load m b.addr Field.prev = some b.prev
      ∧ load m b.addr Field.next = some b.next := by
  obtain ⟨h0, h1, h2, h3, h4⟩ := h
  simp [load, h0, h1, h2, h3, h4]

/-- A list read by `block_list` is a stretch that ends in `NULL`. -/
theorem seg_of_block_list {k : Nat} {m : Mem} {s : Nat} {l : List Blk}
    (h : block_list k m s = some l) : Seg m s l 0 := by
  induction k generalizing s l with
  | zero => simp [block_list] at h
  | succ k ih =>
    by_cases hs : s = 0
    · subst hs
      rw [block_list_null h]
      exact rfl
    · obtain ⟨sz, st, pv, nx, tl, h1, h2, h3, h4, htl, rfl⟩ := block_list_cons h hs
      rw [load_ne_zero hs] at h1 h2 h3 h4
      exact ⟨rfl, ⟨hs, h1, h2, h3, h4⟩, ih htl⟩

/-- A stretch that ends in `NULL` is read by `block_list` with fuel above its
length. -/
theorem block_list_of_seg {m : Mem} {s : Nat} {l : List Blk} (h : Seg m s l 0)
    {k : Nat} (hk : l.length < k) : block_list k m s = some l := by
  induction l generalizing s k with
  | nil =>
    obtain ⟨j, rfl⟩ : ∃ j, k = j + 1 := ⟨k - 1, by simp at hk; omega⟩
    have : s = 0 := h
    simp [block_list, this]
  | cons b tl ih =>
    obtain ⟨j, rfl⟩ : ∃ j, k = j + 1 := ⟨k - 1, by simp at hk; omega⟩
    obtain ⟨rfl, hb, htl⟩ := h
    obtain ⟨g1, g2, g3, g4⟩ := stored_load hb
    have hlen : tl.length < j := by simp at hk; omega
    have := block_list_step hb.1 g1 g2 g3 g4 (ih htl hlen)
    simpa using this

theorem seg_append {m : Mem} {s t : Nat} {l1 l2 : List Blk} :
    Seg m s (l1 ++ l2) t ↔ ∃ u, Seg m s l1 u ∧ Seg m u l2 t := by
  induction l1 generalizing s with
  | nil =>
    constructor
    · intro h; exact ⟨s, rfl, h⟩
    · rintro ⟨u, rfl, h⟩; exact h
  | cons b tl ih =>
    constructor
    · rintro ⟨h1, h2, h3⟩
      obtain ⟨u, h4, h5⟩ := ih.mp h3
      exact ⟨u, ⟨h1, h2, h4⟩, h5⟩
    · rintro ⟨u, ⟨h1, h2, h4⟩, h5⟩
      exact ⟨h1, h2, ih.mpr ⟨u, h4, h5⟩⟩

/-- A stretch is untouched by a change of the memory outside its headers. -/
theorem seg_frame {m m2 : Mem} {s t : Nat} {l : List Blk}
    (h : Seg m s l t) (hf : ∀ b ∈ l, ∀ f, m2 b.addr f = m b.addr f) :
    Seg m2 s l t := by
  induction l generalizing s with
  | nil => exact h
  | cons b tl ih =>
    obtain ⟨h1, ⟨h0, g1, g2, g3, g4⟩, h3⟩ := h
    have hb := hf b (List.mem_cons_self _ _)
    exact ⟨h1, ⟨h0, by rw [hb, g1], by rw [hb, g2], by rw [hb, g3], by rw [hb, g4]⟩,
      ih h3 (fun c hc => hf c (List.mem_cons_of_mem _ hc))⟩

theorem seg_unique {m : Mem} {s : Nat} {l1 l2 : List Blk}
    (h1 : Seg m s l1 0) (h2 : Seg m s l2 0) : l1 = l2 := by
  induction l1 generalizing s l2 with
  | nil =>
    cases l2 with
    | nil => rfl
    | cons b tl =>
      have hs : s = 0 := h1
      obtain ⟨hb, ⟨h0, -⟩, -⟩ := h2
      exact absurd (hb.trans hs) h0
  | cons a tl ih =>
    cases l2 with
    | nil =>
      have hs : s = 0 := h2
      obtain ⟨ha, ⟨h0, -⟩, -⟩ := h1
      exact absurd (ha.trans hs) h0
    | cons b tl2 =>
      obtain ⟨ha, ⟨-, a1, a2, a3, a4⟩, ha5⟩ := h1
      obtain ⟨hb, ⟨-, b1, b2, b3, b4⟩, hb5⟩ := h2
      obtain ⟨aa, asz, ast, apv, anx⟩ := a
      obtain ⟨ba, bsz, bst, bpv, bnx⟩ := b
      simp only at ha hb a1 a2 a3 a4 b1 b2 b3 b4 ha5 hb5
      subst ha
      subst hb
      rw [a1] at b1; rw [a2] at b2; rw [a3] at b3; rw [a4] at b4
      simp only [Option.some.injEq] at b1 b2 b3 b4
      subst b1 b2 b3 b4
      rw [ih ha5 hb5]

theorem seg_suffix {m : Mem} {s : Nat} {l : List Blk} (h : Seg m s l 0)
    {c : Blk} (hc : c ∈ l) :
    ∃ l2, Seg m c.addr l2 0 ∧ l2.length ≤ l.length := by
  induction l generalizing s with
  | nil => simp at hc
  | cons b tl ih =>
    rcases List.mem_cons.mp hc with rfl | hc
    · exact ⟨c :: tl, ⟨rfl, h.2.1, h.2.2⟩, Nat.le_refl _⟩
    · obtain ⟨l2, h2, h3⟩ := ih h.2.2 hc
      exact ⟨l2, h2, by simp; omega⟩

/-- The blocks of a list that ends are at distinct addresses. -/
theorem seg_nodup {m : Mem} {s : Nat} {l : List Blk} (h : Seg m s l 0) :
    (l.map Blk.addr).Nodup := by
  induction l generalizing s with
  | nil => simp
  | cons b tl ih =>
    rw [List.map_cons, List.nodup_cons]
    refine ⟨?_, ih h.2.2⟩
    intro hmem
    obtain ⟨c, hc, hca⟩ := List.mem_map.mp hmem
    obtain ⟨l2, h2, h3⟩ := seg_suffix h.2.2 hc
    rw [hca] at h2
    have : l2 = b :: tl := seg_unique h2 ⟨rfl, h.2.1, h.2.2⟩
    rw [this] at h3
    simp at h3

theorem coalesce_list_head (k : Nat) (b : Blk) (tl : List Blk) :
    ∃ b2 rest, coalesce_list k (b :: tl) = b2 :: rest ∧ b2.addr = b.addr
      ∧ b2.status = b.status ∧ b2.prev = b.prev := by
  induction k generalizing b tl with
  | zero => exact ⟨b, tl, rfl, rfl, rfl, rfl⟩
  | succ k ih =>
    cases tl with
    | nil => exact ⟨b, [], rfl, rfl, rfl, rfl⟩
    | cons c tl =>
      by_cases hm : b.status = STATUS_FREE ∧ c.status = STATUS_FREE
      · obtain ⟨b2, rest, h1, h2, h3, h4⟩ := ih
          { b with size := (b.size + c.size) % SIZE_MOD, next := c.next }
          (set_prev b.addr tl)
        refine ⟨b2, rest, ?_, h2, h3, h4⟩
        rw [← h1]
        simp only [coalesce_list, hm, and_self, if_true]
      · exact ⟨b, coalesce_list k (c :: tl), by simp [coalesce_list, hm], rfl, rfl, rfl⟩

/-- The merged list has no FREE block directly followed by a FREE block. -/
theorem coalesce_list_no_adjacent_free (k : Nat) (l : List Blk)
    (hk : l.length ≤ k + 1) : no_adjacent_free (coalesce_list k l) = true := by
  induction k generalizing l with
  | zero =>
    match l, hk with
    | [], _ => rfl
    | [a], _ => rfl
    | a :: b :: tl, hk => simp at hk
  | succ k ih =>
    match l, hk with
    | [], _ => rfl
    | [a], _ => rfl
    | a :: b :: tl, hk =>
      by_cases hm : a.status = STATUS_FREE ∧ b.status = STATUS_FREE
      · have hlen : ({ a with size := (a.size + b.size) % SIZE_MOD, next := b.next }
            :: set_prev a.addr tl).length ≤ k + 1 := by
          cases tl <;> simp [set_prev] at hk ⊢ <;> omega
        simpa [coalesce_list, hm] using ih _ hlen
      · obtain ⟨b2, rest, h1, -, h3, -⟩ := coalesce_list_head k b tl
        have hrec := ih (b :: tl) (by simp at hk ⊢; omega)
        rw [h1] at hrec
        simp only [coalesce_list, hm, if_false, h1, no_adjacent_free, hrec, Bool.and_true,
          h3]
        by_cases ha : a.status = STATUS_FREE
        · have hb : ¬ b.status = STATUS_FREE := fun hb => hm ⟨ha, hb⟩
          simp [hb]
        · simp [ha]

/-- A list without adjacent FREE blocks is left as it is. -/
theorem coalesce_list_fixed (k : Nat) (l : List Blk)
    (h : no_adjacent_free l = true) : coalesce_list k l = l := by
  induction k generalizing l with
  | zero => rfl
  | succ k ih =>
    match l, h with
    | [], _ => rfl
    | [a], _ => rfl
    | a :: b :: tl, h =>
      simp only [no_adjacent_free, Bool.and_eq_true, Bool.not_eq_true', Bool.and_eq_false_imp,
        decide_eq_true_eq, decide_eq_false_iff_not] at h
      have hm : ¬ (a.status = STATUS_FREE ∧ b.status = STATUS_FREE) := fun hh => h.1 hh.1 hh.2
      simp [coalesce_list, hm, ih _ h.2]

theorem seg_end_null {m : Mem} {s : Nat} (h : Seg m s [] 0) : s = 0 := h

theorem seg_head_ne_zero {m : Mem} {s t : Nat} {b : Blk} {tl : List Blk}
    (h : Seg m s (b :: tl) t) : s ≠ 0 := by
  obtain ⟨h1, ⟨h0, -⟩, -⟩ := h
  rw [← h1]; exact h0

theorem coalesce_loop_null (K : Nat) (m : Mem) : coalesce_loop (K + 1) m 0 = some m := by
  simp [coalesce_loop]

theorem coalesce_loop_last_step {K : Nat} {m : Mem} {a : Blk}
    (ha : a.stored m) (hn : a.next = 0) :
    coalesce_loop (K + 1) m a.addr = coalesce_loop K m 0 := by
  obtain ⟨-, g2, -, g4⟩ := stored_load ha
  have ha0 : a.addr ≠ 0 := ha.1
  rw [hn] at g4
  by_cases hst : a.status = STATUS_FREE
  · simp [coalesce_loop, ha0, g2, g4, hst]
  · simp [coalesce_loop, ha0, g2, g4, hst]

theorem coalesce_loop_advance_step {K : Nat} {m : Mem} {a b : Blk}
    (ha : a.stored m) (hb : b.stored m) (hab : b.addr = a.next)
    (hm : ¬ (a.status = STATUS_FREE ∧ b.status = STATUS_FREE)) :
    coalesce_loop (K + 1) m a.addr = coalesce_loop K m a.next := by
  obtain ⟨-, g2, -, g4⟩ := stored_load ha
  obtain ⟨-, b2, -, -⟩ := stored_load hb
  have ha0 : a.addr ≠ 0 := ha.1
  have hb0 : a.next ≠ 0 := by rw [← hab]; exact hb.1
  rw [hab] at b2
  by_cases hst : a.status = STATUS_FREE
  · have hbst : ¬ b.status = STATUS_FREE := fun e => hm ⟨hst, e⟩
    simp [coalesce_loop, ha0, g2, g4, hst, hb0, b2, hbst]
  · simp [coalesce_loop, ha0, g2, g4, hst]

/-- The loop of `coalesce_blocks` leaves a list without adjacent FREE blocks
as it is. -/
theorem coalesce_loop_fixed {K : Nat} {m : Mem} {s : Nat} {l : List Blk}
    (h : Seg m s l 0) (hn : no_adjacent_free l = true) (hK : l.length < K) :
    coalesce_loop K m s = some m := by
  induction K generalizing s l with
  | zero => omega
  | succ K ih =>
    cases l with
    | nil =>
      have : s = 0 := h
      rw [this]
      exact coalesce_loop_null K m
    | cons a l2 =>
      obtain ⟨hs, ha, ht⟩ := seg_cons.mp h
      subst hs
      cases l2 with
      | nil =>
        have hnx : a.next = 0 := ht
        obtain ⟨j, rfl⟩ : ∃ j, K = j + 1 := ⟨K - 1, by simp at hK; omega⟩
        rw [coalesce_loop_last_step ha hnx]
        exact coalesce_loop_null j m
      | cons b tl =>
        obtain ⟨hb, hbs, -⟩ := seg_cons.mp ht
        simp only [no_adjacent_free, Bool.and_eq_true, Bool.not_eq_true',
          Bool.and_eq_false_imp, decide_eq_true_eq, decide_eq_false_iff_not] at hn
        have hm : ¬ (a.status = STATUS_FREE ∧ b.status = STATUS_FREE) :=
          fun hh => hn.1 hh.1 hh.2
        rw [coalesce_loop_advance_step ha hbs hb hm]
        exact ih ht hn.2 (by simp at hK ⊢; omega)

theorem coalesce_loop_merge_step {K : Nat} {m : Mem} {a b : Blk}
    (ha : a.stored m) (hb : b.stored m) (hab : b.addr = a.next)
    (hfa : a.status = STATUS_FREE) (hfb : b.status = STATUS_FREE) :
    coalesce_loop (K + 1) m a.addr = coalesce_loop K (merged_mem m a b) a.addr := by
  obtain ⟨g1, g2, -, g4⟩ := stored_load ha
  obtain ⟨b1, b2, -, b4⟩ := stored_load hb
  have ha0 : a.addr ≠ 0 := ha.1
  have hb0 : a.next ≠ 0 := by rw [← hab]; exact hb.1
  rw [hab] at b1 b2 b4
  have hb4 : load (poke m a.addr Field.size ((a.size + b.size) % SIZE_MOD)) a.next
      Field.next = some b.next := by
    rw [load_ne_zero hb0] at b4 ⊢
    simp [poke_apply, b4]
  by_cases hbn : b.next = 0
  · simp [coalesce_loop, ha0, g1, g2, g4, hfa, hfb, hb0, b1, b2, hb4, hbn, store_ne_zero,
      merged_mem]
  · simp [coalesce_loop, ha0, g1, g2, g4, hfa, hfb, hb0, b1, b2, hb4, hbn, store_ne_zero,
      merged_mem]

theorem merged_mem_frame (m : Mem) (a b : Blk) {x : Nat} (f : Field)
    (hxa : x ≠ a.addr) (hxn : b.next ≠ 0 → x ≠ b.next) :
    merged_mem m a b x f = m x f := by
  unfold merged_mem
  by_cases hbn : b.next = 0
  · simp [hbn, poke_apply, hxa]
  · simp [hbn, poke_apply, hxa, hxn hbn]

/-- After a merge the list from `a` is `a`, grown, followed by what followed
`b`, linked back to `a`. -/
theorem merged_mem_seg {m : Mem} {a b : Blk} {tl : List Blk}
    (h : Seg m a.addr (a :: b :: tl) 0) :
    Seg (merged_mem m a b) a.addr
      ({ a with size := (a.size + b.size) % SIZE_MOD, next := b.next }
        :: set_prev a.addr tl) 0 := by
  have hnd := seg_nodup h
  obtain ⟨-, ha, ht⟩ := seg_cons.mp h
  obtain ⟨hb, hbs, htl⟩ := seg_cons.mp ht
  obtain ⟨ha0, a1, a2, a3, a4⟩ := ha
  cases tl with
  | nil =>
    have hbn : b.next = 0 := htl
    refine seg_cons.mpr ⟨rfl, ⟨ha0, ?_, ?_, ?_, ?_⟩, ?_⟩
    · simp [merged_mem, hbn, poke_apply]
    · simp [merged_mem, hbn, poke_apply, a2]
    · simp [merged_mem, hbn, poke_apply, a3]
    · simp [merged_mem, hbn, poke_apply]
    · exact hbn
  | cons c tl2 =>
    obtain ⟨hc, hcs, htl2⟩ := seg_cons.mp htl
    obtain ⟨hc0, c1, c2, c3, c4⟩ := hcs
    have hbn : b.next ≠ 0 := by rw [← hc]; exact hc0
    have hca : c.addr ≠ a.addr := by
      intro e
      simp [List.nodup_cons, e] at hnd
    have hac : a.addr ≠ c.addr := fun e => hca e.symm
    rw [← hc] at hbn
    refine seg_cons.mpr ⟨rfl, ⟨ha0, ?_, ?_, ?_, ?_⟩, ?_⟩
    · simp [merged_mem, ← hc, hbn, poke_apply, hac]
    · simp [merged_mem, ← hc, hbn, poke_apply, a2]
    · simp [merged_mem, ← hc, hbn, poke_apply, hac, a3]
    · simp [merged_mem, ← hc, hbn, poke_apply]
    · show Seg (merged_mem m a b) b.next ({ c with prev := a.addr } :: tl2) 0
      refine seg_cons.mpr ⟨hc, ⟨hc0, ?_, ?_, ?_, ?_⟩, ?_⟩
      · simp [merged_mem, ← hc, hbn, poke_apply, hca, c1]
      · simp [merged_mem, ← hc, hbn, poke_apply, hca, c2]
      · simp [merged_mem, ← hc, hbn, poke_apply]
      · simp [merged_mem, ← hc, hbn, poke_apply, hca, c4]
      · refine seg_frame htl2 ?_
        intro d hd f
        have hda : d.addr ≠ a.addr := by
          intro e
          have : a.addr ∈ List.map Blk.addr tl2 := e ▸ List.mem_map_of_mem _ hd
          simp [List.nodup_cons, this] at hnd
        have hdc : d.addr ≠ b.next := by
          intro e
          have : c.addr ∈ List.map Blk.addr tl2 := by
            rw [hc, ← e]; exact List.mem_map_of_mem _ hd
          simp [List.nodup_cons, this] at hnd
        exact merged_mem_frame m a b f hda (fun _ => hdc)

/-- The loop of `coalesce_blocks` on a list that ends: it returns, the list it
leaves is `coalesce_list` of the list it found, and no header word outside the
list is written. -/
theorem coalesce_loop_spec {K : Nat} {m : Mem} {s : Nat} {l : List Blk}
    (h : Seg m s l 0) (hK : 2 * l.length + 1 ≤ K) :
    ∃ m2, coalesce_loop K m s = some m2 ∧ Seg m2 s (coalesce_list K l) 0
      ∧ ∀ x f, x ∉ l.map Blk.addr → m2 x f = m x f := by
  induction K generalizing m s l with
  | zero => omega
  | succ K ih =>
    cases l with
    | nil =>
      have : s = 0 := h
      exact ⟨m, by simp [coalesce_loop, this], h, fun _ _ _ => rfl⟩
    | cons a l2 =>
      cases l2 with
      | nil =>
        exact ⟨m, coalesce_loop_fixed h rfl (by simp at hK ⊢; omega), h,
          fun _ _ _ => rfl⟩
      | cons b tl =>
        have hnd := seg_nodup h
        obtain ⟨hs, ha, ht⟩ := seg_cons.mp h
        obtain ⟨hb, hbs, htl⟩ := seg_cons.mp ht
        subst hs
        by_cases hm : a.status = STATUS_FREE ∧ b.status = STATUS_FREE
        · have hseg := merged_mem_seg h
          have hlen : 2 * ({ a with size := (a.size + b.size) % SIZE_MOD, next := b.next }
              :: set_prev a.addr tl).length + 1 ≤ K := by
            cases tl <;> simp [set_prev] at hK ⊢ <;> omega
          obtain ⟨m4, h4, hs4, hf4⟩ := ih hseg hlen
          refine ⟨m4, ?_, ?_, ?_⟩
          · rw [coalesce_loop_merge_step ha hbs hb hm.1 hm.2, h4]
          · simpa [coalesce_list, hm] using hs4
          · intro x f hx
            have hxa : x ≠ a.addr := by
              intro e; exact hx (by simp [e])
            have hxn : b.next ≠ 0 → x ≠ b.next := by
              intro hbn e
              cases tl with
              | nil => exact hbn htl
              | cons c tl2 =>
                have : c.addr = b.next := (seg_cons.mp htl).1
                exact hx (by simp [e, this])
            have hx2 : x ∉ List.map Blk.addr
                ({ a with size := (a.size + b.size) % SIZE_MOD, next := b.next }
                  :: set_prev a.addr tl) := by
              intro hmem
              apply hx
              cases tl with
              | nil =>
                simp [set_prev] at hmem
                simp [hmem]
              | cons c tl2 =>
                simp [set_prev] at hmem ⊢
                tauto
            rw [hf4 x f hx2]
            exact merged_mem_frame m a b f hxa hxn
        · have hlen : 2 * (b :: tl).length + 1 ≤ K := by simp at hK ⊢; omega
          obtain ⟨m4, h4, hs4, hf4⟩ := ih ht hlen
          refine ⟨m4, ?_, ?_, ?_⟩
          · rw [coalesce_loop_advance_step ha hbs hb hm, h4]
          · have hfa : ∀ f, m4 a.addr f = m a.addr f := by
              intro f
              apply hf4
              intro hmem
              simp [List.nodup_cons] at hnd
              simp at hmem
              rcases hmem with e | ⟨d, hd, e⟩
              · exact hnd.1.1 e
              · exact hnd.1.2 d hd e
            simp only [coalesce_list, hm, if_false]
            obtain ⟨ha0, a1, a2, a3, a4⟩ := ha
            exact seg_cons.mpr ⟨rfl, ⟨ha0, by rw [hfa, a1], by rw [hfa, a2],
              by rw [hfa, a3], by rw [hfa, a4]⟩, hs4⟩
          · intro x f hx
            apply hf4
            intro hmem
            exact hx (List.mem_cons_of_mem _ hmem)

theorem last_addr_cons_cons (a b : Blk) (tl : List Blk) :
    last_addr (a :: b :: tl) = last_addr (b :: tl) := rfl

theorem last_addr_mem {l : List Blk} (h : l ≠ []) : last_addr l ∈ l.map Blk.addr := by
  induction l with
  | nil => exact absurd rfl h
  | cons a tl ih =>
    cases tl with
    | nil => simp [last_addr]
    | cons b tl2 =>
      rw [last_addr_cons_cons]
      exact List.mem_cons_of_mem _ (ih (by simp))

theorem last_addr_append (l1 : List Blk) {l2 : List Blk} (h : l2 ≠ []) :
    last_addr (l1 ++ l2) = last_addr l2 := by
  induction l1 with
  | nil => rfl
  | cons a tl ih =>
    cases tl with
    | nil =>
      cases l2 with
      | nil => exact absurd rfl h
      | cons b tl2 => simp [last_addr]
    | cons c tl3 =>
      simpa [last_addr] using ih

theorem last_addr_set_prev (p : Nat) (l : List Blk) :
    last_addr (set_prev p l) = last_addr l := by
  cases l with
  | nil => rfl
  | cons a tl =>
    cases tl with
    | nil => rfl
    | cons b tl2 => rfl

theorem map_addr_relink_last (l : List Blk) (n : Nat) :
    (relink_last l n).map Blk.addr = l.map Blk.addr := by
  induction l with
  | nil => rfl
  | cons a tl ih =>
    cases tl with
    | nil => rfl
    | cons b tl2 =>
      simp only [relink_last, List.map_cons] at ih ⊢
      rw [ih]

theorem map_addr_set_prev (p : Nat) (l : List Blk) :
    (set_prev p l).map Blk.addr = l.map Blk.addr := by
  cases l <;> rfl

theorem map_status_relink_last (l : List Blk) (n : Nat) :
    (relink_last l n).map Blk.status = l.map Blk.status := by
  induction l with
  | nil => rfl
  | cons a tl ih =>
    cases tl with
    | nil => rfl
    | cons b tl2 =>
      simp only [relink_last, List.map_cons] at ih ⊢
      rw [ih]

theorem map_status_set_prev (p : Nat) (l : List Blk) :
    (set_prev p l).map Blk.status = l.map Blk.status := by
  cases l <;> rfl

theorem last_addr_relink_last (l : List Blk) (n : Nat) :
    last_addr (relink_last l n) = last_addr l := by
  induction l with
  | nil => rfl
  | cons a tl ih =>
    cases tl with
    | nil => rfl
    | cons b tl2 =>
      cases tl2 with
      | nil => rfl
      | cons c tl3 => simpa [relink_last, last_addr] using ih

/-- Writing the `next` of the last block of a stretch redirects its end. -/
theorem seg_relink_last {m : Mem} {s t : Nat} {l : List Blk} (h : Seg m s l t)
    (hne : l ≠ []) (hnd : (l.map Blk.addr).Nodup) (n : Nat) :
    Seg (poke m (last_addr l) Field.next n) s (relink_last l n) n := by
  induction l generalizing s with
  | nil => exact absurd rfl hne
  | cons a tl ih =>
    obtain ⟨hs, ⟨ha0, a1, a2, a3, a4⟩, ht⟩ := seg_cons.mp h
    cases tl with
    | nil =>
      refine seg_cons.mpr ⟨hs, ⟨ha0, ?_, ?_, ?_, ?_⟩, rfl⟩
      · simp [last_addr, poke_apply, a1]
      · simp [last_addr, poke_apply, a2]
      · simp [last_addr, poke_apply, a3]
      · simp [last_addr, poke_apply]
    | cons b tl2 =>
      have hla : last_addr (b :: tl2) ∈ (b :: tl2).map Blk.addr := last_addr_mem (by simp)
      have hne2 : a.addr ≠ last_addr (b :: tl2) := by
        intro e
        rw [← e] at hla
        rw [List.map_cons, List.nodup_cons] at hnd
        exact hnd.1 hla
      rw [List.map_cons, List.nodup_cons] at hnd
      have hrec := ih ht (by simp) hnd.2
      rw [last_addr_cons_cons]
      refine seg_cons.mpr ⟨hs, ⟨ha0, ?_, ?_, ?_, ?_⟩, hrec⟩
      · simp [poke_apply, hne2, a1]
      · simp [poke_apply, hne2, a2]
      · simp [poke_apply, hne2, a3]
      · simp [poke_apply, hne2, a4]

/-- Writing the `prev` of the first block of a stretch changes that member
only. -/
theorem seg_set_prev {m : Mem} {s t : Nat} {l : List Blk} (h : Seg m s l t)
    (hne : l ≠ []) (hnd : (l.map Blk.addr).Nodup) (p : Nat) :
    Seg (poke m s Field.prev p) s (set_prev p l) t := by
  cases l with
  | nil => exact absurd rfl hne
  | cons a tl =>
    obtain ⟨hs, ⟨ha0, a1, a2, a3, a4⟩, ht⟩ := seg_cons.mp h
    subst hs
    rw [List.map_cons, List.nodup_cons] at hnd
    refine seg_cons.mpr ⟨rfl, ⟨ha0, ?_, ?_, ?_, ?_⟩, ?_⟩
    · simp [poke_apply, a1]
    · simp [poke_apply, a2]
    · simp [poke_apply]
    · simp [poke_apply, a4]
    · refine seg_frame ht ?_
      intro d hd f
      have : d.addr ≠ a.addr := by
        intro e
        exact hnd.1 (e ▸ List.mem_map_of_mem _ hd)
      simp [poke_apply, this]

/-- A write at an address outside a stretch leaves the stretch. -/
theorem seg_poke_frame {m : Mem} {s t : Nat} {l : List Blk} (h : Seg m s l t)
    {a : Nat} (ha : a ∉ l.map Blk.addr) (f : Field) (v : Nat) :
    Seg (poke m a f v) s l t := by
  refine seg_frame h ?_
  intro d hd f2
  have : d.addr ≠ a := by
    intro e
    exact ha (e ▸ List.mem_map_of_mem _ hd)
  simp [poke_apply, this]

theorem sort_blocks_loop_null (F K : Nat) (m : Mem) (st : Nat) :
    sort_blocks_loop F (K + 1) m st 0 = some m := by
  simp [sort_blocks_loop]

theorem sort_blocks_loop_skip {F K : Nat} {m : Mem} {st : Nat} {a : Blk}
    (ha : a.stored m) (hs : ¬ (a.status = STATUS_MAPPED ∧ a.next ≠ 0)) :
    sort_blocks_loop F (K + 1) m st a.addr = sort_blocks_loop F K m st a.next := by
  obtain ⟨-, g2, -, g4⟩ := stored_load ha
  have ha0 : a.addr ≠ 0 := ha.1
  simp only [sort_blocks_loop, ha0, if_false, g2, g4, Option.bind_eq_bind, Option.some_bind,
    hs]

/-- The loop of `sort_blocks` walks over blocks that are not MAPPED. -/
theorem sort_blocks_loop_pre {F K : Nat} {m : Mem} {st s t : Nat} {pre : List Blk}
    (h : Seg m s pre t) (hp : ∀ b ∈ pre, b.status ≠ STATUS_MAPPED) :
    sort_blocks_loop F (K + pre.length) m st s = sort_blocks_loop F K m st t := by
  induction pre generalizing s with
  | nil =>
    have : s = t := h
    rw [this]; rfl
  | cons a tl ih =>
    obtain ⟨hs, ha, ht⟩ := seg_cons.mp h
    subst hs
    have hna : ¬ (a.status = STATUS_MAPPED ∧ a.next ≠ 0) :=
      fun e => hp a (List.mem_cons_self _ _) e.1
    have : K + (a :: tl).length = (K + tl.length) + 1 := by simp; omega
    rw [this, sort_blocks_loop_skip ha hna]
    exact ih ht (fun b hb => hp b (List.mem_cons_of_mem _ hb))

/-- The loop of `sort_blocks` leaves a list in which no MAPPED block has a
successor as it is. -/
theorem sort_blocks_loop_fixed {F K : Nat} {m : Mem} {st s : Nat} {l : List Blk}
    (h : Seg m s l 0) (hp : ∀ b ∈ l, b.status = STATUS_MAPPED → b.next = 0)
    (hK : l.length < K) : sort_blocks_loop F K m st s = some m := by
  induction l generalizing s K with
  | nil =>
    have : s = 0 := h
    obtain ⟨j, rfl⟩ : ∃ j, K = j + 1 := ⟨K - 1, by simp at hK; omega⟩
    rw [this]
    exact sort_blocks_loop_null F j m st
  | cons a tl ih =>
    obtain ⟨hs, ha, ht⟩ := seg_cons.mp h
    subst hs
    obtain ⟨j, rfl⟩ : ∃ j, K = j + 1 := ⟨K - 1, by simp at hK; omega⟩
    have hna : ¬ (a.status = STATUS_MAPPED ∧ a.next ≠ 0) :=
      fun e => e.2 (hp a (List.mem_cons_self _ _) e.1)
    rw [sort_blocks_loop_skip ha hna]
    exact ih ht (fun b hb => hp b (List.mem_cons_of_mem _ hb)) (by simp at hK; omega)

/-- One pass of the loop of `sort_blocks` at a MAPPED block with a successor,
when the walk to the last block ends at `last`. -/
theorem sort_blocks_loop_move {F K : Nat} {m : Mem} {st : Nat} {M : Blk} {last : Nat}
    (hM : M.stored m) (hst : M.status = STATUS_MAPPED) (hnx : M.next ≠ 0)
    (hlast : find_last_block F
      (poke (if M.prev = 0 then m else poke m M.prev Field.next M.next)
        M.next Field.prev M.prev)
      (if M.prev = 0 then M.next else st) = some last)
    (hl0 : last ≠ 0) (hlM : last ≠ M.addr) :
    sort_blocks_loop F (K + 2) m st M.addr = some (moved_mem m M last) := by
  obtain ⟨-, g2, g3, g4⟩ := stored_load hM
  have hM0 : M.addr ≠ 0 := hM.1
  have hload : load (moved_mem m M last) M.addr Field.next = some 0 := by
    simp [load, hM0, moved_mem, poke_apply]
  have hcond : M.status = STATUS_MAPPED ∧ M.next ≠ 0 := ⟨hst, hnx⟩
  have hcond2 : last ≠ 0 ∧ last ≠ M.addr := ⟨hl0, hlM⟩
  have hnull := sort_blocks_loop_null F K (moved_mem m M last)
  by_cases hp : M.prev = 0
  · simp only [hp, if_true] at hlast
    have e : moved_mem m M last = poke (poke (poke (poke m M.next Field.prev 0)
        last Field.next M.addr) M.addr Field.prev last) M.addr Field.next 0 := by
      simp [moved_mem, hp]
    rw [e] at hload hnull ⊢
    rw [sort_blocks_loop]
    simp only [hM0, if_false, g2, g3, g4, Option.bind_eq_bind, Option.some_bind, hcond,
      if_true, hp, ne_eq, not_true_eq_false, store_ne_zero _ _ _ hnx, hlast, hcond2,
      not_false_eq_true, and_self, store_ne_zero _ _ _ hl0, store_ne_zero _ _ _ hM0, hload]
    exact hnull M.next
  · simp only [hp, if_false] at hlast
    have e : moved_mem m M last = poke (poke (poke (poke (poke m M.prev Field.next M.next)
        M.next Field.prev M.prev) last Field.next M.addr) M.addr Field.prev last)
        M.addr Field.next 0 := by
      simp [moved_mem, hp]
    rw [e] at hload hnull ⊢
    rw [sort_blocks_loop]
    simp only [hM0, if_false, g2, g3, g4, Option.bind_eq_bind, Option.some_bind, hcond,
      if_true, hp, ne_eq, not_false_eq_true, store_ne_zero _ _ _ hp,
      store_ne_zero _ _ _ hnx, hlast, hcond2, and_self, store_ne_zero _ _ _ hl0,
      store_ne_zero _ _ _ hM0, hload]
    exact hnull st

theorem seg_mem_ne_zero {m : Mem} {s t : Nat} {l : List Blk} (h : Seg m s l t)
    {a : Nat} (ha : a ∈ l.map Blk.addr) : a ≠ 0 := by
  induction l generalizing s with
  | nil => simp at ha
  | cons b tl ih =>
    obtain ⟨-, hb, ht⟩ := seg_cons.mp h
    rw [List.map_cons, List.mem_cons] at ha
    rcases ha with rfl | ha
    · exact hb.1
    · exact ih ht ha

theorem seg_head_addr {m : Mem} {s t : Nat} {b : Blk} {tl : List Blk}
    (h : Seg m s (b :: tl) t) : b.addr = s := (seg_cons.mp h).1

/-- The parts of a list around one of its blocks, as stretches. -/
theorem seg_split {m : Mem} {s : Nat} {pre post : List Blk} {M : Blk}
    (h : Seg m s (pre ++ M :: post) 0) :
    Seg m s pre M.addr ∧ M.stored m ∧ Seg m M.next post 0 := by
  obtain ⟨u, h1, h2⟩ := seg_append.mp h
  obtain ⟨hu, hM, h3⟩ := seg_cons.mp h2
  subst hu
  exact ⟨h1, hM, h3⟩

/-- After the block `M` is unlinked, the blocks before it lead to the block
after it, which is linked back to them. -/
theorem unlinked_parts {m : Mem} {s : Nat} {pre post : List Blk} {M : Blk}
    (h : Seg m s (pre ++ M :: post) 0) (hpost : post ≠ [])
    (hprev : M.prev = last_addr pre) :
    Seg (poke (if M.prev = 0 then m else poke m M.prev Field.next M.next)
        M.next Field.prev M.prev)
      (if M.prev = 0 then M.next else s) (relink_last pre M.next) M.next
    ∧ Seg (poke (if M.prev = 0 then m else poke m M.prev Field.next M.next)
        M.next Field.prev M.prev) M.next (set_prev M.prev post) 0 := by
  have hnd := seg_nodup h
  obtain ⟨hpre, hM, hpo⟩ := seg_split h
  rw [List.map_append, List.map_cons, List.nodup_append, List.nodup_cons] at hnd
  obtain ⟨ndpre, ⟨hMpost, ndpost⟩, hdisj⟩ := hnd
  have hnpost : M.next ∈ post.map Blk.addr := by
    cases post with
    | nil => exact absurd rfl hpost
    | cons n tl =>
      rw [← seg_head_addr hpo]
      simp
  cases pre with
  | nil =>
    have hp0 : M.prev = 0 := hprev
    simp only [hp0, if_true, relink_last]
    exact ⟨rfl, seg_set_prev hpo hpost ndpost 0⟩
  | cons p tl =>
    have hla : last_addr (p :: tl) ∈ (p :: tl).map Blk.addr := last_addr_mem (by simp)
    have hp0 : M.prev ≠ 0 := by
      rw [hprev]; exact seg_mem_ne_zero hpre hla
    simp only [hp0, if_false]
    have s1 : Seg (poke m M.prev Field.next M.next) s (relink_last (p :: tl) M.next)
        M.next := by
      rw [hprev]
      exact seg_relink_last hpre (by simp) ndpre M.next
    have hPpost : M.prev ∉ post.map Blk.addr := by
      intro e
      rw [hprev] at e
      exact hdisj hla (List.mem_cons_of_mem _ e)
    have s2 := seg_poke_frame hpo hPpost Field.next M.next
    have s3 := seg_set_prev s2 hpost ndpost M.prev
    have hNpre : M.next ∉ (relink_last (p :: tl) M.next).map Blk.addr := by
      rw [map_addr_relink_last]
      intro e
      exact hdisj e (List.mem_cons_of_mem _ hnpost)
    exact ⟨seg_poke_frame s1 hNpre Field.prev M.prev, s3⟩

/-- The list that the walk of `find_last_block` inside `sort_blocks` runs
over, after the block `M` is unlinked. -/
theorem unlinked_seg {m : Mem} {s : Nat} {pre post : List Blk} {M : Blk}
    (h : Seg m s (pre ++ M :: post) 0) (hpost : post ≠ [])
    (hprev : M.prev = last_addr pre) :
    Seg (poke (if M.prev = 0 then m else poke m M.prev Field.next M.next)
        M.next Field.prev M.prev)
      (if M.prev = 0 then M.next else s)
      (relink_last pre M.next ++ set_prev M.prev post) 0 :=
  seg_append.mpr ⟨M.next, (unlinked_parts h hpost hprev).1,
    (unlinked_parts h hpost hprev).2⟩

/-- The list after `sort_blocks` has moved the MAPPED block `M`: from `M`, the
block `M` alone; from the head that `sort_blocks` keeps in its own copy, the
other blocks in their order and `M` behind them. -/
theorem moved_seg {m : Mem} {s : Nat} {pre post : List Blk} {M : Blk}
    (h : Seg m s (pre ++ M :: post) 0) (hpost : post ≠ [])
    (hprev : M.prev = last_addr pre) :
    last_addr post ≠ 0 ∧ last_addr post ≠ M.addr
      ∧ Seg (moved_mem m M (last_addr post)) M.addr
          [{ M with prev := last_addr post, next := 0 }] 0
      ∧ Seg (moved_mem m M (last_addr post)) (if M.prev = 0 then M.next else s)
          (move_to_tail pre M post) 0 := by
  have hnd := seg_nodup h
  obtain ⟨s4, s3⟩ := unlinked_parts h hpost hprev
  obtain ⟨hpre, hM, hpo⟩ := seg_split h
  rw [List.map_append, List.map_cons, List.nodup_append, List.nodup_cons] at hnd
  obtain ⟨ndpre, ⟨hMpost, ndpost⟩, hdisj⟩ := hnd
  have hL : last_addr post ∈ post.map Blk.addr := last_addr_mem hpost
  have hL0 : last_addr post ≠ 0 := seg_mem_ne_zero hpo hL
  have hLM : last_addr post ≠ M.addr := fun e => hMpost (e ▸ hL)
  have hMpre : M.addr ∉ pre.map Blk.addr := fun e => hdisj e (List.mem_cons_self _ _)
  have hLpre : last_addr post ∉ pre.map Blk.addr :=
    fun e => hdisj e (List.mem_cons_of_mem _ hL)
  have hnpost : M.next ∈ post.map Blk.addr := by
    cases post with
    | nil => exact absurd rfl hpost
    | cons n tl =>
      rw [← seg_head_addr hpo]
      simp
  have hNM : M.addr ≠ M.next := fun e => hMpost (e ▸ hnpost)
  have hN : head_addr post = M.next := by
    cases post with
    | nil => exact absurd rfl hpost
    | cons n tl => exact seg_head_addr hpo
  have hPM : M.prev ≠ 0 → M.addr ≠ M.prev := by
    intro hp0 e
    cases pre with
    | nil => exact hp0 hprev
    | cons p tl =>
      have hla : last_addr (p :: tl) ∈ (p :: tl).map Blk.addr := last_addr_mem (by simp)
      rw [← hprev, ← e] at hla
      exact hMpre hla
  obtain ⟨hM0, a1, a2, a3, a4⟩ := hM
  have hMstored : Blk.stored (moved_mem m M (last_addr post))
      { M with prev := last_addr post, next := 0 } := by
    refine ⟨hM0, ?_, ?_, ?_, ?_⟩
    · by_cases hp0 : M.prev = 0
      · simp [moved_mem, poke_apply, hp0, hLM.symm, hNM, a1]
      · simp [moved_mem, poke_apply, hp0, hLM.symm, hNM, hPM hp0, a1]
    · by_cases hp0 : M.prev = 0
      · simp [moved_mem, poke_apply, hp0, hLM.symm, hNM, a2]
      · simp [moved_mem, poke_apply, hp0, hLM.symm, hNM, hPM hp0, a2]
    · simp [moved_mem, poke_apply]
    · simp [moved_mem, poke_apply]
  have hMseg : Seg (moved_mem m M (last_addr post)) M.addr
      [{ M with prev := last_addr post, next := 0 }] 0 :=
    seg_cons.mpr ⟨rfl, hMstored, rfl⟩
  refine ⟨hL0, hLM, hMseg, ?_⟩
  -- the blocks behind `M`, linked to `M` at their end
  have ndpost2 : ((set_prev M.prev post).map Blk.addr).Nodup := by
    rw [map_addr_set_prev]; exact ndpost
  have hne2 : set_prev M.prev post ≠ [] := by
    cases post with
    | nil => exact absurd rfl hpost
    | cons n tl => simp [set_prev]
  have s5 := seg_relink_last s3 hne2 ndpost2 M.addr
  rw [last_addr_set_prev] at s5
  have hMpost2 : M.addr ∉ (relink_last (set_prev M.prev post) M.addr).map Blk.addr := by
    rw [map_addr_relink_last, map_addr_set_prev]; exact hMpost
  have s6 := seg_poke_frame (seg_poke_frame s5 hMpost2 Field.prev (last_addr post))
    hMpost2 Field.next 0
  -- the blocks before `M`
  have hLpre2 : last_addr post ∉ (relink_last pre M.next).map Blk.addr := by
    rw [map_addr_relink_last]; exact hLpre
  have hMpre2 : M.addr ∉ (relink_last pre M.next).map Blk.addr := by
    rw [map_addr_relink_last]; exact hMpre
  have s7 := seg_poke_frame (seg_poke_frame
    (seg_poke_frame s4 hLpre2 Field.next M.addr) hMpre2 Field.prev (last_addr post))
    hMpre2 Field.next 0
  unfold move_to_tail
  rw [hN, List.append_assoc]
  exact seg_append.mpr ⟨M.next, s7, seg_append.mpr ⟨M.addr, s6, hMseg⟩⟩

theorem well_linked_append {p : Nat} {pre post : List Blk} {M : Blk}
    (h : well_linked p (pre ++ M :: post) = true) :
    M.prev = (match pre with | [] => p | _ :: _ => last_addr pre) := by
  induction pre generalizing p with
  | nil =>
    simp only [List.nil_append, well_linked, Bool.and_eq_true, decide_eq_true_eq] at h
    exact h.1
  | cons a tl ih =>
    simp only [List.cons_append, well_linked, Bool.and_eq_true, decide_eq_true_eq] at h
    have := ih h.2
    cases tl with
    | nil => simpa [last_addr] using this
    | cons b tl2 => simpa [last_addr] using this

theorem well_linked_prev {pre post : List Blk} {M : Blk}
    (h : well_linked 0 (pre ++ M :: post) = true) : M.prev = last_addr pre := by
  have := well_linked_append h
  cases pre with
  | nil => simpa [last_addr] using this
  | cons a tl => simpa using this

theorem seg_last_next {m : Mem} {s : Nat} {pre : List Blk} {M : Blk}
    (h : Seg m s (pre ++ [M]) 0) : M.next = 0 := by
  obtain ⟨-, -, h3⟩ := seg_split h
  exact h3

/-- The function `sort_blocks` on a list in which no MAPPED block has a
successor: nothing is written. -/
theorem sort_blocks_fixed {F : Nat} {m : Mem} {s : Nat} {l : List Blk}
    (h : Seg m s l 0) (hp : ∀ b ∈ l, b.status = STATUS_MAPPED → b.next = 0)
    (hF : l.length < F) : sort_blocks F m s = some m :=
  sort_blocks_loop_fixed h hp hF

/-- The function `sort_blocks` on a list whose first MAPPED block `M` has a
successor and a `prev` that names the block before it. -/
theorem sort_blocks_move {F : Nat} {m : Mem} {s : Nat} {pre post : List Blk} {M : Blk}
    (h : Seg m s (pre ++ M :: post) 0) (hpre : ∀ b ∈ pre, b.status ≠ STATUS_MAPPED)
    (hM : M.status = STATUS_MAPPED) (hpost : post ≠ [])
    (hprev : M.prev = last_addr pre) (hF : (pre ++ M :: post).length < F) :
    sort_blocks F m s = some (moved_mem m M (last_addr post)) := by
  obtain ⟨hL0, hLM, -, -⟩ := moved_seg h hpost hprev
  obtain ⟨hsp, hMs, hpo⟩ := seg_split h
  have hnx : M.next ≠ 0 := by
    cases post with
    | nil => exact absurd rfl hpost
    | cons n tl => exact seg_head_ne_zero hpo
  have hun := unlinked_seg h hpost hprev
  have hlen : (relink_last pre M.next ++ set_prev M.prev post).length < F := by
    have e1 : (relink_last pre M.next).length = pre.length := by
      have := congrArg List.length (map_addr_relink_last pre M.next)
      simpa using this
    have e2 : (set_prev M.prev post).length = post.length := by
      have := congrArg List.length (map_addr_set_prev M.prev post)
      simpa using this
    simp only [List.length_append, List.length_cons, e1, e2] at hF ⊢
    omega
  have hne : set_prev M.prev post ≠ [] := by
    cases post with
    | nil => exact absurd rfl hpost
    | cons n tl => simp [set_prev]
  have hlast := find_last_block_list (block_list_of_seg hun hlen)
  rw [last_addr_append _ hne, last_addr_set_prev] at hlast
  obtain ⟨K, hK⟩ : ∃ K, F = (K + 2) + pre.length := by
    refine ⟨F - 2 - pre.length, ?_⟩
    cases post with
    | nil => exact absurd rfl hpost
    | cons n tl =>
      simp only [List.length_append, List.length_cons] at hF
      omega
  unfold sort_blocks
  conv_lhs => rw [hK]
  rw [sort_blocks_loop_pre hsp hpre, ← hK]
  exact sort_blocks_loop_move hMs hM hnx hlast hL0 hLM

theorem sort_list_length (l : List Blk) : (sort_list l).length ≤ l.length := by
  have hsplit := List.takeWhile_append_dropWhile not_mapped l
  unfold sort_list
  split
  · rename_i M n post hd
    split
    · rename_i ht
      rw [← hsplit, hd]
      simp only [List.length_append, List.length_cons, List.length_nil]
      omega
    · rename_i p pre ht
      have e1 : ∀ (x : List Blk) (v : Nat), (relink_last x v).length = x.length := by
        intro x v
        have := congrArg List.length (map_addr_relink_last x v)
        simpa using this
      have e2 : ∀ (x : List Blk) (v : Nat), (set_prev v x).length = x.length := by
        intro x v
        have := congrArg List.length (map_addr_set_prev v x)
        simpa using this
      rw [← hsplit, hd, ht]
      simp only [move_to_tail, List.length_append, e1, e2, List.length_cons,
        List.length_nil]
      omega
  · exact Nat.le_refl _

/-- The function `sort_blocks` on a list that ends and whose backward links
name the block before: it returns, and from the head the caller holds the
list is `sort_list` of the list it found. -/
theorem sort_blocks_spec {F : Nat} {m : Mem} {s : Nat} {l : List Blk}
    (h : Seg m s l 0) (hw : well_linked 0 l = true) (hF : l.length < F) :
    ∃ m2, sort_blocks F m s = some m2 ∧ Seg m2 s (sort_list l) 0 := by
  have hsplit := List.takeWhile_append_dropWhile not_mapped l
  have hpre : ∀ b ∈ l.takeWhile not_mapped,
      b.status ≠ STATUS_MAPPED := by
    intro b hb
    simpa [not_mapped] using List.mem_takeWhile_imp hb
  unfold sort_list
  split
  · rename_i M n post hd
    have hM : M.status = STATUS_MAPPED := by
      have := List.head_dropWhile_not not_mapped l
        (by rw [hd]; simp)
      simp only [hd, List.head_cons] at this
      simpa [not_mapped] using this
    rw [hd] at hsplit
    rw [← hsplit] at h hw hF
    have hprev := well_linked_prev hw
    obtain ⟨-, -, hMseg, hall⟩ := moved_seg h (by simp) hprev
    have hsort := sort_blocks_move h hpre hM (by simp) hprev hF
    split
    · rename_i ht
      rw [ht] at h
      have hs : M.addr = s := seg_head_addr h
      rw [← hs]
      exact ⟨_, hs ▸ hsort, hMseg⟩
    · rename_i p pre ht
      rw [ht] at hprev hall
      have hp0 : M.prev ≠ 0 := by
        rw [hprev]
        have hla : last_addr (p :: pre) ∈ (p :: pre).map Blk.addr :=
          last_addr_mem (by simp)
        rw [ht] at h
        exact seg_mem_ne_zero (seg_split h).1 hla
      simp only [hp0, if_false] at hall
      exact ⟨_, hsort, hall⟩
  · rename_i hd
    refine ⟨m, sort_blocks_fixed h ?_ hF, h⟩
    intro b hb hbM
    -- a MAPPED block of such a list is its last block
    rw [← hsplit] at hb h
    rcases List.mem_append.mp hb with hb1 | hb2
    · exact absurd hbM (hpre b hb1)
    · cases hdw : l.dropWhile not_mapped with
      | nil => rw [hdw] at hb2; simp at hb2
      | cons M rest =>
        cases rest with
        | nil =>
          rw [hdw] at hb2 h
          have : b = M := by simpa using hb2
          rw [this]
          exact seg_last_next h
        | cons n post => exact absurd hdw (hd M n post)

/-! ## Entry coalesce -/

theorem block_list_length {k : Nat} {m : Mem} {s : Nat} {l : List Blk}
    (h : block_list k m s = some l) : l.length < k := by
  induction k generalizing s l with
  | zero => simp [block_list] at h
  | succ k ih =>
    by_cases hs : s = 0
    · subst hs
      rw [block_list_null h]
      simp
    · obtain ⟨sz, st, pv, nx, tl, -, -, -, -, htl, rfl⟩ := block_list_cons h hs
      have := ih htl
      simp only [List.length_cons]
      omega

theorem coalesce_list_length (k : Nat) (l : List Blk) :
    (coalesce_list k l).length ≤ l.length := by
  induction k generalizing l with
  | zero => simp [coalesce_list]
  | succ k ih =>
    match l with
    | [] => simp [coalesce_list]
    | [a] => simp [coalesce_list]
    | a :: b :: tl =>
      simp only [coalesce_list]
      split
      · refine Nat.le_trans (ih _) ?_
        have e2 : (set_prev a.addr tl).length = tl.length := by
          have := congrArg List.length (map_addr_set_prev a.addr tl)
          simpa using this
        simp only [List.length_cons, e2]
        omega
      · have := ih (b :: tl)
        simp only [List.length_cons] at this ⊢
        omega

/-- The function `coalesce_blocks` on a list that ends and whose backward
links name the block before: it returns, and from the head the caller holds
the list is `coalesce_list` of `sort_list` of the list it found. -/
theorem coalesce_blocks_spec {F : Nat} {m : Mem} {s : Nat} {l : List Blk}
    (h : Seg m s l 0) (hw : well_linked 0 l = true) (hF : l.length < F) :
    ∃ m2, coalesce_blocks F m s = some m2
      ∧ Seg m2 s (coalesce_list (2 * F) (sort_list l)) 0 := by
  obtain ⟨m1, hs, hseg⟩ := sort_blocks_spec h hw hF
  have hlen := sort_list_length l
  obtain ⟨m2, hc, hseg2, -⟩ :=
    @coalesce_loop_spec (2 * F) m1 s (sort_list l) hseg (by omega)
  refine ⟨m2, ?_, hseg2⟩
  simp [coalesce_blocks, hs, hc]

/-- The function `coalesce_blocks`, read through `block_list`. -/
theorem coalesce_blocks_list {F : Nat} {m : Mem} {s : Nat} {l : List Blk}
    (h : block_list F m s = some l) (hw : well_linked 0 l = true) :
    ∃ m2, coalesce_blocks F m s = some m2
      ∧ block_list F m2 s = some (coalesce_list (2 * F) (sort_list l)) := by
  have hF := block_list_length h
  obtain ⟨m2, hc, hseg⟩ := coalesce_blocks_spec (seg_of_block_list h) hw hF
  refine ⟨m2, hc, block_list_of_seg hseg ?_⟩
  have h1 := coalesce_list_length (2 * F) (sort_list l)
  have h2 := sort_list_length l
  omega

theorem mem_set_prev {p : Nat} {l : List Blk} {b : Blk} (hb : b ∈ set_prev p l) :
    ∃ b0 ∈ l, b0.addr = b.addr ∧ b0.status = b.status := by
  cases l with
  | nil => simp [set_prev] at hb
  | cons a tl =>
    simp only [set_prev, List.mem_cons] at hb
    rcases hb with rfl | hb
    · exact ⟨a, by simp, rfl, rfl⟩
    · exact ⟨b, by simp [hb], rfl, rfl⟩

theorem mem_relink_last {n : Nat} {l : List Blk} {b : Blk} (hb : b ∈ relink_last l n) :
    ∃ b0 ∈ l, b0.addr = b.addr ∧ b0.status = b.status := by
  induction l with
  | nil => simp [relink_last] at hb
  | cons a tl ih =>
    cases tl with
    | nil =>
      simp only [relink_last, List.mem_singleton] at hb
      subst hb
      exact ⟨a, by simp, rfl, rfl⟩
    | cons c tl2 =>
      simp only [relink_last, List.mem_cons] at hb
      rcases hb with rfl | hb
      · exact ⟨b, by simp, rfl, rfl⟩
      · obtain ⟨b0, hb0, e⟩ := ih (by simpa [List.mem_cons] using hb)
        exact ⟨b0, List.mem_cons_of_mem _ hb0, e⟩

theorem mem_coalesce_list {k : Nat} {l : List Blk} {b : Blk}
    (hb : b ∈ coalesce_list k l) :
    ∃ b0 ∈ l, b0.addr = b.addr ∧ b0.status = b.status := by
  induction k generalizing l with
  | zero => exact ⟨b, by simpa [coalesce_list] using hb, rfl, rfl⟩
  | succ k ih =>
    match l with
    | [] => simp [coalesce_list] at hb
    | [a] => exact ⟨b, by simpa [coalesce_list] using hb, rfl, rfl⟩
    | a :: c :: tl =>
      simp only [coalesce_list] at hb
      split at hb
      · obtain ⟨b1, hb1, e1, e2⟩ := ih hb
        rcases List.mem_cons.mp hb1 with rfl | hb1
        · exact ⟨a, by simp, e1, e2⟩
        · obtain ⟨b0, hb0, e3, e4⟩ := mem_set_prev hb1
          exact ⟨b0, by simp [hb0], e3.trans e1, e4.trans e2⟩
      · rcases List.mem_cons.mp hb with rfl | hb
        · exact ⟨b, by simp, rfl, rfl⟩
        · obtain ⟨b0, hb0, e⟩ := ih hb
          exact ⟨b0, List.mem_cons_of_mem _ hb0, e⟩

theorem mem_sort_list {l : List Blk} {b : Blk} (hb : b ∈ sort_list l) :
    ∃ b0 ∈ l, b0.addr = b.addr ∧ b0.status = b.status := by
  have hsplit := List.takeWhile_append_dropWhile not_mapped l
  unfold sort_list at hb
  split at hb
  · rename_i M n post hd
    rw [hd] at hsplit
    split at hb
    · simp only [List.mem_singleton] at hb
      subst hb
      exact ⟨M, by rw [← hsplit]; simp, rfl, rfl⟩
    · rename_i p pre ht
      rw [ht] at hsplit
      simp only [move_to_tail, List.mem_append, List.mem_singleton] at hb
      rcases hb with (hb | hb) | hb
      · obtain ⟨b0, hb0, e⟩ := mem_relink_last hb
        exact ⟨b0, by rw [← hsplit]; exact List.mem_append_left _ hb0, e⟩
      · obtain ⟨b1, hb1, e1, e2⟩ := mem_relink_last hb
        obtain ⟨b0, hb0, e3, e4⟩ := mem_set_prev hb1
        refine ⟨b0, ?_, e3.trans e1, e4.trans e2⟩
        rw [← hsplit]
        exact List.mem_append_right _ (List.mem_cons_of_mem _ hb0)
      · subst hb
        exact ⟨M, by rw [← hsplit]; simp, rfl, rfl⟩
  · exact ⟨b, hb, rfl, rfl⟩

/-- C15: for every state whose block list ends and has backward links that
name the block before, the entry coalesce of `os_malloc`, `os_calloc` and
`os_realloc` returns, and in the list it leaves from `start_block` no FREE
block is followed by a FREE block. -/
theorem entry_coalesce_no_adjacent_free (fuel : Nat) (s : State) (l : List Blk)
    (h : block_list fuel s.mem s.start_block = some l)
    (hw : well_linked 0 l = true) :
    ∃ m0 l0, coalesce_blocks fuel s.mem s.start_block = some m0
      ∧ block_list fuel m0 s.start_block = some l0
      ∧ no_adjacent_free l0 = true := by
  obtain ⟨m0, hc, hl⟩ := coalesce_blocks_list h hw
  refine ⟨m0, _, hc, hl, coalesce_list_no_adjacent_free _ _ ?_⟩
  have h1 := block_list_length h
  have h2 := sort_list_length l
  omega

/-- C15, at the state after `os_malloc(64)`, `b = os_malloc(64)`,
`os_free(b)`, whose last two blocks are FREE. -/
theorem entry_coalesce_no_adjacent_free_witness :
    block_list 16 absorb_state.mem absorb_state.start_block = some absorb_list
      ∧ well_linked 0 absorb_list = true
      ∧ ∃ m0 l0, coalesce_blocks 16 absorb_state.mem absorb_state.start_block = some m0
        ∧ block_list 16 m0 absorb_state.start_block = some l0
        ∧ no_adjacent_free l0 = true :=
  ⟨by decide, by decide,
    entry_coalesce_no_adjacent_free 16 absorb_state absorb_list (by decide) (by decide)⟩

/-- C12: for every state whose block list ends and has backward links that
name the block before, `os_malloc(0)` returns NULL, and so does
`os_calloc(nmemb, size)` when `nmemb * size` is 0; the state they leave is the
prior state with the memory the entry coalesce leaves (same trace of system
calls, same `errno`, same `heap_preallocated`, same `start_block`), and every
block of its list is a block of the prior list with the status it had. -/
theorem zero_size_rejected (cfg : Config) (fuel : Nat) (s : State) (l : List Blk)
    (nmemb size : Nat)
    (h : block_list fuel s.mem s.start_block = some l)
    (hw : well_linked 0 l = true) :
    ∃ m0 l0, coalesce_blocks fuel s.mem s.start_block = some m0
      ∧ os_malloc cfg fuel s 0 = some ({ s with mem := m0 }, 0)
      ∧ (nmemb * size = 0 →
          os_calloc cfg fuel s nmemb size = some ({ s with mem := m0 }, 0))
      ∧ block_list fuel m0 s.start_block = some l0
      ∧ ∀ b ∈ l0, ∃ b0 ∈ l, b0.addr = b.addr ∧ b0.status = b.status := by
  obtain ⟨m0, hc, hl⟩ := coalesce_blocks_list h hw
  refine ⟨m0, _, hc, ?_, ?_, hl, ?_⟩
  · simp [os_malloc, hc]
  · intro hz
    have : size * nmemb % SIZE_MOD = 0 := by
      rw [Nat.mul_comm, hz]
      rfl
    simp [os_calloc, hc, this]
  · intro b hb
    obtain ⟨b1, hb1, e1, e2⟩ := mem_coalesce_list hb
    obtain ⟨b0, hb0, e3, e4⟩ := mem_sort_list hb1
    exact ⟨b0, hb0, e3.trans e1, e4.trans e2⟩

/-- C12, at the state after `os_malloc(64)`, `b = os_malloc(64)`,
`os_free(b)`: three blocks, the last two FREE. -/
theorem zero_size_rejected_witness :
    block_list 16 absorb_state.mem absorb_state.start_block = some absorb_list
      ∧ well_linked 0 absorb_list = true
      ∧ ∃ m0 l0, coalesce_blocks 16 absorb_state.mem absorb_state.start_block = some m0
        ∧ os_malloc cfg64 16 absorb_state 0 = some ({ absorb_state with mem := m0 }, 0)
        ∧ (0 * 8 = 0 →
            os_calloc cfg64 16 absorb_state 0 8
              = some ({ absorb_state with mem := m0 }, 0))
        ∧ block_list 16 m0 absorb_state.start_block = some l0
        ∧ ∀ b ∈ l0, ∃ b0 ∈ absorb_list, b0.addr = b.addr ∧ b0.status = b.status :=
  ⟨by decide, by decide,
    zero_size_rejected cfg64 16 absorb_state absorb_list 0 8 (by decide) (by decide)⟩

/-! ## Last heap block -/

theorem foldl_last_addr (l : List Blk) (x : Nat) :
    l.foldl (fun _ b => b.addr) x = if l = [] then x else last_addr l := by
  induction l generalizing x with
  | nil => simp
  | cons a tl ih =>
    rw [List.foldl_cons, ih]
    cases tl with
    | nil => simp [last_addr]
    | cons b tl2 => simp [last_addr]

/-- The loop of `find_last_heap_block` on a list that ends: `found` is the
last block before the first MAPPED one. -/
theorem find_last_heap_loop_spec {k : Nat} {m : Mem} {s : Nat} {l : List Blk}
    (h : block_list k m s = some l) (found : Nat) :
    find_last_heap_loop k m s found
      = some ((l.takeWhile not_mapped).foldl (fun _ b => b.addr) found) := by
  induction k generalizing s l found with
  | zero => simp [block_list] at h
  | succ k ih =>
    by_cases hs : s = 0
    · subst hs
      rw [block_list_null h]
      simp [find_last_heap_loop]
    · obtain ⟨sz, st, pv, nx, tl, -, hst, -, hnx, htl, rfl⟩ := block_list_cons h hs
      rw [find_last_heap_loop]
      simp only [hs, if_false, hst, hnx]
      by_cases hm : st = STATUS_MAPPED
      · simp [hm, List.takeWhile, not_mapped]
      · simp only [hm, if_false]
        rw [ih htl]
        simp [List.takeWhile, not_mapped, hm]

theorem last_addr_eq_zero {k : Nat} {m : Mem} {s : Nat} {l t : List Blk}
    (h : block_list k m s = some l) (ht : ∀ b ∈ t, b ∈ l) :
    last_addr t = 0 ↔ t = [] := by
  constructor
  · intro h0
    by_contra hne
    obtain ⟨b, hb, hba⟩ := List.mem_map.mp (last_addr_mem hne)
    have := (block_list_mem h (ht b hb)).1
    omega
  · rintro rfl
    rfl

/-- C18, amended: for every block list that ends, `find_last_heap_block`
returns the last block before the first MAPPED block, and NULL exactly when
there is no such block (the list is empty or starts with a MAPPED block);
when every block from the first MAPPED block on is MAPPED, this is the last
block whose status is not MAPPED. -/
theorem find_last_heap_block_before_mapped (fuel : Nat) (m : Mem) (s : Nat)
    (l : List Blk) (h : block_list fuel m s = some l) :
    find_last_heap_block fuel m s = some (last_addr (l.takeWhile not_mapped))
      ∧ (find_last_heap_block fuel m s = some 0 ↔ l.takeWhile not_mapped = [])
      ∧ ((∀ b ∈ l.dropWhile not_mapped, b.status = STATUS_MAPPED) →
          find_last_heap_block fuel m s = some (last_addr (l.filter not_mapped))) := by
  have h1 : find_last_heap_block fuel m s
      = some (last_addr (l.takeWhile not_mapped)) := by
    unfold find_last_heap_block
    rw [find_last_heap_loop_spec h, foldl_last_addr]
    split
    · rename_i e
      rw [e]
      rfl
    · rfl
  refine ⟨h1, ?_, ?_⟩
  · rw [h1, Option.some.injEq]
    exact last_addr_eq_zero h (fun b hb => List.takeWhile_subset not_mapped hb)
  · intro hd
    rw [h1]
    have hsplit := List.takeWhile_append_dropWhile not_mapped l
    have e1 : (l.takeWhile not_mapped).filter not_mapped = l.takeWhile not_mapped :=
      List.filter_eq_self.mpr (fun b hb => List.mem_takeWhile_imp hb)
    have e2 : (l.dropWhile not_mapped).filter not_mapped = [] :=
      List.filter_eq_nil_iff.mpr (fun b hb => by simp [not_mapped, hd b hb])
    conv_rhs => rw [← hsplit, List.filter_append, e1, e2, List.append_nil]

/-- C18, amended, at the state after `os_malloc(64)` and two
`os_malloc(200000)`: the last heap block is the FREE remainder at
`0x1000060`. -/
theorem find_last_heap_block_before_mapped_witness :
    block_list 16 two_mapped_state.mem two_mapped_state.start_block
        = some two_mapped_list
      ∧ find_last_heap_block 16 two_mapped_state.mem two_mapped_state.start_block
        = some 16777312 :=
  ⟨by decide,
    (find_last_heap_block_before_mapped 16 two_mapped_state.mem
      two_mapped_state.start_block two_mapped_list (by decide)).1⟩

/-- C18, as stated, fails on a list that starts with a MAPPED block: after
`os_malloc(200000)`, `os_malloc(64)` the list is the MAPPED block, the ALLOC
block and the FREE remainder, whose last block that is not MAPPED is the one
at `0x1000060`, and `find_last_heap_block` returns NULL. -/
theorem find_last_heap_block_mapped_first :
    block_list 16 mapped_first_state.mem mapped_first_state.start_block
        = some mapped_first_list
      ∧ last_addr (mapped_first_list.filter not_mapped) = 16777312
      ∧ find_last_heap_block 16 mapped_first_state.mem mapped_first_state.start_block
        = some 0 := by
  decide

/-! ## Idempotence of the entry coalesce -/

theorem map_key_set_prev (p : Nat) (l : List Blk) :
    (set_prev p l).map Blk.key = l.map Blk.key := by
  cases l with
  | nil => rfl
  | cons a tl => simp [set_prev, Blk.key]

theorem map_key_relink_last (l : List Blk) (n : Nat) :
    (relink_last l n).map Blk.key = l.map Blk.key := by
  induction l with
  | nil => rfl
  | cons a tl ih =>
    cases tl with
    | nil => simp [relink_last, Blk.key]
    | cons b tl2 =>
      simp only [relink_last, List.map_cons] at ih ⊢
      rw [ih]

theorem mapped_last_cons {a : Blk} {l : List Blk} (ha : not_mapped a = true)
    (hl : mapped_last l = true) : mapped_last (a :: l) = true := by
  cases l with
  | nil => rfl
  | cons b tl => simp [mapped_last, ha, hl]

theorem mapped_last_append {l : List Blk} (hl : ∀ b ∈ l, not_mapped b = true)
    (x : Blk) : mapped_last (l ++ [x]) = true := by
  induction l with
  | nil => rfl
  | cons a tl ih =>
    exact mapped_last_cons (hl a (by simp))
      (ih (fun b hb => hl b (List.mem_cons_of_mem _ hb)))

theorem mapped_last_of_all {l : List Blk} (hl : ∀ b ∈ l, not_mapped b = true) :
    mapped_last l = true := by
  induction l with
  | nil => rfl
  | cons a tl ih =>
    exact mapped_last_cons (hl a (by simp))
      (ih (fun b hb => hl b (List.mem_cons_of_mem _ hb)))

theorem mapped_last_set_prev (p : Nat) (l : List Blk) :
    mapped_last (set_prev p l) = mapped_last l := by
  match l with
  | [] => rfl
  | [a] => rfl
  | a :: b :: tl => simp [set_prev, mapped_last, not_mapped]

theorem mapped_last_coalesce_list (k : Nat) {l : List Blk}
    (hl : mapped_last l = true) : mapped_last (coalesce_list k l) = true := by
  induction k generalizing l with
  | zero => simpa [coalesce_list] using hl
  | succ k ih =>
    match l, hl with
    | [], _ => rfl
    | [a], _ => rfl
    | a :: b :: tl, hl =>
      simp only [mapped_last, Bool.and_eq_true] at hl
      simp only [coalesce_list]
      split
      · apply ih
        cases tl with
        | nil => rfl
        | cons c tl2 =>
          have h2 := hl.2
          simp only [mapped_last, Bool.and_eq_true] at h2
          have h3 : mapped_last (set_prev a.addr (c :: tl2)) = true := by
            rw [mapped_last_set_prev]
            exact h2.2
          exact mapped_last_cons (by simpa [not_mapped] using hl.1) h3
      · exact mapped_last_cons hl.1 (ih hl.2)

theorem mapped_last_next {m : Mem} {s : Nat} {l : List Blk} (h : Seg m s l 0)
    (hl : mapped_last l = true) :
    ∀ b ∈ l, b.status = STATUS_MAPPED → b.next = 0 := by
  induction l generalizing s with
  | nil => intro b hb; simp at hb
  | cons a tl ih =>
    obtain ⟨-, -, htl⟩ := seg_cons.mp h
    cases tl with
    | nil =>
      intro b hb _
      have : b = a := by simpa using hb
      rw [this]
      exact htl
    | cons c tl2 =>
      simp only [mapped_last, Bool.and_eq_true] at hl
      intro b hb hbm
      rcases List.mem_cons.mp hb with rfl | hb
      · have := hl.1
        simp [not_mapped, hbm] at this
      · exact ih htl hl.2 b hb hbm

theorem mapped_last_dropWhile {l : List Blk} (hl : mapped_last l = true) :
    ∀ b ∈ l.dropWhile not_mapped, b.status = STATUS_MAPPED := by
  induction l with
  | nil => intro b hb; simp at hb
  | cons a tl ih =>
    cases tl with
    | nil =>
      intro b hb
      by_cases ha : not_mapped a = true
      · simp [List.dropWhile, ha] at hb
      · simp only [List.dropWhile, ha, List.mem_singleton] at hb
        subst hb
        simpa [not_mapped] using ha
    | cons c tl2 =>
      simp only [mapped_last, Bool.and_eq_true] at hl
      intro b hb
      rw [List.dropWhile_cons_of_pos hl.1] at hb
      exact ih hl.2 b hb

/-- What `l.dropWhile not_mapped` says of a list with at most one MAPPED
block: the blocks around that block are heap blocks. -/
theorem one_mapped_split {l post : List Blk} {M : Blk}
    (hd : l.dropWhile not_mapped = M :: post)
    (hone : (mapped_blocks l).length ≤ 1) :
    not_mapped M = false ∧ (∀ b ∈ l.takeWhile not_mapped, not_mapped b = true)
      ∧ (∀ b ∈ post, not_mapped b = true)
      ∧ heap_blocks l = l.takeWhile not_mapped ++ post ∧ mapped_blocks l = [M] := by
  have hsplit := List.takeWhile_append_dropWhile not_mapped l
  have hM : not_mapped M = false := by
    have := List.head_dropWhile_not not_mapped l (by rw [hd]; simp)
    simpa [hd] using this
  have htw : ∀ b ∈ l.takeWhile not_mapped, not_mapped b = true :=
    fun b hb => List.mem_takeWhile_imp hb
  have e1 : (l.takeWhile not_mapped).filter not_mapped = l.takeWhile not_mapped :=
    List.filter_eq_self.mpr htw
  have e2 : (l.takeWhile not_mapped).filter (fun b => !not_mapped b) = [] :=
    List.filter_eq_nil_iff.mpr (fun b hb => by simp [htw b hb])
  have hmb : mapped_blocks l = M :: post.filter (fun b => !not_mapped b) := by
    unfold mapped_blocks
    conv_lhs => rw [← hsplit, hd, List.filter_append, e2, List.nil_append]
    simp [List.filter_cons, hM]
  have hpost0 : post.filter (fun b => !not_mapped b) = [] := by
    rw [hmb] at hone
    simp only [List.length_cons] at hone
    exact List.length_eq_zero.mp (by omega)
  have hpost : ∀ b ∈ post, not_mapped b = true := by
    intro b hb
    have := List.filter_eq_nil_iff.mp hpost0 b hb
    simpa using this
  refine ⟨hM, htw, hpost, ?_, by rw [hmb, hpost0]⟩
  unfold heap_blocks
  conv_lhs => rw [← hsplit, hd, List.filter_append, e1]
  simp [List.filter_cons, hM, List.filter_eq_self.mpr hpost]

theorem mapped_last_sort_list {l : List Blk} (hone : (mapped_blocks l).length ≤ 1) :
    mapped_last (sort_list l) = true := by
  have hsplit := List.takeWhile_append_dropWhile not_mapped l
  cases hd : l.dropWhile not_mapped with
  | nil =>
    have e : sort_list l = l := by simp [sort_list, hd]
    rw [e]
    apply mapped_last_of_all
    intro b hb
    rw [← hsplit, hd, List.append_nil] at hb
    exact List.mem_takeWhile_imp hb
  | cons M rest =>
    obtain ⟨-, htw, hpost, -, -⟩ := one_mapped_split hd hone
    cases rest with
    | nil =>
      have e : sort_list l = l := by simp [sort_list, hd]
      rw [e, ← hsplit, hd]
      exact mapped_last_append htw M
    | cons n post =>
      cases ht : l.takeWhile not_mapped with
      | nil =>
        have e : sort_list l = [{ M with prev := last_addr (n :: post), next := 0 }] := by
          simp [sort_list, hd, ht]
        rw [e]
        rfl
      | cons p pre =>
        have e : sort_list l = move_to_tail (p :: pre) M (n :: post) := by
          simp [sort_list, hd, ht]
        rw [e]
        unfold move_to_tail
        apply mapped_last_append
        intro b hb
        rw [ht] at htw
        rcases List.mem_append.mp hb with hb | hb
        · obtain ⟨b0, hb0, -, e2⟩ := mem_relink_last hb
          have := htw b0 hb0
          simpa [not_mapped, e2] using this
        · obtain ⟨b1, hb1, -, e2⟩ := mem_relink_last hb
          obtain ⟨b0, hb0, -, e4⟩ := mem_set_prev hb1
          have := hpost b0 hb0
          simpa [not_mapped, e2, e4] using this

theorem key_sort_list {l : List Blk}
    (hhead : ∀ b, l.head? = some b → b.status ≠ STATUS_MAPPED)
    (hone : (mapped_blocks l).length ≤ 1) :
    (sort_list l).map Blk.key = (heap_blocks l ++ mapped_blocks l).map Blk.key := by
  have hsplit := List.takeWhile_append_dropWhile not_mapped l
  cases hd : l.dropWhile not_mapped with
  | nil =>
    have e : sort_list l = l := by simp [sort_list, hd]
    have hall : ∀ b ∈ l, not_mapped b = true := by
      intro b hb
      rw [← hsplit, hd, List.append_nil] at hb
      exact List.mem_takeWhile_imp hb
    have e1 : heap_blocks l = l := List.filter_eq_self.mpr hall
    have e2 : mapped_blocks l = [] :=
      List.filter_eq_nil_iff.mpr (fun b hb => by simp [hall b hb])
    rw [e, e1, e2, List.append_nil]
  | cons M rest =>
    obtain ⟨hM, htw, hpost, hh, hm⟩ := one_mapped_split hd hone
    rw [hh, hm]
    cases rest with
    | nil =>
      have e : sort_list l = l := by simp [sort_list, hd]
      rw [e]
      conv_lhs => rw [← hsplit, hd]
      simp
    | cons n post =>
      cases ht : l.takeWhile not_mapped with
      | nil =>
        exfalso
        rw [ht, hd, List.nil_append] at hsplit
        have := hhead M (by rw [← hsplit]; rfl)
        simp [not_mapped, this] at hM
      | cons p pre =>
        have e : sort_list l = move_to_tail (p :: pre) M (n :: post) := by
          simp [sort_list, hd, ht]
        rw [e]
        unfold move_to_tail
        simp only [List.map_append, map_key_relink_last, map_key_set_prev]
        simp [Blk.key]

/-- On every list that ends, whose prev links name the block before and that
has at most one MAPPED block, `coalesce_blocks` returns, and a second
`coalesce_blocks` on the memory it leaves returns that very memory: the list
is unchanged in order, sizes and statuses. -/
theorem coalesce_blocks_idempotent (fuel : Nat) (m : Mem) (s : Nat) (l : List Blk)
    (h : block_list fuel m s = some l) (hw : well_linked 0 l = true)
    (hone : (mapped_blocks l).length ≤ 1) :
    ∃ m1 l1, coalesce_blocks fuel m s = some m1
      ∧ block_list fuel m1 s = some l1
      ∧ coalesce_blocks fuel m1 s = some m1 := by
  obtain ⟨m1, hc, hl⟩ := coalesce_blocks_list h hw
  refine ⟨m1, _, hc, hl, ?_⟩
  have hseg := seg_of_block_list hl
  have hlen := block_list_length hl
  have hml := mapped_last_coalesce_list (2 * fuel) (mapped_last_sort_list hone)
  have hna : no_adjacent_free (coalesce_list (2 * fuel) (sort_list l)) = true := by
    apply coalesce_list_no_adjacent_free
    have h1 := block_list_length h
    have h2 := sort_list_length l
    omega
  have hs := sort_blocks_fixed hseg (mapped_last_next hseg hml) hlen
  have hcl : coalesce_loop (2 * fuel) m1 s = some m1 :=
    coalesce_loop_fixed hseg hna (by omega)
  simp [coalesce_blocks, hs, hcl]

/-- Example of `coalesce_blocks_idempotent`: an ALLOC block, a MAPPED block
and a FREE block in this order. -/
theorem coalesce_blocks_idempotent_example :
    block_list 8 (mem_of mapped_middle_list) 16777216 = some mapped_middle_list
      ∧ well_linked 0 mapped_middle_list = true
      ∧ (mapped_blocks mapped_middle_list).length ≤ 1
      ∧ ∃ m1 l1, coalesce_blocks 8 (mem_of mapped_middle_list) 16777216 = some m1
        ∧ block_list 8 m1 16777216 = some l1
        ∧ coalesce_blocks 8 m1 16777216 = some m1 :=
  ⟨by decide, by decide, by decide,
    coalesce_blocks_idempotent 8 (mem_of mapped_middle_list) 16777216
      mapped_middle_list (by decide) (by decide) (by decide)⟩

/-- C14: after `os_malloc(64)` and two `os_malloc(200000)` the list is well
formed, with the two MAPPED blocks at its end; one `coalesce_blocks` leaves
the MAPPED block of the second call before that of the first, and a second
`coalesce_blocks` puts them back in the order of the calls: the result of
`coalesce_blocks` is not a fixed point of `coalesce_blocks`. -/
theorem coalesce_twice_differs :
    block_list 16 two_mapped_state.mem two_mapped_state.start_block
        = some two_mapped_list
      ∧ well_linked 0 two_mapped_list = true
      ∧ (coalesce_blocks 16 two_mapped_state.mem two_mapped_state.start_block).bind
          (fun m1 => (block_list 16 m1 two_mapped_state.start_block).map
            (fun l1 => l1.map Blk.key))
        = some [(16777216, 96, 1), (16777312, 130976, 0),
            (140737488556032, 200032, 2), (140737488355328, 200032, 2)]
      ∧ ((coalesce_blocks 16 two_mapped_state.mem two_mapped_state.start_block).bind
          (fun m1 => coalesce_blocks 16 m1 two_mapped_state.start_block)).bind
          (fun m2 => (block_list 16 m2 two_mapped_state.start_block).map
            (fun l2 => l2.map Blk.key))
        = some [(16777216, 96, 1), (16777312, 130976, 0),
            (140737488355328, 200032, 2), (140737488556032, 200032, 2)] := by
  decide

/-! ## Segregation of the MAPPED blocks -/

/-- On every list that ends, whose prev links name the block before, whose
first block is not MAPPED and that has at most one MAPPED block,
`sort_blocks` returns and leaves the heap blocks in their input order
followed by the MAPPED block, each with its address, size and status; and
after `coalesce_blocks` every block from the first MAPPED one on is MAPPED. -/
theorem sort_blocks_segregates (fuel : Nat) (m : Mem) (s : Nat) (l : List Blk)
    (h : block_list fuel m s = some l) (hw : well_linked 0 l = true)
    (hhead : ∀ b, l.head? = some b → b.status ≠ STATUS_MAPPED)
    (hone : (mapped_blocks l).length ≤ 1) :
    (∃ m2 l2, sort_blocks fuel m s = some m2
      ∧ block_list fuel m2 s = some l2
      ∧ l2.map Blk.key = (heap_blocks l ++ mapped_blocks l).map Blk.key)
    ∧ (∃ m3 l3, coalesce_blocks fuel m s = some m3
      ∧ block_list fuel m3 s = some l3
      ∧ ∀ b ∈ l3.dropWhile not_mapped, b.status = STATUS_MAPPED) := by
  have hF := block_list_length h
  constructor
  · obtain ⟨m2, hs, hseg⟩ := sort_blocks_spec (seg_of_block_list h) hw hF
    refine ⟨m2, _, hs, block_list_of_seg hseg ?_, key_sort_list hhead hone⟩
    have := sort_list_length l
    omega
  · obtain ⟨m3, hc, hl⟩ := coalesce_blocks_list h hw
    exact ⟨m3, _, hc, hl, mapped_last_dropWhile
      (mapped_last_coalesce_list (2 * fuel) (mapped_last_sort_list hone))⟩

/-- Example of `sort_blocks_segregates`: an ALLOC block, a MAPPED block and a
FREE block in this order; `sort_blocks` moves the MAPPED block behind the
FREE one. -/
theorem sort_blocks_segregates_example :
    block_list 8 (mem_of mapped_middle_list) 16777216 = some mapped_middle_list
      ∧ well_linked 0 mapped_middle_list = true
      ∧ (mapped_blocks mapped_middle_list).length ≤ 1
      ∧ (∃ m2 l2, sort_blocks 8 (mem_of mapped_middle_list) 16777216 = some m2
        ∧ block_list 8 m2 16777216 = some l2
        ∧ l2.map Blk.key
          = [(16777216, 96, 1), (16777312, 130976, 0), (140737488355328, 200032, 2)])
      ∧ (∃ m3 l3, coalesce_blocks 8 (mem_of mapped_middle_list) 16777216 = some m3
        ∧ block_list 8 m3 16777216 = some l3
        ∧ ∀ b ∈ l3.dropWhile not_mapped, b.status = STATUS_MAPPED) :=
  ⟨by decide, by decide, by decide,
    sort_blocks_segregates 8 (mem_of mapped_middle_list) 16777216 mapped_middle_list
      (by decide) (by decide) (by decide) (by decide)⟩

/-- C17: `sort_blocks` moves one MAPPED block and stops, and a new head stays
in its parameter.  After `os_malloc(64)` and two `os_malloc(200000)` the list
is the two heap blocks, then the MAPPED block of the first call, then that of
the second: `sort_blocks` leaves the MAPPED blocks in the other order.  After
`os_malloc(200000)`, `os_malloc(64)` the list starts with the MAPPED block:
after `sort_blocks` the head the caller holds leads to that block alone.  On
the well-formed list ALLOC, MAPPED, FREE, MAPPED, ALLOC it leaves ALLOC, FREE,
MAPPED, ALLOC, MAPPED: a MAPPED block before a heap block. -/
theorem sort_blocks_reorders_mapped :
    block_list 16 two_mapped_state.mem two_mapped_state.start_block
        = some two_mapped_list
      ∧ well_linked 0 two_mapped_list = true
      ∧ (heap_blocks two_mapped_list ++ mapped_blocks two_mapped_list).map Blk.key
        = [(16777216, 96, 1), (16777312, 130976, 0),
            (140737488355328, 200032, 2), (140737488556032, 200032, 2)]
      ∧ (sort_blocks 16 two_mapped_state.mem two_mapped_state.start_block).bind
          (fun m1 => (block_list 16 m1 two_mapped_state.start_block).map
            (fun l1 => l1.map Blk.key))
        = some [(16777216, 96, 1), (16777312, 130976, 0),
            (140737488556032, 200032, 2), (140737488355328, 200032, 2)]
      ∧ block_list 16 mapped_first_state.mem mapped_first_state.start_block
        = some mapped_first_list
      ∧ well_linked 0 mapped_first_list = true
      ∧ (sort_blocks 16 mapped_first_state.mem mapped_first_state.start_block).bind
          (fun m1 => (block_list 16 m1 mapped_first_state.start_block).map
            (fun l1 => l1.map Blk.key))
        = some [(140737488355328, 200032, 2)]
      ∧ block_list 8 (mem_of mixed_list) 16777216 = some mixed_list
      ∧ well_linked 0 mixed_list = true
      ∧ (sort_blocks 8 (mem_of mixed_list) 16777216).bind
          (fun m1 => (block_list 8 m1 16777216).map (fun l1 => l1.map Blk.key))
        = some [(16777216, 96, 1), (16777312, 96, 0), (140737488556032, 200032, 2),
            (16777408, 130880, 1), (140737488355328, 200032, 2)] := by
  decide

/-! ## Evaluations at failing inputs -/

/-- C11: `os_malloc(SIZE_MAX)` on the virgin allocator computes
`total_size = 32` (the sum wraps), takes `MMAP_THRESHOLD` bytes by `sbrk` and
leaves an ALLOC block of 32 bytes at the head of the list: less than
`header_offset + 8 = 40`. -/
theorem huge_request_breaks_block_size :
    total_size cfg64 18446744073709551615 = 32
      ∧ header_offset cfg64 + 8 = 40
      ∧ (os_malloc cfg64 16 virgin 18446744073709551615).bind (fun r =>
          (block_list 8 r.1.mem r.1.start_block).map (fun l =>
            l.map (fun b => (b.key, decide (header_offset cfg64 + 8 ≤ b.size)))))
        = some [((16777216, 32, 1), false), ((16777248, 131040, 0), true)] := by
  decide

/-- C19: `os_malloc(SIZE_MAX)` on the virgin allocator returns the non-NULL
pointer `0x1000020` of a block of 32 bytes, payload capacity 0; and
`os_calloc(2 ^ 61 + 1, 8)`, whose product is `2 ^ 64 + 8`, returns the
non-NULL pointer of a block of 40 bytes, payload capacity 8. -/
theorem huge_request_returns_small_block :
    (os_malloc cfg64 16 virgin 18446744073709551615).bind (fun r =>
        (find_block cfg64 8 r.1.mem r.1.start_block r.2).bind (fun b =>
          (load r.1.mem b Field.size).map (fun sz =>
            (r.2, b, sz - header_offset cfg64))))
        = some (16777248, 16777216, 0)
      ∧ (os_calloc cfg64 16 virgin 2305843009213693953 8).bind (fun r =>
        (find_block cfg64 8 r.1.mem r.1.start_block r.2).bind (fun b =>
          (load r.1.mem b Field.size).map (fun sz =>
            (r.2, b, sz - header_offset cfg64))))
        = some (16777248, 16777216, 8)
      ∧ 2305843009213693953 * 8 = 18446744073709551616 + 8 := by
  decide

/-- C16: with FREE blocks of `2 ^ 31 + 64` and `2 ^ 31 + 72` bytes and a
request of 64 bytes, `find_available_block` returns the second FREE block,
whose residual `2 ^ 31 + 8` is larger than the residual `2 ^ 31` of the
first: the residual of the first block does not fit the `int diff`. -/
theorem find_available_block_int_diff :
    block_list 8 (mem_of wide_free_list) 16777216 = some wide_free_list
      ∧ well_linked 0 wide_free_list = true
      ∧ wide_free_list.map (fun b => (b.addr, b.status, usub b.size 64))
        = [(16777216, 0, 2147483648), (2164260928, 1, 32),
            (2164261024, 0, 2147483656)]
      ∧ find_available_block 8 (mem_of wide_free_list) 16777216 64
        = some 2164261024 := by
  decide

/-- C20: after `os_malloc(200000)`, `p = os_malloc(64)` the list from
`start_block` is the MAPPED block, the ALLOC block of `p` and the FREE
remainder, and `find_block` locates the block of `p`; after the entry
coalesce of a further call (`os_malloc(0)`, which does nothing else)
`start_block` leads to the MAPPED block alone and `find_block` returns NULL
for `p`. -/
theorem entry_coalesce_loses_blocks :
    block_list 16 mapped_first_state.mem mapped_first_state.start_block
        = some mapped_first_list
      ∧ well_linked 0 mapped_first_list = true
      ∧ find_block cfg64 16 mapped_first_state.mem mapped_first_state.start_block
          16777248 = some 16777216
      ∧ (os_malloc cfg64 16 mapped_first_state 0).bind (fun r =>
          (block_list 16 r.1.mem r.1.start_block).map (fun l => l.map Blk.key))
        = some [(140737488355328, 200032, 2)]
      ∧ (os_malloc cfg64 16 mapped_first_state 0).bind (fun r =>
          find_block cfg64 16 r.1.mem r.1.start_block 16777248)
        = some 0 := by
  decide

/-- C13: in the state after `os_malloc(200000)`, `os_malloc(64)` with the
break at its bound, the list starts with the MAPPED block and
`find_last_heap_block` returns NULL; `os_malloc(200)` tests `prev_block`
(line 155), calls `sbrk(232)`, which fails, and returns NULL, while
`os_calloc(1, 200)` reads `prev_block->status` through NULL (line 363) and has
no result. -/
theorem calloc_reads_null_last_heap_block :
    total_size cfg64 (1 * 200) = 232
      ∧ cfg64.PAGE_SIZE ≤ MMAP_THRESHOLD
      ∧ total_size cfg64 (1 * 200) < cfg64.PAGE_SIZE
      ∧ (os_malloc cfg64 16 tight_state 200).map (fun r =>
          (r.2, r.1.trace.drop tight_state.trace.length))
        = some (0, [Event.sbrk 232])
      ∧ (os_calloc cfg64 16 tight_state 1 200).map (fun r => r.2) = none := by
  decide

/-! ## Agreement of `os_calloc` with `os_malloc` -/

/-- The test `prev_block &&` of `os_malloc` changes nothing where the branch
of `os_calloc` without it has a result. -/
theorem reuse_path_guard {cfg : Config} {fuel : Nat} {s : State} {total : Nat}
    {r : State × Nat} (h : reuse_path cfg fuel false s total = some r) :
    reuse_path cfg fuel true s total = some r := by
  unfold reuse_path at h ⊢
  cases hfa : find_available_block fuel s.mem s.start_block total with
  | none => simp [hfa] at h
  | some block =>
    by_cases hb : block = 0
    · subst hb
      cases hlh : find_last_heap_block fuel s.mem s.start_block with
      | none => simp [hfa, hlh] at h
      | some pb =>
        by_cases hpb : pb = 0
        · subst hpb
          simp [hfa, hlh, status_is, load] at h
        · simpa [hfa, hlh, hpb] using h
    · simpa [hfa, hb] using h

/-- The size that a block of the first branch keeps when no remainder is
split off plays no part when a remainder is split off. -/
theorem bootstrap_path_unsplit (cfg : Config) (fuel : Nat) (u1 u2 : Nat) (s : State)
    (total : Nat)
    (h : (header_offset cfg + 8) % SIZE_MOD ≤ usub MMAP_THRESHOLD total ∨ u1 = u2) :
    bootstrap_path cfg fuel u1 s total = bootstrap_path cfg fuel u2 s total := by
  rcases h with h | h
  · unfold bootstrap_path
    simp only [h, if_true]
  · rw [h]

/-- Where `os_calloc(nmemb, size)` has a result for a product `n > 0` with
`total < PAGE_SIZE <= MMAP_THRESHOLD`, and a remainder is split off the first
block of the heap or the page size is `MMAP_THRESHOLD`, `os_malloc(n)` has
one from the same state, with the same pointer, header words, `start_block`,
`heap_preallocated`, break and system calls. -/
theorem os_calloc_agrees (cfg : Config) (fuel : Nat) (s : State) (nmemb size : Nat)
    (r : State × Nat) (hn : 0 < nmemb * size) (hlt : nmemb * size < SIZE_MOD)
    (hp : cfg.PAGE_SIZE ≤ MMAP_THRESHOLD)
    (ht : total_size cfg (nmemb * size) < cfg.PAGE_SIZE)
    (hsplit : (header_offset cfg + 8) % SIZE_MOD
        ≤ usub MMAP_THRESHOLD (total_size cfg (nmemb * size))
      ∨ cfg.PAGE_SIZE = MMAP_THRESHOLD)
    (hc : os_calloc cfg fuel s nmemb size = some r) :
    ∃ r0, os_malloc cfg fuel s (nmemb * size) = some r0
      ∧ r.2 = r0.2 ∧ r.1.mem = r0.1.mem ∧ r.1.start_block = r0.1.start_block
      ∧ r.1.heap_preallocated = r0.1.heap_preallocated ∧ r.1.brk = r0.1.brk
      ∧ r.1.trace.filter Event.is_syscall = r0.1.trace.filter Event.is_syscall := by
  have hn0 : nmemb * size ≠ 0 := by omega
  have hmod : size * nmemb % SIZE_MOD = nmemb * size := by
    rw [Nat.mul_comm, Nat.mod_eq_of_lt hlt]
  have hpm : cfg.PAGE_SIZE % SIZE_MOD = cfg.PAGE_SIZE := by
    apply Nat.mod_eq_of_lt
    have : MMAP_THRESHOLD < SIZE_MOD := by decide
    omega
  have htt : total_size cfg (nmemb * size) < MMAP_THRESHOLD := by omega
  have hzero : ∀ (r1 : State × Nat),
      (if r1.2 = 0 then r1
        else ({ r1.1 with trace := r1.1.trace ++ [Event.memset r1.2 (nmemb * size)] },
          r1.2)) = r →
      r.2 = r1.2 ∧ r.1.mem = r1.1.mem ∧ r.1.start_block = r1.1.start_block
      ∧ r.1.heap_preallocated = r1.1.heap_preallocated ∧ r.1.brk = r1.1.brk
      ∧ r.1.trace.filter Event.is_syscall = r1.1.trace.filter Event.is_syscall := by
    intro r1 e
    subst e
    split
    · exact ⟨rfl, rfl, rfl, rfl, rfl, rfl⟩
    · refine ⟨rfl, rfl, rfl, rfl, rfl, ?_⟩
      simp [List.filter_append, Event.is_syscall]
  unfold os_calloc at hc
  unfold os_malloc
  cases hcb : coalesce_blocks fuel s.mem s.start_block with
  | none => simp [hcb] at hc
  | some m0 =>
    simp only [hcb, Option.bind_eq_bind, Option.some_bind, hmod, hpm, hn0, if_false]
      at hc ⊢
    by_cases hh : s.heap_preallocated = false
    · simp only [hh, ht, htt, and_self, if_true, true_and] at hc ⊢
      obtain ⟨r1, hr1, e⟩ := Option.map_eq_some'.mp hc
      rw [bootstrap_path_unsplit cfg fuel cfg.PAGE_SIZE MMAP_THRESHOLD _ _ hsplit] at hr1
      exact ⟨r1, hr1, hzero r1 e⟩
    · have hh2 : s.heap_preallocated = true := by
        cases hv : s.heap_preallocated with
        | false => exact absurd hv hh
        | true => rfl
      have hnp : ¬ cfg.PAGE_SIZE ≤ total_size cfg (nmemb * size) := by omega
      have hnt : ¬ MMAP_THRESHOLD ≤ total_size cfg (nmemb * size) := by omega
      simp only [hh2, ht, htt, hnp, hnt, and_self, if_true, if_false, true_and,
        false_and] at hc ⊢
      obtain ⟨r1, hr1, e⟩ := Option.map_eq_some'.mp hc
      exact ⟨r1, reuse_path_guard hr1, hzero r1 e⟩

end OsMem
